import Mathlib

/-!
# Linux_KeyValue: a shallow embedding of `key_value.c`

Bytes are natural numbers, NUL is `0`.  A `char *` buffer is the list of the
bytes it owns; a pointer into it is an offset, and what can be read from a
pointer is the suffix of the list from that offset.  A read or write outside
the list is an out-of-bounds access: the functions that can perform one return
`Option`, with `none` for a run that leaves the buffer.  A `const char *`
argument is given by the bytes of the string before its terminator.

A file is the list of its bytes; the state of the one path the operations are
called on is `Option (List Nat)`, `none` for a path that cannot be opened for
reading (no file).  Whether the path can be opened for writing is an input of
`kv_set_value`, the boolean `writable`: it is the outcome of
`fopen(filename, "w")`.  Allocation (`calloc`, `open_memstream`) and stream
operations on an open stream succeed.
-/

namespace KV

/-! ## Constants of `key_value.h` and `key_value.c` -/

/-- Size of the line buffer, `KV_LINE_SIZE`. -/
def KV_LINE_SIZE : Nat := 512

/-- The delimiter set `KV_DELIMITERS`, the bytes of `" =,\t\r\n"`. -/
def KV_DELIMITERS : List Nat := [32, 61, 44, 9, 13, 10]

/-- Status `KV_OK_SUCCESS`. -/
def KV_OK_SUCCESS : Int := 0
/-- Status `KV_OUT_OF_MEM_ERR`. -/
def KV_OUT_OF_MEM_ERR : Int := -1
/-- Status `KV_ARGUMENT_ERR`. -/
def KV_ARGUMENT_ERR : Int := -2
/-- Status `KV_FILE_ERR`. -/
def KV_FILE_ERR : Int := -3
/-- Status `KV_NOT_FOUND`. -/
def KV_NOT_FOUND : Int := -4

/-! ## `<ctype.h>` in the "C" locale -/

/-- The `isspace` class: space, `\t`, `\n`, `\v`, `\f`, `\r`. -/
def isspace (c : Nat) : Bool := c == 32 || (9 ≤ c && c ≤ 13)

/-- The `isdigit` class: `'0'..'9'`. -/
def isdigit (c : Nat) : Bool := 48 ≤ c && c ≤ 57

/-- The `isxdigit` class: `'0'..'9'`, `'A'..'F'`, `'a'..'f'`. -/
def isxdigit (c : Nat) : Bool :=
  (48 ≤ c && c ≤ 57) || (65 ≤ c && c ≤ 70) || (97 ≤ c && c ≤ 102)

/-- The `toupper` map: `'a'..'z'` go to `'A'..'Z'`, other bytes stay. -/
def toupper (c : Nat) : Nat := if 97 ≤ c ∧ c ≤ 122 then c - 32 else c

/-! ## `<string.h>` on buffers -/

/-- The C string a pointer designates: the bytes before the first NUL. -/
def cstr (p : List Nat) : List Nat := p.takeWhile (fun c => c != 0)

/-- The `strspn` scan from a pointer: number of leading bytes that are in
`accept`; `none` when the scan leaves the buffer. -/
def strspn : List Nat → List Nat → Option Nat
  | [], _ => none
  | c :: cs, accept =>
    if c ≠ 0 ∧ c ∈ accept then (strspn cs accept).map (· + 1) else some 0

/-- The `strcspn` scan from a pointer: number of leading bytes that are neither
NUL nor in `reject`; `none` when the scan leaves the buffer. -/
def strcspn : List Nat → List Nat → Option Nat
  | [], _ => none
  | c :: cs, reject =>
    if c = 0 ∨ c ∈ reject then some 0 else (strcspn cs reject).map (· + 1)

/-- The `strlen` scan from a pointer; `none` when no NUL is met inside the
buffer. -/
def strlen (p : List Nat) : Option Nat := strcspn p []

/-- Read `buf[i]`; `none` outside the buffer. -/
def peek (buf : List Nat) (i : Nat) : Option Nat := buf.get? i

/-- Write `buf[i] = v`; `none` outside the buffer. -/
def poke (buf : List Nat) (i v : Nat) : Option (List Nat) :=
  if i < buf.length then some (buf.set i v) else none

/-- One call of `strtok` scanning `buf` from offset `start` (the string given,
or the position saved by the previous call).  Leading delimiters are skipped;
at a NUL the call returns `NULL`; otherwise the token runs to the next
delimiter, which is overwritten with NUL, or to the terminator.  The result is
the token's offset (`none` for `NULL`), the buffer, and the saved position. -/
def strtok (buf : List Nat) (start : Nat) (delim : List Nat) :
    Option (Option Nat × List Nat × Nat) := do
  let n ← strspn (buf.drop start) delim
  let tok := start + n
  let c ← peek buf tok
  if c = 0 then
    pure (none, buf, tok)
  else
    let m ← strcspn (buf.drop tok) delim
    let e := tok + m
    let d ← peek buf e
    if d = 0 then
      pure (some tok, buf, e)
    else
      let buf1 ← poke buf e 0
      pure (some tok, buf1, e + 1)

/-- The copy `memmove(string, string + p, len)` inside one buffer. -/
def memmove (buf : List Nat) (p len : Nat) : Option (List Nat) :=
  if p + len ≤ buf.length then some ((buf.drop p).take len ++ buf.drop len) else none

/-! ## `kv_trim_string` -/

/-- The loop `while ((*pch != 0) && isspace(*pch)) ++pch;` from offset `p`,
written on the suffix of the buffer at `p`; the result is the final offset. -/
def skipLeading : List Nat → Nat → Option Nat
  | [], _ => none
  | c :: cs, p => if c ≠ 0 ∧ isspace c = true then skipLeading cs (p + 1) else some p

/-- The loop `while ((string < pch) && isspace(*pch)) --pch;` with `pch` at
offset `k`; the result is the final offset. -/
def skipTrailing (buf : List Nat) : Nat → Option Nat
  | 0 => some 0
  | k + 1 => do
    let c ← peek buf (k + 1)
    if isspace c = true then skipTrailing buf k else pure (k + 1)

/-- The function `kv_trim_string` on the buffer `string` points to; the result
is the buffer it leaves, `none` when it accesses a byte outside the buffer. -/
def kv_trim_string (string : List Nat) : Option (List Nat) := do
  -- strtok(string, "\r\n");
  let (_, s1, _) ← strtok string 0 [13, 10]
  -- while ((*pch != '\0') && (isspace(*pch))) ++pch;
  let p ← skipLeading s1 0
  -- len = strlen(pch) + 1; memmove(string, pch, len);
  let n ← strlen (s1.drop p)
  let len := n + 1
  let s2 ← memmove s1 p len
  -- pch = string + len; while ((string < pch) && (isspace(*pch))) --pch;
  let q ← skipTrailing s2 len
  -- *pch = '\0';
  poke s2 q 0

/-! ## `kv_get_value_pos` -/

/-- The call `strncpy(dest, src, n)` for a C string `src`: the first `n` bytes
of `dest` become the bytes of `src`, cut at `n` or padded with NUL to `n`. -/
def strncpy (dest src : List Nat) (n : Nat) : Option (List Nat) :=
  if n ≤ dest.length then
    some (src.take n ++ List.replicate (n - src.length) 0 ++ dest.drop n)
  else none

/-- The call `strncmp(a, b, n)` for a pointer `a` into a buffer and a C string
`b`; only whether the result is `0` is kept. -/
def strncmp (a b : List Nat) (n : Nat) : Int :=
  if (cstr a).take n = b.take n then 0 else 1

/-- The function `kv_get_value_pos` on the C strings `string` and `key`: the
offset of the second token of `string` when its first token is `key`, else 0;
`none` when `strtok` runs off the 512-byte copy of `string`. -/
def kv_get_value_pos (string key : List Nat) : Option Nat := do
  let key_len := key.length
  if string.length = 0 ∨ key_len = 0 then
    pure 0
  else
    -- kv_alloc_buf(&line, KV_LINE_SIZE); strncpy(line, string, KV_LINE_SIZE);
    let line ← strncpy (List.replicate KV_LINE_SIZE 0) string KV_LINE_SIZE
    -- pch = strtok(line, KV_DELIMITERS);
    let (pch, line1, save) ← strtok line 0 KV_DELIMITERS
    match pch with
    | none => pure 0
    | some tok =>
      let token_len ← strlen (line1.drop tok)
      if key_len ≠ token_len ∨ strncmp (line1.drop tok) key key_len ≠ 0 then
        pure 0
      else
        -- pch = strtok(NULL, KV_DELIMITERS);
        let (pch2, _, _) ← strtok line1 save KV_DELIMITERS
        match pch2 with
        | none => pure 0
        | some tok2 => pure tok2

/-! ## `kv_is_decimal`, `kv_is_hexadecimal` -/

/-- The loop of `kv_is_decimal`, on the bytes of the string from the last one
to the first. -/
def decimalLoop : List Nat → Bool
  | [] => true
  | c :: cs => if isdigit c = false then false else decimalLoop cs

/-- The function `kv_is_decimal` on a C string. -/
def kv_is_decimal (string : List Nat) : Bool := decimalLoop string.reverse

/-- The loop of `kv_is_hexadecimal`, on the bytes of the string from the last
one to the first; the argument of `isxdigit` is the value of the comparison
`string[len] == 0`. -/
def hexadecimalLoop : List Nat → Bool
  | [] => true
  | c :: cs =>
    if isxdigit (if c = 0 then 1 else 0) = true ∧ toupper c ≠ 88 then false
    else hexadecimalLoop cs

/-- The function `kv_is_hexadecimal` on a C string. -/
def kv_is_hexadecimal (string : List Nat) : Bool := hexadecimalLoop string.reverse

/-! ## Streams -/

/-- The bytes one `fgets` call with room for `room` characters takes from a
stream: up to and including the first line feed. -/
def fgetsTake : Nat → List Nat → List Nat
  | 0, _ => []
  | _, [] => []
  | room + 1, c :: cs => if c = 10 then [c] else c :: fgetsTake room cs

/-- The call `fgets(line, n, fp)` on the bytes `fp` left in a stream: `none`
(`NULL`) at end of file, else the line buffer with the characters read and a
NUL stored at its start, and the bytes left in the stream. -/
def fgets (line : List Nat) (n : Nat) (fp : List Nat) : Option (List Nat × List Nat) :=
  if fp = [] then none
  else
    let chunk := fgetsTake (n - 1) fp
    some (chunk ++ 0 :: line.drop (chunk.length + 1), fp.drop chunk.length)

/-! ## `kv_get_value` -/

/-- The `while (fgets(...))` loop of `kv_get_value` and what follows it, with
`fp` the bytes left in the file and `line` the line buffer; the result is the
status and the caller's buffer `value`.  The fuel bounds the iterations; each
one consumes a byte of `fp`, so the callers' fuel is never used up. -/
def getLoop (key value : List Nat) (size : Nat) :
    Nat → List Nat → List Nat → Option (Int × List Nat)
  | 0, _, _ => none
  | fuel + 1, fp, line =>
    match fgets line KV_LINE_SIZE fp with
    | none => some (KV_NOT_FOUND, value)
    | some (line1, fp1) => do
      let line2 ← kv_trim_string line1
      let n ← strlen line2
      let value_pos ← if n = 0 then pure 0 else kv_get_value_pos (cstr line2) key
      if value_pos = 0 then
        -- memset(line, 0, KV_LINE_SIZE); continue;
        getLoop key value size fuel fp1 (List.replicate KV_LINE_SIZE 0)
      else
        let token_len ← strlen (line2.drop value_pos)
        if token_len > size then
          pure (KV_OUT_OF_MEM_ERR, value)
        else
          -- strncpy(value, line + value_pos, token_len); value[token_len] = 0
          let v1 ← strncpy value (cstr (line2.drop value_pos)) token_len
          let v2 ← poke v1 token_len 0
          pure (KV_OK_SUCCESS, v2)

/-- The function `kv_get_value`: `fs` is the state of the file at `filename`,
`value` the caller's buffer and `size` the capacity passed for it.  The result
is the status and the caller's buffer, `none` for a run with an out-of-bounds
access. -/
def kv_get_value (filename : List Nat) (fs : Option (List Nat)) (key value : List Nat)
    (size : Nat) : Option (Int × List Nat) :=
  if size = 0 then some (KV_ARGUMENT_ERR, value)
  else if filename.length = 0 ∨ key.length = 0 then some (KV_ARGUMENT_ERR, value)
  else
    match fs with
    | none => some (KV_ARGUMENT_ERR, value)
    | some content =>
      getLoop key value size (content.length + 1) content (List.replicate KV_LINE_SIZE 0)

/-! ## `kv_set_value` -/

/-- The first `while (fgets(...))` loop of `kv_set_value`: `fp` is what is left
of the file, `line` the line buffer, `tmp` the staging stream written so far.
The result is the line buffer, the staging stream and `key_found`. -/
def setLoop (key value : List Nat) :
    Nat → List Nat → List Nat → List Nat → Bool → Option (List Nat × List Nat × Bool)
  | 0, _, _, _, _ => none
  | fuel + 1, fp, line, tmp, key_found =>
    match fgets line KV_LINE_SIZE fp with
    | none => some (line, tmp, key_found)
    | some (line1, fp1) => do
      let line2 ← kv_trim_string line1
      let n ← strlen line2
      if n = 0 then
        setLoop key value fuel fp1 line2 tmp key_found
      else
        let value_pos ← kv_get_value_pos (cstr line2) key
        if value_pos = 0 then
          -- fprintf(tmp_fp, "%s\n", line);
          setLoop key value fuel fp1 (List.replicate KV_LINE_SIZE 0)
            (tmp ++ cstr line2 ++ [10]) key_found
        else
          -- fprintf(tmp_fp, "%s=%s\n", key, value); key_found = true;
          setLoop key value fuel fp1 (List.replicate KV_LINE_SIZE 0)
            (tmp ++ key ++ [61] ++ value ++ [10]) true

/-- The second loop of `kv_set_value`, `fgets` from the staging stream and
`fputs` to the file: `tmp` is what is left of the staging stream, `out` the
file written so far. -/
def copyLoop : Nat → List Nat → List Nat → List Nat → Option (List Nat)
  | 0, _, _, _ => none
  | fuel + 1, tmp, line, out =>
    match fgets line KV_LINE_SIZE tmp with
    | none => some out
    | some (line1, tmp1) =>
      copyLoop fuel tmp1 (List.replicate KV_LINE_SIZE 0) (out ++ cstr line1)

/-- The function `kv_set_value`: `fs` is the state of the file at `filename`,
and `writable` tells whether `fopen(filename, "w")` succeeds.  The result is
the status and the new state of the file, `none` for a run with an
out-of-bounds access.  When the path cannot be opened for writing the status
is `KV_ARGUMENT_ERR` and the file is left as it was. -/
def kv_set_value (filename : List Nat) (writable : Bool) (fs : Option (List Nat))
    (key value : List Nat) : Option (Int × Option (List Nat)) :=
  if filename.length = 0 ∨ key.length = 0 ∨ value.length = 0 then
    some (KV_ARGUMENT_ERR, fs)
  else do
    let line0 := List.replicate KV_LINE_SIZE 0
    -- fp = fopen(filename, "r");
    let (line1, tmp, key_found) ←
      match fs with
      | none => pure (line0, [], false)
      | some content => setLoop key value (content.length + 1) content line0 [] false
    -- new_kv_set_value:
    let tmp1 := if key_found = false then tmp ++ key ++ [61] ++ value ++ [10] else tmp
    -- fp = fopen(filename, "w");
    if writable = false then
      pure (KV_ARGUMENT_ERR, fs)
    else do
      let out ← copyLoop (tmp1.length + 1) tmp1 line1 []
      pure (KV_OK_SUCCESS, some out)

/-! ## Functions used to state what the code computes -/

/-- The bytes `kv_trim_string` leaves of the string `s`: leading CR and LF are
passed over, the string is cut at the next CR or LF, and leading white space
is dropped. -/
def trimmed (s : List Nat) : List Nat :=
  ((s.dropWhile (fun c => decide (c ∈ [13, 10]))).takeWhile
    (fun c => !decide (c ∈ [13, 10]))).dropWhile isspace

/-- The part of `kv_trim_string` after the call of `strtok`. -/
def trimAfterTok (s1 : List Nat) : Option (List Nat) := do
  let p ← skipLeading s1 0
  let n ← strlen (s1.drop p)
  let s2 ← memmove s1 p (n + 1)
  let q ← skipTrailing s2 (n + 1)
  poke s2 q 0

/-- Membership in `KV_DELIMITERS`. -/
def isDelim (c : Nat) : Bool := decide (c ∈ KV_DELIMITERS)

/-- The offset `kv_get_value_pos` computes on the string `s`: with `t` the
first run of non-delimiters and `s3` what follows the delimiters after it, the
offset of `s3` in `s` when `t` is the key and `s3` is not empty, else 0. -/
def valuePos (s key : List Nat) : Nat :=
  let s1 := s.dropWhile isDelim
  let t := s1.takeWhile (fun c => !isDelim c)
  let s3 := (s1.dropWhile (fun c => !isDelim c)).dropWhile isDelim
  if key ≠ [] ∧ t = key ∧ s3 ≠ [] then s.length - s3.length else 0

/-- The part of `kv_get_value_pos` after the first call of `strtok`. -/
def posAfterTok (key : List Nat) (x : Option Nat × List Nat × Nat) : Option Nat :=
  match x.1 with
  | none => pure 0
  | some tok => do
    let token_len ← strlen (x.2.1.drop tok)
    if key.length ≠ token_len ∨ strncmp (x.2.1.drop tok) key key.length ≠ 0 then
      pure 0
    else
      let y ← strtok x.2.1 x.2.2 KV_DELIMITERS
      match y.1 with
      | none => pure 0
      | some tok2 => pure tok2

/-- The tokens of a string: it is split at every byte of the delimiter set and
the empty pieces are dropped, which leaves the maximal runs of bytes outside
the set. -/
def tokens (s : List Nat) : List (List Nat) :=
  (s.splitOnP isDelim).filter (fun t => decide (t ≠ []))

/-- The pieces the successive calls `fgets(line, KV_LINE_SIZE, fp)` deliver
from the bytes `fp` of a stream, until `fgets` returns `NULL`. -/
def chunks : Nat → List Nat → List (List Nat)
  | 0, _ => []
  | fuel + 1, fp =>
    if fp = [] then []
    else fgetsTake (KV_LINE_SIZE - 1) fp
      :: chunks fuel (fp.drop (fgetsTake (KV_LINE_SIZE - 1) fp).length)

/-- The pieces `fgets` delivers from a whole file. -/
def fileChunks (fp : List Nat) : List (List Nat) := chunks fp.length fp

/-- The pieces `fgets` delivers from the file at a path: none when the path
has no file. -/
def stateLines (fs : Option (List Nat)) : List (List Nat) :=
  match fs with
  | none => []
  | some content => fileChunks content

/-- The line the loops of `kv_get_value` and `kv_set_value` work on after
`fgets` has delivered `chunk`: the string in the buffer ends at the first NUL,
and `kv_trim_string` leaves `trimmed` of it. -/
def lineOf (chunk : List Nat) : List Nat := trimmed (cstr chunk)

/-- The result of `kv_get_value` on a file, from the pieces `fgets` delivers:
the first line with a nonzero `valuePos` decides, and a line that leaves no
byte after its terminator in the line buffer makes `kv_trim_string` read
outside the buffer. -/
def readerSpec (key value : List Nat) (size : Nat) : List (List Nat) → Option (Int × List Nat)
  | [] => some (KV_NOT_FOUND, value)
  | c :: cs =>
    if KV_LINE_SIZE < (lineOf c).length + 2 then none
    else if valuePos (lineOf c) key = 0 then readerSpec key value size cs
    else if ((lineOf c).drop (valuePos (lineOf c) key)).length > size then
      some (KV_OUT_OF_MEM_ERR, value)
    else
      (strncpy value ((lineOf c).drop (valuePos (lineOf c) key))
          ((lineOf c).drop (valuePos (lineOf c) key)).length).bind fun v1 =>
        (poke v1 ((lineOf c).drop (valuePos (lineOf c) key)).length 0).bind fun v2 =>
          some (KV_OK_SUCCESS, v2)

/-- The lines of a text: it is cut after every line feed, and each line keeps
its line feed; a last line without one is kept too. -/
def textLines : List Nat → List (List Nat)
  | [] => []
  | c :: cs =>
    if c = 10 then [10] :: textLines cs
    else
      match textLines cs with
      | [] => [[c]]
      | l :: ls => (c :: l) :: ls

/-- Whether a line defines a key: the first token of the line is the key, and
a second token, the value token, follows it. -/
def definesKey (line key : List Nat) : Bool :=
  match tokens line with
  | t :: _ :: _ => decide (t = key)
  | _ => false

/-- The text of a line from the first byte of its value token to its end. -/
def valueText (line key : List Nat) : List Nat := line.drop (valuePos line key)

/-- The entry `key=value` with its line feed, as `fprintf(tmp_fp, "%s=%s\n",
key, value)` writes it. -/
def entry (key value : List Nat) : List Nat := key ++ [61] ++ value ++ [10]

/-- What the first loop of `kv_set_value` writes for one piece delivered by
`fgets`: nothing for an empty trimmed line, the trimmed line and a line feed
when `kv_get_value_pos` gives 0, the entry `key=value` otherwise. -/
def lineOut (key value c : List Nat) : List Nat :=
  if lineOf c = [] then []
  else if valuePos (lineOf c) key = 0 then lineOf c ++ [10]
  else entry key value

/-- What the first loop of `kv_set_value` writes for the lines of a file. -/
def rewriteLines (key value : List Nat) (cs : List (List Nat)) : List Nat :=
  (cs.map (lineOut key value)).flatten

/-- Whether the first loop of `kv_set_value` sets `key_found`. -/
def keyFound (key : List Nat) (cs : List (List Nat)) : Bool :=
  cs.any (fun c => valuePos (lineOf c) key != 0)

/-- The file `kv_set_value` writes, from the lines of the file it reads: the
rewritten lines, and the entry `key=value` appended when no line matched. -/
def writerSpec (key value : List Nat) (cs : List (List Nat)) : List Nat :=
  rewriteLines key value cs ++ (if keyFound key cs = true then [] else entry key value)

/-- A well-formed key or value: a non-empty C string with no byte of the
delimiter set. -/
def wellFormed (s : List Nat) : Prop := s ≠ [] ∧ ∀ c ∈ s, c ≠ 0 ∧ isDelim c = false

/-- A line as `kv_trim_string` leaves one: no NUL, CR or LF, and no white
space at its start. -/
def cleanLine (l : List Nat) : Prop :=
  (∀ c ∈ l, c ≠ 0 ∧ c ≠ 13 ∧ c ≠ 10) ∧ (∀ c, l.head? = some c → isspace c = false)

/-- The lines of the file `kv_set_value` writes, without their line feeds. -/
def newLines (key value : List Nat) (cs : List (List Nat)) : List (List Nat) :=
  cs.filterMap (fun c =>
      if lineOf c = [] then none
      else if valuePos (lineOf c) key = 0 then some (lineOf c)
      else some (key ++ 61 :: value))
    ++ (if keyFound key cs = true then [] else [key ++ 61 :: value])

/-- One entry `key=value` of a file with its line terminator, LF or CR LF. -/
def entryLine (k v : List Nat) (crlf : Bool) : List Nat :=
  k ++ 61 :: v ++ (if crlf = true then [13, 10] else [10])

/-- The file made of the given entries (key, value, whether the line ends in
CR LF), one per line. -/
def entriesFile (es : List (List Nat × List Nat × Bool)) : List Nat :=
  (es.map (fun e => entryLine e.1 e.2.1 e.2.2)).flatten

/-! ## Facts about the string primitives -/

theorem strspn_stop (accept a r : List Nat) (y : Nat) (ha : ∀ c ∈ a, c ≠ 0 ∧ c ∈ accept)
    (hy : ¬ (y ≠ 0 ∧ y ∈ accept)) : strspn (a ++ y :: r) accept = some a.length := by
  induction a with
  | nil => simp [strspn, hy]
  | cons c cs ih =>
    have ih1 := ih (fun x hx => ha x (by simp [hx]))
    have hc := ha c (by simp)
    simp [strspn, hc, ih1]

theorem strcspn_stop (reject t r : List Nat) (y : Nat) (ht : ∀ c ∈ t, c ≠ 0 ∧ c ∉ reject)
    (hy : y = 0 ∨ y ∈ reject) : strcspn (t ++ y :: r) reject = some t.length := by
  induction t with
  | nil => simp [strcspn, hy]
  | cons c cs ih =>
    have ih1 := ih (fun x hx => ht x (by simp [hx]))
    have hc := ht c (by simp)
    simp [strcspn, hc, ih1]

theorem strlen_run (s r : List Nat) (hs : ∀ c ∈ s, c ≠ 0) :
    strlen (s ++ 0 :: r) = some s.length := by
  unfold strlen
  exact strcspn_stop [] s r 0 (fun c hc => ⟨hs c hc, by simp⟩) (Or.inl rfl)

theorem cstr_run (s r : List Nat) (hs : ∀ c ∈ s, c ≠ 0) : cstr (s ++ 0 :: r) = s := by
  induction s with
  | nil => simp [cstr]
  | cons c cs ih =>
    have hc : c ≠ 0 := hs c (by simp)
    have ih1 := ih (fun x hx => hs x (by simp [hx]))
    simp only [cstr] at ih1 ⊢
    simp [List.takeWhile_cons, hc, ih1]

theorem cstr_nul_free (p : List Nat) : ∀ c ∈ cstr p, c ≠ 0 := by
  intro c hc
  have := List.mem_takeWhile_imp hc
  simpa using this

theorem peek_run (s r : List Nat) (x : Nat) : peek (s ++ x :: r) s.length = some x := by
  induction s with
  | nil => simp [peek]
  | cons c cs ih => simpa [peek] using ih

theorem poke_run (s r : List Nat) (x v : Nat) :
    poke (s ++ x :: r) s.length v = some (s ++ v :: r) := by
  simp [poke]

theorem drop_run (s r : List Nat) : (s ++ r).drop s.length = r := by
  simp

/-- `strtok` on a run of delimiters that ends at the terminator: `NULL`. -/
theorem strtok_null (delim pre a r : List Nat) (ha : ∀ c ∈ a, c ≠ 0 ∧ c ∈ delim) :
    strtok (pre ++ (a ++ 0 :: r)) pre.length delim
      = some (none, pre ++ (a ++ 0 :: r), pre.length + a.length) := by
  have h1 : strspn ((pre ++ (a ++ 0 :: r)).drop pre.length) delim = some a.length := by
    rw [drop_run]; exact strspn_stop delim a r 0 ha (by simp)
  have h2 : peek (pre ++ (a ++ 0 :: r)) (pre.length + a.length) = some 0 := by
    have := peek_run (pre ++ a) r 0
    simpa using this
  simp only [strtok, h1, h2, Option.bind_eq_bind, Option.some_bind]
  simp

/-- `strtok` on delimiters followed by a token that runs to the terminator. -/
theorem strtok_last (delim pre a t r : List Nat) (ha : ∀ c ∈ a, c ≠ 0 ∧ c ∈ delim)
    (ht : ∀ c ∈ t, c ≠ 0 ∧ c ∉ delim) (hne : t ≠ []) :
    strtok (pre ++ (a ++ (t ++ 0 :: r))) pre.length delim
      = some (some (pre.length + a.length), pre ++ (a ++ (t ++ 0 :: r)),
          pre.length + a.length + t.length) := by
  obtain ⟨y, t1, rfl⟩ := List.exists_cons_of_ne_nil hne
  have hy := ht y (by simp)
  have h1 : strspn ((pre ++ (a ++ (y :: t1 ++ 0 :: r))).drop pre.length) delim
      = some a.length := by
    rw [drop_run]; exact strspn_stop delim a _ y ha (by simp [hy])
  have h2 : peek (pre ++ (a ++ (y :: t1 ++ 0 :: r))) (pre.length + a.length) = some y := by
    have := peek_run (pre ++ a) (t1 ++ 0 :: r) y
    simpa using this
  have h3 : strcspn ((pre ++ (a ++ (y :: t1 ++ 0 :: r))).drop (pre.length + a.length)) delim
      = some (y :: t1).length := by
    have e : (pre ++ (a ++ (y :: t1 ++ 0 :: r))).drop (pre.length + a.length)
        = (y :: t1) ++ 0 :: r := by
      simp
    rw [e]; exact strcspn_stop delim (y :: t1) r 0 ht (Or.inl rfl)
  have h4 : peek (pre ++ (a ++ (y :: t1 ++ 0 :: r))) (pre.length + a.length + (y :: t1).length)
      = some 0 := by
    have := peek_run (pre ++ a ++ (y :: t1)) r 0
    simpa [Nat.add_assoc] using this
  simp only [strtok, h1, h2, h3, h4, Option.bind_eq_bind, Option.some_bind]
  simp [hy.1]

/-- `strtok` on delimiters followed by a token that ends at a delimiter: the
delimiter is overwritten and the saved position is the byte after it. -/
theorem strtok_cut (delim pre a t r : List Nat) (x : Nat) (ha : ∀ c ∈ a, c ≠ 0 ∧ c ∈ delim)
    (ht : ∀ c ∈ t, c ≠ 0 ∧ c ∉ delim) (hne : t ≠ []) (hx : x ≠ 0 ∧ x ∈ delim) :
    strtok (pre ++ (a ++ (t ++ x :: r))) pre.length delim
      = some (some (pre.length + a.length), pre ++ (a ++ (t ++ 0 :: r)),
          pre.length + a.length + t.length + 1) := by
  obtain ⟨y, t1, rfl⟩ := List.exists_cons_of_ne_nil hne
  have hy := ht y (by simp)
  have h1 : strspn ((pre ++ (a ++ (y :: t1 ++ x :: r))).drop pre.length) delim
      = some a.length := by
    rw [drop_run]; exact strspn_stop delim a _ y ha (by simp [hy])
  have h2 : peek (pre ++ (a ++ (y :: t1 ++ x :: r))) (pre.length + a.length) = some y := by
    have := peek_run (pre ++ a) (t1 ++ x :: r) y
    simpa using this
  have h3 : strcspn ((pre ++ (a ++ (y :: t1 ++ x :: r))).drop (pre.length + a.length)) delim
      = some (y :: t1).length := by
    have e : (pre ++ (a ++ (y :: t1 ++ x :: r))).drop (pre.length + a.length)
        = (y :: t1) ++ x :: r := by
      simp
    rw [e]; exact strcspn_stop delim (y :: t1) r x ht (Or.inr hx.2)
  have h4 : peek (pre ++ (a ++ (y :: t1 ++ x :: r))) (pre.length + a.length + (y :: t1).length)
      = some x := by
    have := peek_run (pre ++ a ++ (y :: t1)) r x
    simpa [Nat.add_assoc] using this
  have h5 : poke (pre ++ (a ++ (y :: t1 ++ x :: r))) (pre.length + a.length + (y :: t1).length) 0
      = some (pre ++ (a ++ (y :: t1 ++ 0 :: r))) := by
    have := poke_run (pre ++ a ++ (y :: t1)) r x 0
    simpa [Nat.add_assoc] using this
  simp only [strtok, h1, h2, h3, h4, h5, Option.bind_eq_bind, Option.some_bind]
  simp [hy.1, hx.1]

/-! ## What `kv_trim_string` computes -/

theorem kv_trim_string_eq (b : List Nat) :
    kv_trim_string b = (strtok b 0 [13, 10]).bind (fun x => trimAfterTok x.2.1) := by
  unfold kv_trim_string trimAfterTok
  cases strtok b 0 [13, 10] <;> rfl

theorem skipLeading_stop (w r : List Nat) (y p : Nat)
    (hw : ∀ c ∈ w, c ≠ 0 ∧ isspace c = true) (hy : ¬ (y ≠ 0 ∧ isspace y = true)) :
    skipLeading (w ++ y :: r) p = some (p + w.length) := by
  induction w generalizing p with
  | nil => simp [skipLeading, hy]
  | cons c cs ih =>
    have ih1 := ih (p + 1) (fun x hx => hw x (by simp [hx]))
    have hc := hw c (by simp)
    simp [skipLeading, hc, ih1]; omega

/-- The second half of `kv_trim_string` on a buffer holding white space `w`,
then a string `u` that does not start with white space: the buffer is left
holding `u`, and its size is kept. -/
theorem trimAfterTok_run (w u r : List Nat) (hw : ∀ c ∈ w, c ≠ 0 ∧ isspace c = true)
    (hu : ∀ c ∈ u, c ≠ 0) (hh : ∀ c, u.head? = some c → isspace c = false)
    (hroom : u.length + 2 ≤ (w ++ (u ++ 0 :: r)).length) :
    ∃ r1, trimAfterTok (w ++ (u ++ 0 :: r)) = some (u ++ 0 :: r1)
      ∧ (u ++ 0 :: r1).length = (w ++ (u ++ 0 :: r)).length := by
  -- the first loop stops at the end of `w`
  have h1 : skipLeading (w ++ (u ++ 0 :: r)) 0 = some w.length := by
    cases u with
    | nil => simpa using skipLeading_stop w r 0 0 hw (by simp)
    | cons y u1 =>
      have hy : isspace y = false := hh y rfl
      simpa using skipLeading_stop w (u1 ++ 0 :: r) y 0 hw (by simp [hy])
  have h2 : strlen ((w ++ (u ++ 0 :: r)).drop w.length) = some u.length := by
    rw [drop_run]; exact strlen_run u r hu
  -- the bytes after the moved string
  obtain ⟨z, r2, hz⟩ : ∃ z r2, (w ++ (u ++ 0 :: r)).drop (u.length + 1) = z :: r2 := by
    cases hd : (w ++ (u ++ 0 :: r)).drop (u.length + 1) with
    | nil =>
      have := congrArg List.length hd
      simp only [List.length_drop, List.length_nil] at this
      omega
    | cons z r2 => exact ⟨z, r2, rfl⟩
  have hlen : (z :: r2).length = (w ++ (u ++ 0 :: r)).length - (u.length + 1) := by
    rw [← hz, List.length_drop]
  have h3 : memmove (w ++ (u ++ 0 :: r)) w.length (u.length + 1) = some (u ++ 0 :: z :: r2) := by
    have hle : w.length + (u.length + 1) ≤ (w ++ (u ++ 0 :: r)).length := by
      simp only [List.length_append, List.length_cons]; omega
    have ht : ((w ++ (u ++ 0 :: r)).drop w.length).take (u.length + 1) = u ++ [0] := by
      rw [drop_run]
      have : u ++ 0 :: r = (u ++ [0]) ++ r := by simp
      rw [this, List.take_left']
      simp
    simp only [memmove, hle, if_true, ht, hz]
    simp
  have h4 : peek (u ++ 0 :: z :: r2) (u.length + 1) = some z := by
    have := peek_run (u ++ [0]) r2 z
    simpa using this
  have h5 : skipTrailing (u ++ 0 :: z :: r2) u.length = some u.length := by
    cases hk : u.length with
    | zero => simp [skipTrailing]
    | succ k =>
      have hp : peek (u ++ 0 :: z :: r2) (k + 1) = some 0 := by
        rw [← hk]; exact peek_run u (z :: r2) 0
      simp [skipTrailing, hp, isspace]
  have hsize : (u ++ 0 :: z :: r2).length = (w ++ (u ++ 0 :: r)).length := by
    simp only [List.length_append, List.length_cons] at hlen hroom ⊢
    omega
  by_cases hsp : isspace z = true
  · refine ⟨z :: r2, ?_, hsize⟩
    have h6 : skipTrailing (u ++ 0 :: z :: r2) (u.length + 1) = some u.length := by
      simp [skipTrailing, h4, hsp, h5]
    have h7 : poke (u ++ 0 :: z :: r2) u.length 0 = some (u ++ 0 :: z :: r2) :=
      poke_run u (z :: r2) 0 0
    simp only [trimAfterTok, h1, h2, h3, h6, h7, Option.bind_eq_bind, Option.some_bind]
  · refine ⟨0 :: r2, ?_, by simpa using hsize⟩
    have h6 : skipTrailing (u ++ 0 :: z :: r2) (u.length + 1) = some (u.length + 1) := by
      simp [skipTrailing, h4, hsp]
    have h7 : poke (u ++ 0 :: z :: r2) (u.length + 1) 0 = some (u ++ 0 :: 0 :: r2) := by
      have := poke_run (u ++ [0]) r2 z 0
      simpa using this
    simp only [trimAfterTok, h1, h2, h3, h6, h7, Option.bind_eq_bind, Option.some_bind]

theorem head_dropWhile (p : Nat → Bool) (l : List Nat) (c : Nat)
    (h : (l.dropWhile p).head? = some c) : p c = false := by
  induction l with
  | nil => simp at h
  | cons x xs ih =>
    by_cases hx : p x = true
    · rw [List.dropWhile_cons_of_pos hx] at h; exact ih h
    · rw [List.dropWhile_cons_of_neg hx] at h
      simp only [List.head?_cons, Option.some.injEq] at h
      subst h; simpa using hx

theorem mem_dropWhile (p : Nat → Bool) (l : List Nat) (c : Nat) (h : c ∈ l.dropWhile p) :
    c ∈ l :=
  (List.dropWhile_sublist p).subset h

theorem mem_takeWhile (p : Nat → Bool) (l : List Nat) (c : Nat) (h : c ∈ l.takeWhile p) :
    c ∈ l :=
  (List.takeWhile_prefix p).subset h

/-- CR and LF are white space. -/
theorem isspace_of_crlf (c : Nat) (h : c ∈ [13, 10]) : isspace c = true := by
  simp only [List.mem_cons, List.mem_singleton, List.not_mem_nil, or_false] at h
  rcases h with h | h <;> subst h <;> rfl

/-- The call `strtok(string, "\r\n")` of `kv_trim_string`: the buffer is left
holding the leading CR/LF run `a` and the line `t` cut at the next CR or LF. -/
theorem strtok_crlf (s r : List Nat) (hs : ∀ c ∈ s, c ≠ 0) :
    ∃ res r1 sv,
      strtok (s ++ 0 :: r) 0 [13, 10]
        = some (res, s.takeWhile (fun c => decide (c ∈ [13, 10]))
            ++ ((s.dropWhile (fun c => decide (c ∈ [13, 10]))).takeWhile
                  (fun c => !decide (c ∈ [13, 10])) ++ 0 :: r1), sv)
      ∧ r1.length + ((s.dropWhile (fun c => decide (c ∈ [13, 10]))).takeWhile
                  (fun c => !decide (c ∈ [13, 10]))).length
          + (s.takeWhile (fun c => decide (c ∈ [13, 10]))).length = r.length + s.length := by
  generalize ha : s.takeWhile (fun c => decide (c ∈ [13, 10])) = a
  generalize hs1 : s.dropWhile (fun c => decide (c ∈ [13, 10])) = s1
  generalize ht : s1.takeWhile (fun c => !decide (c ∈ [13, 10])) = t
  generalize hs2 : s1.dropWhile (fun c => !decide (c ∈ [13, 10])) = s2
  have e1 : s = a ++ s1 := by rw [← ha, ← hs1]; simp
  have e2 : s1 = t ++ s2 := by rw [← ht, ← hs2]; simp
  have pa : ∀ c ∈ a, c ≠ 0 ∧ c ∈ [13, 10] := by
    intro c hc
    rw [← ha] at hc
    exact ⟨hs c (mem_takeWhile _ _ _ hc), by simpa using List.mem_takeWhile_imp hc⟩
  have pt : ∀ c ∈ t, c ≠ 0 ∧ c ∉ [13, 10] := by
    intro c hc
    rw [← ht] at hc
    refine ⟨hs c ?_, by simpa using List.mem_takeWhile_imp hc⟩
    rw [e1]; exact List.mem_append_right _ (mem_takeWhile _ _ _ hc)
  have hlen : s.length = a.length + (t.length + s2.length) := by
    rw [e1, e2]; simp
  have h0 : strtok (s ++ 0 :: r) 0 [13, 10] = strtok ([] ++ (a ++ (t ++ (s2 ++ 0 :: r)))) 0 [13, 10] := by
    rw [e1, e2]; simp
  by_cases hte : t = []
  · -- no token: `s1` is empty
    have hs1e : s1 = [] := by
      cases hc : s1 with
      | nil => rfl
      | cons y ys =>
        have hy : decide (y ∈ [13, 10]) = false := by
          apply head_dropWhile (fun c => decide (c ∈ [13, 10])) s y
          rw [hs1, hc]; rfl
        rw [hc, List.takeWhile_cons_of_pos (by show (!decide (y ∈ [13, 10])) = true; rw [hy]; rfl)] at ht
        rw [hte] at ht; simp at ht
    have hs2e : s2 = [] := by rw [← hs2, hs1e]; rfl
    refine ⟨none, r, 0 + a.length, ?_, ?_⟩
    · rw [h0, hte, hs2e]
      simpa using strtok_null [13, 10] [] a r pa
    · rw [hlen, hte, hs2e]; simp only [List.length_nil]; omega
  · cases hc : s2 with
    | nil =>
      refine ⟨some (0 + a.length), r, 0 + a.length + t.length, ?_, ?_⟩
      · rw [h0, hc]
        simpa using strtok_last [13, 10] [] a t r pa pt hte
      · rw [hlen, hc]; simp only [List.length_nil]; omega
    | cons x s3 =>
      have hx : x ≠ 0 ∧ x ∈ [13, 10] := by
        constructor
        · apply hs; rw [e1, e2, hc]; simp
        · have := head_dropWhile (fun c => !decide (c ∈ [13, 10])) s1 x (by rw [hs2, hc]; rfl)
          simp only [Bool.not_eq_false', decide_eq_true_eq] at this
          exact this
      refine ⟨some (0 + a.length), s3 ++ 0 :: r, 0 + a.length + t.length + 1, ?_, ?_⟩
      · rw [h0, hc]
        simpa using strtok_cut [13, 10] [] a t (s3 ++ 0 :: r) x pa pt hte hx
      · rw [hlen, hc]; simp only [List.length_cons, List.length_append]; omega

/-- The function `kv_trim_string` on a buffer that holds the string `s` and
has a byte after the terminator of what is left: the buffer is left holding
`trimmed s`, and its size is kept. -/
theorem kv_trim_string_run (s r : List Nat) (hs : ∀ c ∈ s, c ≠ 0)
    (hroom : (trimmed s).length + 2 ≤ (s ++ 0 :: r).length) :
    ∃ r1, kv_trim_string (s ++ 0 :: r) = some (trimmed s ++ 0 :: r1)
      ∧ (trimmed s ++ 0 :: r1).length = (s ++ 0 :: r).length := by
  obtain ⟨res, r0, sv, htok, hlen⟩ := strtok_crlf s r hs
  generalize ha : s.takeWhile (fun c => decide (c ∈ [13, 10])) = a at htok hlen
  generalize ht : (s.dropWhile (fun c => decide (c ∈ [13, 10]))).takeWhile
      (fun c => !decide (c ∈ [13, 10])) = t at htok hlen
  have hu : trimmed s = t.dropWhile isspace := by rw [← ht]; rfl
  have pa : ∀ c ∈ a, c ≠ 0 ∧ isspace c = true := by
    intro c hc
    rw [← ha] at hc
    exact ⟨hs c (mem_takeWhile _ _ _ hc),
      isspace_of_crlf c (by simpa using List.mem_takeWhile_imp hc)⟩
  have pt : ∀ c ∈ t, c ≠ 0 := by
    intro c hc
    rw [← ht] at hc
    exact hs c (mem_dropWhile _ _ _ (mem_takeWhile _ _ _ hc))
  have pw : ∀ c ∈ a ++ t.takeWhile isspace, c ≠ 0 ∧ isspace c = true := by
    intro c hc
    rcases List.mem_append.mp hc with h | h
    · exact pa c h
    · exact ⟨pt c (mem_takeWhile _ _ _ h), List.mem_takeWhile_imp h⟩
  have esplit : a ++ (t ++ 0 :: r0) = (a ++ t.takeWhile isspace) ++ (t.dropWhile isspace ++ 0 :: r0) := by
    have : t.takeWhile isspace ++ (t.dropWhile isspace ++ 0 :: r0) = t ++ 0 :: r0 := by
      rw [← List.append_assoc, List.takeWhile_append_dropWhile]
    rw [List.append_assoc, this]
  have hsz : (a ++ (t ++ 0 :: r0)).length = (s ++ 0 :: r).length := by
    simp only [List.length_append, List.length_cons]; omega
  have hroom1 : (t.dropWhile isspace).length + 2
      ≤ ((a ++ t.takeWhile isspace) ++ (t.dropWhile isspace ++ 0 :: r0)).length := by
    rw [← esplit, hsz, ← hu]; exact hroom
  obtain ⟨r1, hrun, hlen1⟩ := trimAfterTok_run (a ++ t.takeWhile isspace) (t.dropWhile isspace) r0
    pw (fun c hc => pt c (mem_dropWhile _ _ _ hc)) (fun c hc => head_dropWhile isspace t c hc) hroom1
  refine ⟨r1, ?_, ?_⟩
  · rw [kv_trim_string_eq, htok, hu]
    simp only [Option.some_bind]
    rw [esplit]; exact hrun
  · rw [hu, hlen1, ← esplit, hsz]

/-- The second half of `kv_trim_string` on a buffer that ends at the terminator
of a string without leading white space: the last loop starts by reading the
byte after the terminator, outside the buffer. -/
theorem trimAfterTok_oob (u : List Nat) (hu : ∀ c ∈ u, c ≠ 0)
    (hh : ∀ c, u.head? = some c → isspace c = false) : trimAfterTok (u ++ [0]) = none := by
  have h1 : skipLeading (u ++ [0]) 0 = some 0 := by
    cases u with
    | nil => simp [skipLeading]
    | cons y u1 =>
      have hy : isspace y = false := hh y rfl
      simp [skipLeading, hy]
  have h2 : strlen ((u ++ [0]).drop 0) = some u.length := strlen_run u [] hu
  have h3 : memmove (u ++ [0]) 0 (u.length + 1) = some (u ++ [0]) := by
    simp [memmove]
  have h4 : peek (u ++ [0]) (u.length + 1) = none := by
    simp [peek]
  simp only [trimAfterTok, h1, h2, h3, Option.bind_eq_bind, Option.some_bind, skipTrailing, h4,
    Option.none_bind]

/-- The function `kv_trim_string` on a buffer that holds the string `s` and
ends at the terminator of what would be left: an access outside the buffer. -/
theorem kv_trim_string_oob (s r : List Nat) (hs : ∀ c ∈ s, c ≠ 0)
    (hroom : (s ++ 0 :: r).length < (trimmed s).length + 2) :
    kv_trim_string (s ++ 0 :: r) = none := by
  obtain ⟨res, r0, sv, htok, hlen⟩ := strtok_crlf s r hs
  generalize ha : s.takeWhile (fun c => decide (c ∈ [13, 10])) = a at htok hlen
  generalize ht : (s.dropWhile (fun c => decide (c ∈ [13, 10]))).takeWhile
      (fun c => !decide (c ∈ [13, 10])) = t at htok hlen
  have hu : trimmed s = t.dropWhile isspace := by rw [← ht]; rfl
  have pt : ∀ c ∈ t, c ≠ 0 := by
    intro c hc
    rw [← ht] at hc
    exact hs c (mem_dropWhile _ _ _ (mem_takeWhile _ _ _ hc))
  have hsplit := congrArg List.length (List.takeWhile_append_dropWhile isspace t)
  simp only [List.length_append, List.length_cons] at hroom hsplit
  rw [hu] at hroom
  have ha0 : a = [] := List.length_eq_zero.mp (by omega)
  have hr0 : r0 = [] := List.length_eq_zero.mp (by omega)
  have hw0 : t.takeWhile isspace = [] := List.length_eq_zero.mp (by omega)
  have htt : t.dropWhile isspace = t := by
    have := List.takeWhile_append_dropWhile isspace t
    rw [hw0] at this; simpa using this
  have hh : ∀ c, t.head? = some c → isspace c = false := by
    intro c hc
    rw [← htt] at hc
    exact head_dropWhile isspace t c hc
  rw [kv_trim_string_eq, htok, ha0, hr0]
  simp only [Option.some_bind, List.nil_append]
  exact trimAfterTok_oob t pt hh

/-! ## What `kv_get_value_pos` computes -/

/-- One call of `strtok` on a buffer that holds, from the scanned offset on, a
string `s`: the three cases of no token, a token that ends the string, and a
token cut at a delimiter. -/
theorem strtok_run (delim pre s r : List Nat) (hs : ∀ c ∈ s, c ≠ 0) :
    strtok (pre ++ (s ++ 0 :: r)) pre.length delim =
      some (
        if (s.dropWhile (fun c => decide (c ∈ delim))) = [] then
          (none, pre ++ (s ++ 0 :: r), pre.length + s.length)
        else
          match (s.dropWhile (fun c => decide (c ∈ delim))).dropWhile
              (fun c => !decide (c ∈ delim)) with
          | [] => (some (pre.length + (s.takeWhile (fun c => decide (c ∈ delim))).length),
                    pre ++ (s ++ 0 :: r), pre.length + s.length)
          | _ :: s3 =>
            (some (pre.length + (s.takeWhile (fun c => decide (c ∈ delim))).length),
              pre ++ (s.takeWhile (fun c => decide (c ∈ delim))
                ++ ((s.dropWhile (fun c => decide (c ∈ delim))).takeWhile
                      (fun c => !decide (c ∈ delim)) ++ 0 :: (s3 ++ 0 :: r))),
              pre.length + (s.length - s3.length))) := by
  generalize ha : s.takeWhile (fun c => decide (c ∈ delim)) = a
  generalize hs1 : s.dropWhile (fun c => decide (c ∈ delim)) = s1
  generalize ht : s1.takeWhile (fun c => !decide (c ∈ delim)) = t
  generalize hs2 : s1.dropWhile (fun c => !decide (c ∈ delim)) = s2
  have e1 : s = a ++ s1 := by rw [← ha, ← hs1]; simp
  have e2 : s1 = t ++ s2 := by rw [← ht, ← hs2]; simp
  have pa : ∀ c ∈ a, c ≠ 0 ∧ c ∈ delim := by
    intro c hc
    rw [← ha] at hc
    exact ⟨hs c (mem_takeWhile _ _ _ hc), by simpa using List.mem_takeWhile_imp hc⟩
  have pt : ∀ c ∈ t, c ≠ 0 ∧ c ∉ delim := by
    intro c hc
    rw [← ht] at hc
    refine ⟨hs c ?_, by simpa using List.mem_takeWhile_imp hc⟩
    rw [e1]; exact List.mem_append_right _ (mem_takeWhile _ _ _ hc)
  have hlen : s.length = a.length + (t.length + s2.length) := by
    rw [e1, e2]; simp
  by_cases hs1e : s1 = []
  · have hae : a = s := by rw [e1, hs1e]; simp
    rw [if_pos hs1e, ← hae]
    exact strtok_null delim pre a r pa
  · rw [if_neg hs1e]
    have hte : t ≠ [] := by
      cases hc : s1 with
      | nil => exact absurd hc hs1e
      | cons y ys =>
        have hy : decide (y ∈ delim) = false := by
          apply head_dropWhile (fun c => decide (c ∈ delim)) s y
          rw [hs1, hc]; rfl
        rw [hc, List.takeWhile_cons_of_pos
          (by show (!decide (y ∈ delim)) = true; rw [hy]; rfl)] at ht
        rw [← ht]; simp
    cases hc : s2 with
    | nil =>
      have hse : s = a ++ t := by rw [e1, e2, hc]; simp
      simp only []
      have := strtok_last delim pre a t r pa pt hte
      rw [hse]
      simpa [Nat.add_assoc] using this
    | cons x s3 =>
      have hx : x ≠ 0 ∧ x ∈ delim := by
        constructor
        · apply hs; rw [e1, e2, hc]; simp
        · have := head_dropWhile (fun c => !decide (c ∈ delim)) s1 x (by rw [hs2, hc]; rfl)
          simp only [Bool.not_eq_false', decide_eq_true_eq] at this
          exact this
      have hse : s = a ++ (t ++ x :: s3) := by rw [e1, e2, hc]
      simp only []
      have := strtok_cut delim pre a t (s3 ++ 0 :: r) x pa pt hte hx
      have hl : s.length - s3.length = a.length + t.length + 1 := by
        rw [hlen, hc]; simp only [List.length_cons]; omega
      rw [hl, hse]
      simpa [Nat.add_assoc] using this

/-- The token offset a call of `strtok` returns, from `strtok_run`. -/
theorem strtok_res (delim pre s r : List Nat) (hs : ∀ c ∈ s, c ≠ 0) :
    ∃ buf sv, strtok (pre ++ (s ++ 0 :: r)) pre.length delim =
      some (if s.dropWhile (fun c => decide (c ∈ delim)) = [] then none
            else some (pre.length + (s.length
              - (s.dropWhile (fun c => decide (c ∈ delim))).length)), buf, sv) := by
  have hrun := strtok_run delim pre s r hs
  have hl : (s.takeWhile (fun c => decide (c ∈ delim))).length
      = s.length - (s.dropWhile (fun c => decide (c ∈ delim))).length := by
    have := congrArg List.length (List.takeWhile_append_dropWhile (fun c => decide (c ∈ delim)) s)
    simp only [List.length_append] at this
    omega
  by_cases h1 : s.dropWhile (fun c => decide (c ∈ delim)) = []
  · rw [if_pos h1] at hrun
    exact ⟨_, _, by rw [hrun, if_pos h1]⟩
  · rw [if_neg h1] at hrun
    rw [if_neg h1]
    cases hc : (s.dropWhile (fun c => decide (c ∈ delim))).dropWhile
        (fun c => !decide (c ∈ delim)) with
    | nil => rw [hc] at hrun; exact ⟨_, _, by rw [hrun, hl]⟩
    | cons x s3 => rw [hc] at hrun; exact ⟨_, _, by rw [hrun, hl]⟩

theorem kv_get_value_pos_eq (s key : List Nat) :
    kv_get_value_pos s key =
      if s.length = 0 ∨ key.length = 0 then some 0
      else (strncpy (List.replicate KV_LINE_SIZE 0) s KV_LINE_SIZE).bind fun line =>
        (strtok line 0 KV_DELIMITERS).bind (posAfterTok key) := by
  by_cases h : s.length = 0 ∨ key.length = 0
  · simp only [kv_get_value_pos, if_pos h]; rfl
  · simp only [kv_get_value_pos, if_neg h]
    rfl

theorem strncpy_line (s : List Nat) (h : s.length < KV_LINE_SIZE) :
    strncpy (List.replicate KV_LINE_SIZE 0) s KV_LINE_SIZE
      = some (s ++ 0 :: List.replicate (KV_LINE_SIZE - 1 - s.length) 0) := by
  have h1 : s.take KV_LINE_SIZE = s := List.take_of_length_le (Nat.le_of_lt h)
  have h2 : List.replicate (KV_LINE_SIZE - s.length) 0
      = 0 :: List.replicate (KV_LINE_SIZE - 1 - s.length) (0 : Nat) := by
    have : KV_LINE_SIZE - s.length = (KV_LINE_SIZE - 1 - s.length) + 1 := by omega
    rw [this, List.replicate_succ]
  simp [strncpy, h1, h2]

theorem strncmp_token (t key r : List Nat) (ht : ∀ c ∈ t, c ≠ 0) :
    (key.length ≠ t.length ∨ strncmp (t ++ 0 :: r) key key.length ≠ 0) ↔ t ≠ key := by
  unfold strncmp
  rw [cstr_run t r ht]
  by_cases hl : key.length = t.length
  · have h1 : t.take key.length = t := by rw [hl]; exact List.take_length t
    have h2 : key.take key.length = key := List.take_length key
    rw [h1, h2]
    by_cases he : t = key
    · simp [he]
    · simp [he, hl]
  · have he : t ≠ key := fun h => hl (by rw [h])
    simp [he, hl]

theorem valuePos_def (s key : List Nat) :
    valuePos s key =
      if key ≠ [] ∧ (s.dropWhile isDelim).takeWhile (fun c => !isDelim c) = key
          ∧ ((s.dropWhile isDelim).dropWhile (fun c => !isDelim c)).dropWhile isDelim ≠ [] then
        s.length - (((s.dropWhile isDelim).dropWhile (fun c => !isDelim c)).dropWhile
          isDelim).length
      else 0 := rfl

/-- The function `kv_get_value_pos` on a string shorter than the line buffer
returns the offset `valuePos`. -/
theorem kv_get_value_pos_run (s key : List Nat) (hs : ∀ c ∈ s, c ≠ 0)
    (hlen : s.length < KV_LINE_SIZE) : kv_get_value_pos s key = some (valuePos s key) := by
  have hD1 : (fun c => decide (c ∈ KV_DELIMITERS)) = isDelim := rfl
  have hD2 : (fun c => !decide (c ∈ KV_DELIMITERS)) = (fun c => !isDelim c) := rfl
  rw [kv_get_value_pos_eq]
  rw [valuePos_def]
  generalize ha : s.takeWhile isDelim = a
  generalize hs1 : s.dropWhile isDelim = s1
  generalize ht : s1.takeWhile (fun c => !isDelim c) = t
  generalize hs2 : s1.dropWhile (fun c => !isDelim c) = s2
  have e1 : s = a ++ s1 := by rw [← ha, ← hs1]; simp
  have e2 : s1 = t ++ s2 := by rw [← ht, ← hs2]; simp
  have pt : ∀ c ∈ t, c ≠ 0 := by
    intro c hc
    apply hs; rw [e1, e2]; simp [hc]
  by_cases h : s.length = 0 ∨ key.length = 0
  · rw [if_pos h]
    have : ¬ (key ≠ [] ∧ t = key ∧ s2.dropWhile isDelim ≠ []) := by
      rintro ⟨hk, htk, -⟩
      rcases h with h | h
      · have hse : s = [] := List.length_eq_zero.mp h
        rw [hse] at hs1; simp only [List.dropWhile_nil] at hs1
        rw [← hs1] at ht; simp only [List.takeWhile_nil] at ht
        exact hk (by rw [← htk, ← ht])
      · exact hk (List.length_eq_zero.mp h)
    rw [if_neg this]
  · rw [if_neg h, strncpy_line s hlen]
    simp only [Option.some_bind]
    have hkne : key ≠ [] := fun hk => h (Or.inr (by rw [hk]; rfl))
    generalize List.replicate (KV_LINE_SIZE - 1 - s.length) 0 = r
    have hrun := strtok_run KV_DELIMITERS [] s r hs
    simp only [List.nil_append, List.length_nil, Nat.zero_add] at hrun
    rw [hD1, hD2, ha, hs1, ht, hs2] at hrun
    rw [hrun]
    simp only [Option.some_bind]
    by_cases hs1e : s1 = []
    · rw [if_pos hs1e]
      have hte : t = [] := by rw [← ht, hs1e]; rfl
      have : ¬ (key ≠ [] ∧ t = key ∧ s2.dropWhile isDelim ≠ []) := by
        rintro ⟨hk, htk, -⟩
        exact hk (by rw [← htk, hte])
      rw [if_neg this]
      rfl
    · rw [if_neg hs1e]
      cases hc : s2 with
      | nil =>
        simp only [posAfterTok]
        have hse : s = a ++ t := by rw [e1, e2, hc]; simp
        have hdrop : (s ++ 0 :: r).drop a.length = t ++ 0 :: r := by
          rw [hse, List.append_assoc]; exact drop_run a (t ++ 0 :: r)
        rw [hdrop, strlen_run t r pt]
        simp only [Option.bind_eq_bind, Option.some_bind]
        by_cases hk : t = key
        · rw [if_neg (by rw [strncmp_token t key r pt]; exact not_not.mpr hk)]
          obtain ⟨buf, sv, h2⟩ := strtok_res KV_DELIMITERS s [] r (by simp)
          simp only [List.nil_append, List.dropWhile_nil, if_true] at h2
          rw [h2]
          simp
        · rw [if_pos (by rw [strncmp_token t key r pt]; exact hk)]
          have : ¬ (key ≠ [] ∧ t = key ∧ List.dropWhile isDelim [] ≠ []) := by
            rintro ⟨-, htk, -⟩; exact hk htk
          rw [if_neg this]; rfl
      | cons x s3 =>
        simp only [posAfterTok]
        have hx : isDelim x = true := by
          have := head_dropWhile (fun c => !isDelim c) s1 x (by rw [hs2, hc]; rfl)
          simpa using this
        have hdw : (x :: s3).dropWhile isDelim = s3.dropWhile isDelim :=
          List.dropWhile_cons_of_pos hx
        have hdrop : (a ++ (t ++ 0 :: (s3 ++ 0 :: r))).drop a.length = t ++ 0 :: (s3 ++ 0 :: r) :=
          drop_run a _
        rw [hdrop, strlen_run t _ pt, hdw]
        simp only [Option.bind_eq_bind, Option.some_bind]
        have hsl : s.length = a.length + (t.length + (s3.length + 1)) := by
          rw [e1, e2, hc]; simp
        by_cases hk : t = key
        · rw [if_neg (by rw [strncmp_token t key _ pt]; exact not_not.mpr hk)]
          have ps3 : ∀ c ∈ s3, c ≠ 0 := by
            intro c hc3
            apply hs; rw [e1, e2, hc]; simp [hc3]
          obtain ⟨buf, sv, h2⟩ := strtok_res KV_DELIMITERS (a ++ (t ++ [0])) s3 r ps3
          have hpre : (a ++ (t ++ [0])).length = s.length - s3.length := by
            rw [hsl]; simp only [List.length_append, List.length_cons, List.length_nil]; omega
          have hbuf : a ++ (t ++ [0]) ++ (s3 ++ 0 :: r) = a ++ (t ++ 0 :: (s3 ++ 0 :: r)) := by
            simp
          rw [hbuf, hpre, hD1] at h2
          rw [h2]
          simp only [Option.some_bind]
          have hle : (s3.dropWhile isDelim).length ≤ s3.length :=
            (List.dropWhile_sublist isDelim).length_le
          by_cases h3 : s3.dropWhile isDelim = []
          · rw [if_pos h3]
            have : ¬ (key ≠ [] ∧ t = key ∧ s3.dropWhile isDelim ≠ []) := by
              rintro ⟨-, -, hne⟩; exact hne h3
            rw [if_neg this]; rfl
          · rw [if_neg h3, if_pos ⟨hkne, hk, h3⟩]
            show some (s.length - s3.length + (s3.length - (s3.dropWhile isDelim).length)) = _
            congr 1
            omega
        · rw [if_pos (by rw [strncmp_token t key _ pt]; exact hk)]
          have : ¬ (key ≠ [] ∧ t = key ∧ s3.dropWhile isDelim ≠ []) := by
            rintro ⟨-, htk, -⟩; exact hk htk
          rw [if_neg this]; rfl

/-! ## Tokens -/

theorem tokens_cons_delim (c : Nat) (cs : List Nat) (h : isDelim c = true) :
    tokens (c :: cs) = tokens cs := by
  simp [tokens, List.splitOnP_cons, h]

theorem tokens_dropWhile (s : List Nat) : tokens s = tokens (s.dropWhile isDelim) := by
  induction s with
  | nil => rfl
  | cons c cs ih =>
    by_cases h : isDelim c = true
    · rw [tokens_cons_delim c cs h, List.dropWhile_cons_of_pos h]; exact ih
    · rw [List.dropWhile_cons_of_neg h]

/-- Tokens are read off from the left: pass the delimiters, take the run of
non-delimiters, go on with what follows it. -/
theorem tokens_run (s : List Nat) :
    tokens s =
      if s.dropWhile isDelim = [] then []
      else (s.dropWhile isDelim).takeWhile (fun c => !isDelim c)
        :: tokens ((s.dropWhile isDelim).dropWhile (fun c => !isDelim c)) := by
  rw [tokens_dropWhile s]
  generalize hs1 : s.dropWhile isDelim = s1
  generalize ht : s1.takeWhile (fun c => !isDelim c) = t
  generalize hs2 : s1.dropWhile (fun c => !isDelim c) = s2
  have e2 : s1 = t ++ s2 := by rw [← ht, ← hs2]; simp
  have pt : ∀ c ∈ t, ¬ isDelim c = true := by
    intro c hc
    rw [← ht] at hc
    simpa using List.mem_takeWhile_imp hc
  by_cases h1 : s1 = []
  · rw [if_pos h1, h1]; rfl
  · rw [if_neg h1]
    have hte : t ≠ [] := by
      cases hc : s1 with
      | nil => exact absurd hc h1
      | cons y ys =>
        have hy : isDelim y = false :=
          head_dropWhile isDelim s y (by rw [hs1, hc]; rfl)
        rw [hc, List.takeWhile_cons_of_pos (by show (!isDelim y) = true; rw [hy]; rfl)] at ht
        rw [← ht]; simp
    cases hc : s2 with
    | nil =>
      have : s1 = t := by rw [e2, hc]; simp
      rw [this]
      simp [tokens, List.splitOnP_eq_single isDelim t pt, hte]
    | cons x s3 =>
      have hx : isDelim x = true := by
        have := head_dropWhile (fun c => !isDelim c) s1 x (by rw [hs2, hc]; rfl)
        simpa using this
      rw [tokens_cons_delim x s3 hx, e2, hc]
      simp [tokens, List.splitOnP_first isDelim t pt x hx, hte]

/-- The offset `valuePos` is nonzero exactly when the first token is the key
and a second token follows. -/
theorem valuePos_ne_zero_iff (s key : List Nat) :
    valuePos s key ≠ 0 ↔ key ≠ [] ∧ ∃ v rest, tokens s = key :: v :: rest := by
  rw [valuePos_def, tokens_run s]
  generalize ha : s.takeWhile isDelim = a
  have e1 : s = a ++ s.dropWhile isDelim := by rw [← ha]; simp
  generalize s.dropWhile isDelim = s1 at e1 ⊢
  have e2 : s1 = s1.takeWhile (fun c => !isDelim c) ++ s1.dropWhile (fun c => !isDelim c) := by
    simp
  generalize s1.takeWhile (fun c => !isDelim c) = t at e2 ⊢
  generalize s1.dropWhile (fun c => !isDelim c) = s2 at e2 ⊢
  rw [tokens_run s2]
  have hle : (s2.dropWhile isDelim).length ≤ s2.length :=
    (List.dropWhile_sublist isDelim).length_le
  have hsl : s.length = a.length + (t.length + s2.length) := by
    rw [e1, e2]; simp
  constructor
  · intro h
    by_cases hc : key ≠ [] ∧ t = key ∧ s2.dropWhile isDelim ≠ []
    · obtain ⟨hk, htk, h3⟩ := hc
      refine ⟨hk, ?_⟩
      have h1 : s1 ≠ [] := by
        intro h1; rw [h1] at e2
        have : t = [] := by
          cases t with
          | nil => rfl
          | cons y ys => simp at e2
        exact hk (by rw [← htk, this])
      rw [if_neg h1, if_neg h3, htk]
      exact ⟨_, _, rfl⟩
    · rw [if_neg hc] at h; exact absurd rfl h
  · rintro ⟨hk, v, rest, h⟩
    by_cases h1 : s1 = []
    · rw [if_pos h1] at h; simp at h
    · rw [if_neg h1] at h
      by_cases h3 : s2.dropWhile isDelim = []
      · rw [if_pos h3] at h; simp at h
      · rw [if_neg h3] at h
        have htk : t = key := by
          have := List.cons.inj h; exact this.1
        rw [if_pos ⟨hk, htk, h3⟩]
        have : 0 < t.length := by
          rw [htk]; exact List.length_pos.mpr hk
        omega

/-! ## Streams and the loop of `kv_get_value` -/

theorem fgetsTake_append_drop (n : Nat) (fp : List Nat) :
    fgetsTake n fp ++ fp.drop (fgetsTake n fp).length = fp := by
  induction n generalizing fp with
  | zero => cases fp <;> simp [fgetsTake]
  | succ n ih =>
    cases fp with
    | nil => simp [fgetsTake]
    | cons c cs =>
      by_cases h : c = 10
      · simp [fgetsTake, h]
      · simp [fgetsTake, h, ih cs]

theorem fgetsTake_length_le (n : Nat) (fp : List Nat) : (fgetsTake n fp).length ≤ n := by
  induction n generalizing fp with
  | zero => cases fp <;> simp [fgetsTake]
  | succ n ih =>
    cases fp with
    | nil => simp [fgetsTake]
    | cons c cs =>
      by_cases h : c = 10
      · simp [fgetsTake, h]
      · simpa [fgetsTake, h] using ih cs

theorem fgetsTake_pos (n : Nat) (fp : List Nat) (h : fp ≠ []) :
    0 < (fgetsTake (n + 1) fp).length := by
  cases fp with
  | nil => exact absurd rfl h
  | cons c cs =>
    by_cases h : c = 10
    · simp [fgetsTake, h]
    · simp [fgetsTake, h]

theorem fgets_drop_lt (fp : List Nat) (h : fp ≠ []) :
    (fp.drop (fgetsTake (KV_LINE_SIZE - 1) fp).length).length < fp.length := by
  have h1 := fgetsTake_pos (KV_LINE_SIZE - 2) fp h
  have h2 : 0 < fp.length := List.length_pos.mpr h
  have e : KV_LINE_SIZE - 2 + 1 = KV_LINE_SIZE - 1 := rfl
  rw [e] at h1
  rw [List.length_drop]
  omega

/-- A buffer that holds a piece read by `fgets` holds the string `cstr chunk`. -/
theorem chunk_buffer (chunk r : List Nat) :
    ∃ r1, chunk ++ 0 :: r = cstr chunk ++ 0 :: r1 := by
  induction chunk with
  | nil => exact ⟨r, rfl⟩
  | cons c cs ih =>
    by_cases h : c = 0
    · subst h; exact ⟨cs ++ 0 :: r, by simp [cstr]⟩
    · obtain ⟨r1, h1⟩ := ih
      refine ⟨r1, ?_⟩
      have : cstr (c :: cs) = c :: cstr cs := by simp [cstr, List.takeWhile_cons, h]
      rw [this]; simp [h1]

theorem cstr_length_le (p : List Nat) : (cstr p).length ≤ p.length :=
  (List.takeWhile_prefix _).length_le

theorem trimmed_length_le (s : List Nat) : (trimmed s).length ≤ s.length := by
  unfold trimmed
  calc _ ≤ _ := (List.dropWhile_sublist _).length_le
    _ ≤ _ := (List.takeWhile_prefix _).length_le
    _ ≤ _ := (List.dropWhile_sublist _).length_le

theorem lineOf_length_le (c : List Nat) : (lineOf c).length ≤ c.length :=
  Nat.le_trans (trimmed_length_le _) (cstr_length_le c)

theorem trimmed_nul_free (s : List Nat) (hs : ∀ c ∈ s, c ≠ 0) : ∀ c ∈ trimmed s, c ≠ 0 := by
  intro c hc
  exact hs c (mem_dropWhile _ _ _ (mem_takeWhile _ _ _ (mem_dropWhile _ _ _ hc)))

theorem lineOf_nul_free (chunk : List Nat) : ∀ c ∈ lineOf chunk, c ≠ 0 :=
  trimmed_nul_free _ (cstr_nul_free chunk)

theorem trim_chunk_oob (chunk line : List Nat) (hc : chunk.length < KV_LINE_SIZE)
    (hl : line.length = KV_LINE_SIZE) (hroom : KV_LINE_SIZE < (lineOf chunk).length + 2) :
    kv_trim_string (chunk ++ 0 :: line.drop (chunk.length + 1)) = none := by
  have hsz : (chunk ++ 0 :: line.drop (chunk.length + 1)).length = KV_LINE_SIZE := by
    simp only [List.length_append, List.length_cons, List.length_drop]; omega
  obtain ⟨r0, hb⟩ := chunk_buffer chunk (line.drop (chunk.length + 1))
  rw [hb] at hsz ⊢
  exact kv_trim_string_oob (cstr chunk) r0 (cstr_nul_free chunk) (by rw [hsz]; exact hroom)

/-- One pass of `kv_trim_string` over the line buffer after `fgets`. -/
theorem trim_chunk (chunk line : List Nat) (hc : chunk.length < KV_LINE_SIZE)
    (hl : line.length = KV_LINE_SIZE) (hroom : (lineOf chunk).length + 2 ≤ KV_LINE_SIZE) :
    ∃ r1, kv_trim_string (chunk ++ 0 :: line.drop (chunk.length + 1))
        = some (lineOf chunk ++ 0 :: r1)
      ∧ (lineOf chunk ++ 0 :: r1).length = KV_LINE_SIZE := by
  have hsz : (chunk ++ 0 :: line.drop (chunk.length + 1)).length = KV_LINE_SIZE := by
    simp only [List.length_append, List.length_cons, List.length_drop]; omega
  obtain ⟨r0, hb⟩ := chunk_buffer chunk (line.drop (chunk.length + 1))
  rw [hb] at hsz ⊢
  obtain ⟨r1, h1, h2⟩ := kv_trim_string_run (cstr chunk) r0 (cstr_nul_free chunk)
    (by rw [hsz]; exact hroom)
  exact ⟨r1, h1, by show (trimmed (cstr chunk) ++ 0 :: r1).length = _; rw [h2, hsz]⟩

theorem chunks_fuel (n m : Nat) (fp : List Nat) (hn : fp.length ≤ n) (hm : fp.length ≤ m) :
    chunks n fp = chunks m fp := by
  induction n generalizing m fp with
  | zero =>
    have : fp = [] := List.length_eq_zero.mp (Nat.le_zero.mp hn)
    subst this
    cases m <;> simp [chunks]
  | succ n ih =>
    by_cases hfp : fp = []
    · subst hfp; cases m <;> simp [chunks]
    · have hlt := fgets_drop_lt fp hfp
      cases m with
      | zero =>
        exact absurd (List.length_eq_zero.mp (Nat.le_zero.mp hm)) hfp
      | succ m =>
        simp only [chunks, hfp, if_false]
        rw [ih m _ (by omega) (by omega)]

theorem valuePos_nil (key : List Nat) : valuePos [] key = 0 := by
  rw [valuePos_def]
  simp

theorem valuePos_le (s key : List Nat) : valuePos s key ≤ s.length := by
  rw [valuePos_def]
  split
  · exact Nat.sub_le _ _
  · exact Nat.zero_le _

/-- The loop of `kv_get_value` computes `readerSpec` of the pieces `fgets`
delivers. -/
theorem getLoop_run (key value : List Nat) (size : Nat) :
    ∀ (fuel : Nat) (fp : List Nat), fp.length < fuel →
      getLoop key value size fuel fp (List.replicate KV_LINE_SIZE 0)
        = readerSpec key value size (chunks fuel fp) := by
  intro fuel
  induction fuel with
  | zero => intro fp h; omega
  | succ n ih =>
    intro fp hlt
    by_cases hfp : fp = []
    · subst hfp; simp [getLoop, fgets, chunks, readerSpec]
    · generalize hck : fgetsTake (KV_LINE_SIZE - 1) fp = chunk at *
      have hch : chunks (n + 1) fp = chunk :: chunks n (fp.drop chunk.length) := by
        simp [chunks, hfp, hck]
      have hdl := fgets_drop_lt fp hfp
      rw [hck] at hdl
      have hcl : chunk.length < KV_LINE_SIZE := by
        have := fgetsTake_length_le (KV_LINE_SIZE - 1) fp
        rw [hck] at this
        exact Nat.lt_of_le_of_lt this (by decide)
      rw [hch]
      have ih1 := ih (fp.drop chunk.length) (by omega)
      by_cases hroom : KV_LINE_SIZE < (lineOf chunk).length + 2
      · have htrim := trim_chunk_oob chunk (List.replicate KV_LINE_SIZE 0) hcl (by simp) hroom
        simp only [getLoop, fgets, hfp, if_false, hck, htrim, Option.bind_eq_bind,
          Option.none_bind, readerSpec, hroom, if_true]
      have hroom0 : (lineOf chunk).length + 2 ≤ KV_LINE_SIZE := Nat.le_of_not_lt hroom
      obtain ⟨r1, htrim, hsz⟩ := trim_chunk chunk (List.replicate KV_LINE_SIZE 0) hcl
        (by simp) hroom0
      have hL := lineOf_nul_free chunk
      have hpos := kv_get_value_pos_run (lineOf chunk) key hL (by omega)
      have hple := valuePos_le (lineOf chunk) key
      have hdrop : (lineOf chunk ++ 0 :: r1).drop (valuePos (lineOf chunk) key)
          = (lineOf chunk).drop (valuePos (lineOf chunk) key) ++ 0 :: r1 :=
        List.drop_append_of_le_length hple
      have hLd : ∀ c ∈ (lineOf chunk).drop (valuePos (lineOf chunk) key), c ≠ 0 :=
        fun c hc => hL c (List.mem_of_mem_drop hc)
      simp only [getLoop, fgets, hfp, if_false, hck, htrim, Option.bind_eq_bind,
        Option.some_bind, strlen_run _ r1 hL, cstr_run _ r1 hL, hpos, readerSpec, hroom]
      by_cases hz : (lineOf chunk).length = 0
      · have : lineOf chunk = [] := List.length_eq_zero.mp hz
        simp [this, valuePos_nil, ih1]
      · simp only [hz, if_false, hpos, Option.some_bind]
        by_cases hp : valuePos (lineOf chunk) key = 0
        · simp only [hp, if_true]; exact ih1
        · simp only [hp, if_false, hdrop, strlen_run _ r1 hLd, cstr_run _ r1 hLd,
            Option.some_bind]
          rfl

/-- The function `kv_get_value` on an existing file, with valid arguments. -/
theorem kv_get_value_run (filename content key value : List Nat) (size : Nat)
    (hsize : size ≠ 0) (hfn : filename ≠ []) (hkey : key ≠ []) :
    kv_get_value filename (some content) key value size
      = readerSpec key value size (fileChunks content) := by
  have h1 : ¬ (filename.length = 0 ∨ key.length = 0) := by
    simp [hfn, hkey]
  simp only [kv_get_value, hsize, if_false, h1]
  rw [getLoop_run key value size (content.length + 1) content (Nat.lt_succ_self _)]
  rw [fileChunks, chunks_fuel (content.length + 1) content.length content (Nat.le_succ _)
    (Nat.le_refl _)]

/-- A file of 511 bytes `a` without a line feed: `fgets` fills the line buffer
up to its terminator at `line[511]`, no byte is trimmed, and the last loop of
`kv_trim_string` reads `line[512]`, outside the buffer. -/
theorem kv_get_value_out_of_bounds :
    kv_get_value [102] (some (List.replicate 511 97)) [107] [7, 7, 7, 7] 4 = none := by
  decide!

/-! ## Lines that define a key, and the result of the Reader -/

theorem definesKey_iff (line key : List Nat) :
    definesKey line key = true ↔ ∃ v rest, tokens line = key :: v :: rest := by
  unfold definesKey
  cases h : tokens line with
  | nil => simp
  | cons t ts =>
    cases ts with
    | nil => simp
    | cons v rest =>
      simp only [decide_eq_true_eq]
      constructor
      · intro ht; exact ⟨v, rest, by rw [ht]⟩
      · rintro ⟨v1, rest1, h1⟩
        exact (List.cons.inj h1).1

theorem tokens_ne_nil (s t : List Nat) (h : t ∈ tokens s) : t ≠ [] := by
  unfold tokens at h
  have := (List.mem_filter.mp h).2
  simpa using this

theorem definesKey_valuePos (line key : List Nat) :
    definesKey line key = true ↔ valuePos line key ≠ 0 := by
  rw [definesKey_iff, valuePos_ne_zero_iff]
  constructor
  · rintro ⟨v, rest, h⟩
    refine ⟨?_, v, rest, h⟩
    exact tokens_ne_nil line key (by rw [h]; simp)
  · rintro ⟨-, h⟩; exact h

theorem valuePos_of_not_definesKey (line key : List Nat) (h : definesKey line key = false) :
    valuePos line key = 0 := by
  by_contra hne
  have := (definesKey_valuePos line key).mpr hne
  rw [h] at this
  exact absurd this (by decide)

/-- The text from the value offset on starts with the value token, and what
follows the token is empty or starts with a delimiter. -/
theorem valueText_token (line key : List Nat) (h : valuePos line key ≠ 0) :
    ∃ v rest more, tokens line = key :: v :: rest ∧ valueText line key = v ++ more
      ∧ (∀ c, more.head? = some c → isDelim c = true) := by
  have hdef := h
  rw [valuePos_def] at hdef
  unfold valueText
  rw [valuePos_def, tokens_run line]
  generalize ha : line.takeWhile isDelim = a
  have e1 : line = a ++ line.dropWhile isDelim := by rw [← ha]; simp
  generalize line.dropWhile isDelim = s1 at e1 hdef ⊢
  have e2 : s1 = s1.takeWhile (fun c => !isDelim c) ++ s1.dropWhile (fun c => !isDelim c) := by
    simp
  generalize s1.takeWhile (fun c => !isDelim c) = t at e2 hdef ⊢
  generalize s1.dropWhile (fun c => !isDelim c) = s2 at e2 hdef ⊢
  rw [tokens_run s2]
  have e3 : s2 = s2.takeWhile isDelim ++ s2.dropWhile isDelim := by simp
  generalize s2.takeWhile isDelim = a2 at e3
  generalize s2.dropWhile isDelim = s3 at e3 hdef ⊢
  by_cases hc : key ≠ [] ∧ t = key ∧ s3 ≠ []
  · obtain ⟨hk, htk, h3⟩ := hc
    have h1 : s1 ≠ [] := by
      intro h1; rw [h1] at e2
      have : t = [] := by
        cases t with
        | nil => rfl
        | cons y ys => simp at e2
      exact hk (by rw [← htk, this])
    rw [if_neg h1, if_neg h3, if_pos ⟨hk, htk, h3⟩, htk]
    refine ⟨_, _, s3.dropWhile (fun c => !isDelim c), rfl, ?_, ?_⟩
    · have hl : line = (a ++ (t ++ a2)) ++ s3 := by
        rw [e1, e2, e3]; simp
      have hlen : line.length - s3.length = (a ++ (t ++ a2)).length := by
        rw [hl]; simp only [List.length_append]; omega
      rw [hlen]
      conv_lhs => rw [hl]
      rw [drop_run]
      simp
    · intro c hh
      have := head_dropWhile (fun c => !isDelim c) s3 c hh
      simpa using this
  · rw [if_neg hc] at hdef; exact absurd rfl hdef

theorem readerSpec_skip (key value : List Nat) (size : Nat) (pre cs : List (List Nat))
    (hpre : ∀ c ∈ pre, (lineOf c).length + 2 ≤ KV_LINE_SIZE ∧ valuePos (lineOf c) key = 0) :
    readerSpec key value size (pre ++ cs) = readerSpec key value size cs := by
  induction pre with
  | nil => rfl
  | cons c pre ih =>
    have hc := hpre c (by simp)
    have h1 : ¬ KV_LINE_SIZE < (lineOf c).length + 2 := Nat.not_lt.mpr hc.1
    simp only [List.cons_append, readerSpec, h1, if_false, hc.2, if_true]
    exact ih (fun x hx => hpre x (by simp [hx]))

theorem readerSpec_none (key value : List Nat) (size : Nat) (cs : List (List Nat))
    (hcs : ∀ c ∈ cs, (lineOf c).length + 2 ≤ KV_LINE_SIZE ∧ valuePos (lineOf c) key = 0) :
    readerSpec key value size cs = some (KV_NOT_FOUND, value) := by
  have := readerSpec_skip key value size cs [] hcs
  rw [List.append_nil] at this
  rw [this]; rfl

/-- Storing a string and its terminator in the caller's buffer. -/
theorem store_value (value v : List Nat) (h : v.length < value.length) :
    (strncpy value v v.length).bind (fun v1 =>
        (poke v1 v.length 0).bind fun v2 => some (KV_OK_SUCCESS, v2))
      = some (KV_OK_SUCCESS, v ++ 0 :: value.drop (v.length + 1)) := by
  have h1 : strncpy value v v.length = some (v ++ value.drop v.length) := by
    simp [strncpy, Nat.le_of_lt h]
  obtain ⟨x, hx⟩ : ∃ x, value.drop v.length = x :: value.drop (v.length + 1) := by
    cases hd : value.drop v.length with
    | nil =>
      have := congrArg List.length hd
      simp only [List.length_drop, List.length_nil] at this
      omega
    | cons x xs =>
      refine ⟨x, ?_⟩
      have : value.drop (v.length + 1) = (value.drop v.length).drop 1 := by
        rw [List.drop_drop]
      rw [this, hd]; rfl
  rw [h1, hx]
  simp only [Option.some_bind, poke_run v _ x 0]

theorem readerSpec_hit (key value : List Nat) (size : Nat) (c : List Nat) (cs : List (List Nat))
    (hroom : (lineOf c).length + 2 ≤ KV_LINE_SIZE) (hp : valuePos (lineOf c) key ≠ 0)
    (hsize : (valueText (lineOf c) key).length < size) (hbuf : size ≤ value.length) :
    readerSpec key value size (c :: cs)
      = some (KV_OK_SUCCESS, valueText (lineOf c) key
          ++ 0 :: value.drop ((valueText (lineOf c) key).length + 1)) := by
  have h1 : ¬ KV_LINE_SIZE < (lineOf c).length + 2 := Nat.not_lt.mpr hroom
  have h2 : ¬ (valueText (lineOf c) key).length > size := by omega
  have h3 := store_value value (valueText (lineOf c) key) (by omega)
  unfold valueText at h2 h3 ⊢
  simp only [readerSpec, h1, if_false, hp, h2]
  exact h3

theorem store_value_inv (value v out : List Nat) (st : Int)
    (h : (strncpy value v v.length).bind (fun v1 =>
        (poke v1 v.length 0).bind fun v2 => some (KV_OK_SUCCESS, v2)) = some (st, out)) :
    v.length < value.length := by
  by_contra hlt
  by_cases hle : v.length ≤ value.length
  · have he : value.drop v.length = [] := List.drop_eq_nil_of_le (by omega)
    have h1 : strncpy value v v.length = some (v ++ []) := by
      simp [strncpy, hle, he]
    have h2 : poke (v ++ []) v.length 0 = none := by simp [poke]
    rw [h1] at h
    simp only [Option.some_bind, h2, Option.none_bind] at h
    exact absurd h (by simp)
  · have h1 : strncpy value v v.length = none := by simp [strncpy, hle]
    rw [h1] at h
    exact absurd h (by simp)

/-- When the Reader's result is success, a first matching line exists and the
caller's buffer holds its text from the value offset on. -/
theorem readerSpec_ok_inv (key value : List Nat) (size : Nat) (out : List Nat) :
    ∀ cs : List (List Nat), readerSpec key value size cs = some (KV_OK_SUCCESS, out) →
      ∃ pre L post, cs = pre ++ L :: post ∧ (∀ c ∈ pre, valuePos (lineOf c) key = 0)
        ∧ valuePos (lineOf L) key ≠ 0 ∧ cstr out = valueText (lineOf L) key := by
  intro cs
  induction cs with
  | nil =>
    intro h
    simp only [readerSpec, Option.some.injEq, Prod.mk.injEq] at h
    exact absurd h.1 (by decide)
  | cons c cs ih =>
    intro h
    simp only [readerSpec] at h
    by_cases h1 : KV_LINE_SIZE < (lineOf c).length + 2
    · rw [if_pos h1] at h; exact absurd h (by simp)
    · rw [if_neg h1] at h
      by_cases hp : valuePos (lineOf c) key = 0
      · rw [if_pos hp] at h
        obtain ⟨pre, L, post, e, hpre, hL, hout⟩ := ih h
        refine ⟨c :: pre, L, post, by rw [e]; rfl, ?_, hL, hout⟩
        intro x hx
        rcases List.mem_cons.mp hx with hx | hx
        · rw [hx]; exact hp
        · exact hpre x hx
      · rw [if_neg hp] at h
        by_cases h2 : ((lineOf c).drop (valuePos (lineOf c) key)).length > size
        · rw [if_pos h2] at h
          simp only [Option.some.injEq, Prod.mk.injEq] at h
          exact absurd h.1 (by decide)
        · rw [if_neg h2] at h
          have hlt := store_value_inv value _ out _ h
          rw [store_value value _ hlt] at h
          simp only [Option.some.injEq, Prod.mk.injEq, true_and] at h
          refine ⟨[], c, cs, rfl, by simp, hp, ?_⟩
          rw [← h]
          unfold valueText
          exact cstr_run _ _ (fun x hx => lineOf_nul_free c x (List.mem_of_mem_drop hx))

/-! ## The loops of `kv_set_value` -/

theorem rewriteLines_cons (key value c : List Nat) (cs : List (List Nat)) :
    rewriteLines key value (c :: cs) = lineOut key value c ++ rewriteLines key value cs := by
  simp [rewriteLines]

theorem keyFound_cons (key c : List Nat) (cs : List (List Nat)) :
    keyFound key (c :: cs) = (valuePos (lineOf c) key != 0 || keyFound key cs) := by
  simp [keyFound]

/-- The first loop of `kv_set_value` on a stream whose lines leave room in the
line buffer: the staging stream receives `rewriteLines` of the pieces `fgets`
delivers. -/
theorem setLoop_run (key value : List Nat) :
    ∀ (fuel : Nat) (fp line tmp : List Nat) (found : Bool), fp.length < fuel →
      line.length = KV_LINE_SIZE →
      (∀ c ∈ chunks fuel fp, (lineOf c).length + 2 ≤ KV_LINE_SIZE) →
      ∃ line1, setLoop key value fuel fp line tmp found
          = some (line1, tmp ++ rewriteLines key value (chunks fuel fp),
              found || keyFound key (chunks fuel fp))
        ∧ line1.length = KV_LINE_SIZE := by
  intro fuel
  induction fuel with
  | zero => intro fp _ _ _ h; omega
  | succ n ih =>
    intro fp line tmp found hlt hline hroom
    by_cases hfp : fp = []
    · subst hfp
      refine ⟨line, ?_, hline⟩
      simp [setLoop, fgets, chunks, rewriteLines, keyFound]
    · generalize hck : fgetsTake (KV_LINE_SIZE - 1) fp = chunk at *
      have hch : chunks (n + 1) fp = chunk :: chunks n (fp.drop chunk.length) := by
        simp [chunks, hfp, hck]
      have hdl := fgets_drop_lt fp hfp
      rw [hck] at hdl
      have hcl : chunk.length < KV_LINE_SIZE := by
        have := fgetsTake_length_le (KV_LINE_SIZE - 1) fp
        rw [hck] at this
        exact Nat.lt_of_le_of_lt this (by decide)
      rw [hch] at hroom ⊢
      have hroom0 := hroom chunk (by simp)
      have hroom1 : ∀ c ∈ chunks n (fp.drop chunk.length), (lineOf c).length + 2 ≤ KV_LINE_SIZE :=
        fun c hc => hroom c (List.mem_cons_of_mem _ hc)
      obtain ⟨r1, htrim, hsz⟩ := trim_chunk chunk line hcl hline hroom0
      have hL := lineOf_nul_free chunk
      have hpos := kv_get_value_pos_run (lineOf chunk) key hL (by omega)
      rw [rewriteLines_cons, keyFound_cons]
      simp only [setLoop, fgets, hfp, if_false, hck, htrim, Option.bind_eq_bind,
        Option.some_bind, strlen_run _ r1 hL, cstr_run _ r1 hL, hpos]
      by_cases hz : (lineOf chunk).length = 0
      · have he : lineOf chunk = [] := List.length_eq_zero.mp hz
        obtain ⟨line1, h1, h2⟩ := ih (fp.drop chunk.length) (lineOf chunk ++ 0 :: r1) tmp found
          (by omega) hsz hroom1
        refine ⟨line1, ?_, h2⟩
        simp only [hz, if_true, h1]
        simp [lineOut, he, valuePos_nil]
      · have he : lineOf chunk ≠ [] := fun e => hz (by rw [e]; rfl)
        simp only [hz, if_false]
        by_cases hp : valuePos (lineOf chunk) key = 0
        · obtain ⟨line1, h1, h2⟩ := ih (fp.drop chunk.length) (List.replicate KV_LINE_SIZE 0)
            (tmp ++ lineOf chunk ++ [10]) found (by omega) (by simp) hroom1
          refine ⟨line1, ?_, h2⟩
          simp only [hp, if_true, h1]
          simp [lineOut, he, hp]
        · obtain ⟨line1, h1, h2⟩ := ih (fp.drop chunk.length) (List.replicate KV_LINE_SIZE 0)
            (tmp ++ key ++ [61] ++ value ++ [10]) true (by omega) (by simp) hroom1
          refine ⟨line1, ?_, h2⟩
          simp only [hp, if_false, h1]
          simp [lineOut, he, hp, entry]

/-- The second loop of `kv_set_value` copies a staging stream without NUL
bytes as it is. -/
theorem copyLoop_run :
    ∀ (fuel : Nat) (tmp line out : List Nat), tmp.length < fuel → (∀ c ∈ tmp, c ≠ 0) →
      copyLoop fuel tmp line out = some (out ++ tmp) := by
  intro fuel
  induction fuel with
  | zero => intro tmp _ _ h; omega
  | succ n ih =>
    intro tmp line out hlt hnul
    by_cases hfp : tmp = []
    · subst hfp; simp [copyLoop, fgets]
    · generalize hck : fgetsTake (KV_LINE_SIZE - 1) tmp = chunk at *
      have hdl := fgets_drop_lt tmp hfp
      rw [hck] at hdl
      have hpre := fgetsTake_append_drop (KV_LINE_SIZE - 1) tmp
      rw [hck] at hpre
      have hcn : ∀ c ∈ chunk, c ≠ 0 := by
        intro c hc
        apply hnul; rw [← hpre]; exact List.mem_append_left _ hc
      have hrn : ∀ c ∈ tmp.drop chunk.length, c ≠ 0 :=
        fun c hc => hnul c (List.mem_of_mem_drop hc)
      simp only [copyLoop, fgets, hfp, if_false, hck, cstr_run chunk _ hcn]
      rw [ih (tmp.drop chunk.length) _ _ (by omega) hrn, List.append_assoc, hpre]

theorem lineOut_nul_free (key value c : List Nat) (hk : ∀ x ∈ key, x ≠ 0)
    (hv : ∀ x ∈ value, x ≠ 0) : ∀ x ∈ lineOut key value c, x ≠ 0 := by
  intro x hx
  unfold lineOut at hx
  split at hx
  · simp at hx
  · split at hx
    · rcases List.mem_append.mp hx with h | h
      · exact lineOf_nul_free c x h
      · simp at h; omega
    · unfold entry at hx
      simp only [List.mem_append, List.mem_singleton] at hx
      rcases hx with ((h | h) | h) | h
      · exact hk x h
      · omega
      · exact hv x h
      · omega

theorem entry_nul_free (key value : List Nat) (hk : ∀ x ∈ key, x ≠ 0)
    (hv : ∀ x ∈ value, x ≠ 0) : ∀ x ∈ entry key value, x ≠ 0 := by
  intro x hx
  unfold entry at hx
  simp only [List.mem_append, List.mem_singleton] at hx
  rcases hx with ((h | h) | h) | h
  · exact hk x h
  · omega
  · exact hv x h
  · omega

theorem writerSpec_nul_free (key value : List Nat) (cs : List (List Nat))
    (hk : ∀ x ∈ key, x ≠ 0) (hv : ∀ x ∈ value, x ≠ 0) :
    ∀ x ∈ writerSpec key value cs, x ≠ 0 := by
  intro x hx
  unfold writerSpec rewriteLines at hx
  rcases List.mem_append.mp hx with h | h
  · obtain ⟨l, hl, hxl⟩ := List.mem_flatten.mp h
    obtain ⟨c, -, rfl⟩ := List.mem_map.mp hl
    exact lineOut_nul_free key value c hk hv x hxl
  · split at h
    · simp at h
    · exact entry_nul_free key value hk hv x h

/-- The function `kv_set_value` with valid arguments, on a file whose lines
leave room in the line buffer or on a path with no file: the status is 0 and
the file written is `writerSpec` of the lines read. -/
theorem kv_set_value_run (filename key value : List Nat) (fs : Option (List Nat))
    (hfn : filename ≠ []) (hkey : key ≠ []) (hval : value ≠ [])
    (hk : ∀ x ∈ key, x ≠ 0) (hv : ∀ x ∈ value, x ≠ 0)
    (hroom : ∀ c ∈ stateLines fs, (lineOf c).length + 2 ≤ KV_LINE_SIZE) :
    kv_set_value filename true fs key value
      = some (KV_OK_SUCCESS, some (writerSpec key value (stateLines fs))) := by
  have h1 : ¬ (filename.length = 0 ∨ key.length = 0 ∨ value.length = 0) := by
    simp [hfn, hkey, hval]
  cases fs with
  | none =>
    have hn := entry_nul_free key value hk hv
    have hc := copyLoop_run ((entry key value).length + 1) (entry key value)
      (List.replicate KV_LINE_SIZE 0) [] (Nat.lt_succ_self _) hn
    simp only [entry] at hc
    simp only [kv_set_value, h1, if_false, Option.bind_eq_bind, Option.some_bind, Option.pure_def,
      if_true, List.nil_append, hc]
    simp [writerSpec, rewriteLines, keyFound, entry, stateLines]
  | some content =>
    have hfuel := chunks_fuel (content.length + 1) content.length content (Nat.le_succ _)
      (Nat.le_refl _)
    obtain ⟨line1, hs, -⟩ := setLoop_run key value (content.length + 1) content
      (List.replicate KV_LINE_SIZE 0) [] false (Nat.lt_succ_self _) (by simp)
      (by rw [hfuel]; exact hroom)
    rw [hfuel] at hs
    have hs1 : setLoop key value (content.length + 1) content (List.replicate KV_LINE_SIZE 0) []
        false = some (line1, [] ++ rewriteLines key value (fileChunks content),
          false || keyFound key (fileChunks content)) := hs
    have hn := writerSpec_nul_free key value (fileChunks content) hk hv
    have hc := copyLoop_run ((writerSpec key value (fileChunks content)).length + 1)
      (writerSpec key value (fileChunks content)) line1 [] (Nat.lt_succ_self _) hn
    have e : (if keyFound key (fileChunks content) = false then
          rewriteLines key value (fileChunks content) ++ key ++ [61] ++ value ++ [10]
        else rewriteLines key value (fileChunks content))
        = writerSpec key value (fileChunks content) := by
      unfold writerSpec entry
      cases keyFound key (fileChunks content) <;> simp
    simp only [kv_set_value, h1, if_false, Option.bind_eq_bind, Option.some_bind, hs1,
      List.nil_append, Bool.false_or, e, hc]
    rfl

/-- The function `kv_set_value` with valid arguments on a path that cannot be
opened for writing, the file being one whose lines leave room in the line
buffer or absent: the status is `KV_ARGUMENT_ERR` and the file is as it was. -/
theorem kv_set_value_unwritable (filename key value : List Nat) (fs : Option (List Nat))
    (hfn : filename ≠ []) (hkey : key ≠ []) (hval : value ≠ [])
    (hroom : ∀ c ∈ stateLines fs, (lineOf c).length + 2 ≤ KV_LINE_SIZE) :
    kv_set_value filename false fs key value = some (KV_ARGUMENT_ERR, fs) := by
  have h1 : ¬ (filename.length = 0 ∨ key.length = 0 ∨ value.length = 0) := by
    simp [hfn, hkey, hval]
  cases fs with
  | none =>
    simp only [kv_set_value, h1, if_false, Option.bind_eq_bind, Option.some_bind, Option.pure_def,
      if_true]
  | some content =>
    have hfuel := chunks_fuel (content.length + 1) content.length content (Nat.le_succ _)
      (Nat.le_refl _)
    obtain ⟨line1, hs, -⟩ := setLoop_run key value (content.length + 1) content
      (List.replicate KV_LINE_SIZE 0) [] false (Nat.lt_succ_self _) (by simp)
      (by rw [hfuel]; exact hroom)
    simp only [kv_set_value, h1, if_false, Option.bind_eq_bind, Option.some_bind, hs,
      Option.pure_def, if_true]

theorem chunks_length_lt (fuel : Nat) (fp c : List Nat) (hc : c ∈ chunks fuel fp) :
    c.length < KV_LINE_SIZE := by
  induction fuel generalizing fp with
  | zero => simp [chunks] at hc
  | succ n ih =>
    unfold chunks at hc
    split at hc
    · simp at hc
    · rcases List.mem_cons.mp hc with h | h
      · rw [h]
        exact Nat.lt_of_le_of_lt (fgetsTake_length_le (KV_LINE_SIZE - 1) fp) (by decide)
      · exact ih _ h

/-! ## Reading back the file that `kv_set_value` writes -/

theorem cstr_of_nul_free (s : List Nat) (hs : ∀ c ∈ s, c ≠ 0) : cstr s = s := by
  unfold cstr
  rw [List.takeWhile_eq_self_iff]
  intro c hc
  simpa using hs c hc

theorem lineOf_clean (c : List Nat) : cleanLine (lineOf c) := by
  constructor
  · intro x hx
    refine ⟨lineOf_nul_free c x hx, ?_⟩
    have := List.mem_takeWhile_imp (mem_dropWhile _ _ _ hx)
    simpa using this
  · intro x hx
    exact head_dropWhile isspace _ x hx

/-- A clean line written with a line feed is read back as it was. -/
theorem lineOf_clean_lf (l : List Nat) (h : cleanLine l) : lineOf (l ++ [10]) = l := by
  have hn : ∀ c ∈ l ++ [10], c ≠ 0 := by
    intro c hc
    rcases List.mem_append.mp hc with h1 | h1
    · exact (h.1 c h1).1
    · simp at h1; omega
  unfold lineOf
  rw [cstr_of_nul_free _ hn]
  unfold trimmed
  cases l with
  | nil => rfl
  | cons y l1 =>
    have hy := h.1 y (by simp)
    have hys : isspace y = false := h.2 y rfl
    have h1 : (y :: l1 ++ [10]).dropWhile (fun c => decide (c ∈ [13, 10])) = y :: l1 ++ [10] := by
      rw [List.cons_append, List.dropWhile_cons_of_neg]
      simp [hy.2.1, hy.2.2]
    have h2 : (y :: l1 ++ [10]).takeWhile (fun c => !decide (c ∈ [13, 10])) = y :: l1 := by
      rw [List.takeWhile_append_of_pos]
      · simp
      · intro c hc
        have := h.1 c hc
        simp [this.2.1, this.2.2]
    rw [h1, h2, List.dropWhile_cons_of_neg (by simp [hys])]

theorem fgetsTake_line (n : Nat) (l rest : List Nat) (hl : ∀ c ∈ l, c ≠ 10)
    (hn : l.length + 1 ≤ n) : fgetsTake n (l ++ 10 :: rest) = l ++ [10] := by
  induction l generalizing n with
  | nil =>
    cases n with
    | zero => omega
    | succ n => simp [fgetsTake]
  | cons y l1 ih =>
    cases n with
    | zero => omega
    | succ n =>
      have hy : y ≠ 10 := hl y (by simp)
      have := ih n (fun c hc => hl c (by simp [hc])) (by simp at hn; omega)
      simp [fgetsTake, hy, this]

/-- A file made of lines without LF, each of at most 510 bytes and followed by
one LF, is delivered by `fgets` line by line. -/
theorem chunks_lines (ls : List (List Nat))
    (hls : ∀ l ∈ ls, (∀ c ∈ l, c ≠ 10) ∧ l.length + 2 ≤ KV_LINE_SIZE) :
    fileChunks ((ls.map (fun l => l ++ [10])).flatten) = ls.map (fun l => l ++ [10]) := by
  induction ls with
  | nil => rfl
  | cons l ls ih =>
    have hl := hls l (by simp)
    have ih1 := ih (fun x hx => hls x (by simp [hx]))
    generalize hrest : ((ls.map (fun l => l ++ [10])).flatten) = rest at ih1
    have e : ((l :: ls).map (fun l => l ++ [10])).flatten = l ++ 10 :: rest := by
      simp [hrest]
    rw [e]
    have hne : l ++ 10 :: rest ≠ [] := by simp
    have htake : fgetsTake (KV_LINE_SIZE - 1) (l ++ 10 :: rest) = l ++ [10] :=
      fgetsTake_line _ l rest hl.1 (by have := hl.2; simp only [KV_LINE_SIZE] at this ⊢; omega)
    have hdrop : (l ++ 10 :: rest).drop (l ++ [10]).length = rest := by
      have : l ++ 10 :: rest = (l ++ [10]) ++ rest := by simp
      rw [this, drop_run]
    unfold fileChunks
    have hlen : (l ++ 10 :: rest).length = (l.length + rest.length) + 1 := by
      simp only [List.length_append, List.length_cons]; omega
    rw [hlen]
    simp only [chunks, hne, if_false, htake, hdrop, List.map_cons]
    rw [chunks_fuel (l.length + rest.length) rest.length rest (by omega) (Nat.le_refl _)]
    exact congrArg _ ih1

theorem takeWhile_not_delim (k rest : List Nat) (hk : ∀ c ∈ k, isDelim c = false) :
    (k ++ 61 :: rest).takeWhile (fun c => !isDelim c) = k := by
  rw [List.takeWhile_append_of_pos]
  · have : isDelim 61 = true := by decide
    simp [List.takeWhile_cons, this]
  · intro c hc; simp [hk c hc]

theorem dropWhile_not_delim (k rest : List Nat) (hk : ∀ c ∈ k, isDelim c = false) :
    (k ++ 61 :: rest).dropWhile (fun c => !isDelim c) = 61 :: rest := by
  rw [List.dropWhile_append_of_pos]
  · have : isDelim 61 = true := by decide
    simp [List.dropWhile_cons, this]
  · intro c hc; simp [hk c hc]

/-- On the line `key=value` the value offset is just after the `=`. -/
theorem valuePos_entry (k v : List Nat) (hk : wellFormed k) (hv : wellFormed v) :
    valuePos (k ++ 61 :: v) k = k.length + 1 ∧ valueText (k ++ 61 :: v) k = v := by
  obtain ⟨y, k1, rfl⟩ := List.exists_cons_of_ne_nil hk.1
  obtain ⟨z, v1, rfl⟩ := List.exists_cons_of_ne_nil hv.1
  have hy := (hk.2 y (by simp)).2
  have hz := (hv.2 z (by simp)).2
  have hkd : ∀ c ∈ y :: k1, isDelim c = false := fun c hc => (hk.2 c hc).2
  have h1 : (y :: k1 ++ 61 :: z :: v1).dropWhile isDelim = y :: k1 ++ 61 :: z :: v1 := by
    rw [List.cons_append, List.dropWhile_cons_of_neg (by simp [hy])]
  have h2 := takeWhile_not_delim (y :: k1) (z :: v1) hkd
  have h3 := dropWhile_not_delim (y :: k1) (z :: v1) hkd
  have h4 : (61 :: z :: v1).dropWhile isDelim = z :: v1 := by
    have : isDelim 61 = true := by decide
    rw [List.dropWhile_cons_of_pos this, List.dropWhile_cons_of_neg (by simp [hz])]
  have hp : valuePos (y :: k1 ++ 61 :: z :: v1) (y :: k1) = (y :: k1).length + 1 := by
    rw [valuePos_def, h1, h2, h3, h4, if_pos ⟨by simp, rfl, by simp⟩]
    simp only [List.length_append, List.length_cons]
    omega
  refine ⟨hp, ?_⟩
  unfold valueText
  rw [hp]
  have : y :: k1 ++ 61 :: z :: v1 = (y :: k1 ++ [61]) ++ z :: v1 := by simp
  rw [this]
  have hl : (y :: k1).length + 1 = (y :: k1 ++ [61]).length := by simp
  rw [hl, drop_run]

theorem entry_line_clean (k v : List Nat) (hk : wellFormed k) (hv : wellFormed v)
    (hh : ∀ c, k.head? = some c → isspace c = false) : cleanLine (k ++ 61 :: v) := by
  have hd : ∀ c, c ≠ 0 ∧ isDelim c = false → c ≠ 0 ∧ c ≠ 13 ∧ c ≠ 10 := by
    intro c hc
    refine ⟨hc.1, ?_, ?_⟩
    · intro e; rw [e] at hc; exact absurd hc.2 (by decide)
    · intro e; rw [e] at hc; exact absurd hc.2 (by decide)
  constructor
  · intro c hc
    simp only [List.mem_append, List.mem_cons] at hc
    rcases hc with h | h | h
    · exact hd c (hk.2 c h)
    · rw [h]; decide
    · exact hd c (hv.2 c h)
  · intro c hc
    obtain ⟨y, k1, rfl⟩ := List.exists_cons_of_ne_nil hk.1
    exact hh c hc

theorem entry_eq (key value : List Nat) : entry key value = (key ++ 61 :: value) ++ [10] := by
  simp [entry]

theorem rewriteLines_eq_lines (key value : List Nat) (cs : List (List Nat)) :
    rewriteLines key value cs
      = ((cs.filterMap (fun c =>
          if lineOf c = [] then none
          else if valuePos (lineOf c) key = 0 then some (lineOf c)
          else some (key ++ 61 :: value))).map (fun l => l ++ [10])).flatten := by
  induction cs with
  | nil => rfl
  | cons c cs ih =>
    rw [rewriteLines_cons, ih, List.filterMap_cons]
    unfold lineOut
    by_cases h1 : lineOf c = []
    · simp [h1]
    · by_cases h2 : valuePos (lineOf c) key = 0
      · simp [h1, h2]
      · simp [h1, h2, entry_eq]

/-- The file `kv_set_value` writes is made of the lines `newLines`, each
followed by one LF. -/
theorem writerSpec_eq_lines (key value : List Nat) (cs : List (List Nat)) :
    writerSpec key value cs = ((newLines key value cs).map (fun l => l ++ [10])).flatten := by
  unfold writerSpec newLines
  rw [rewriteLines_eq_lines]
  cases keyFound key cs with
  | true => simp
  | false => simp [entry_eq]

theorem newLines_mem (key value : List Nat) (cs : List (List Nat)) (l : List Nat)
    (h : l ∈ newLines key value cs) :
    l = key ++ 61 :: value
      ∨ ∃ c ∈ cs, l = lineOf c ∧ lineOf c ≠ [] ∧ valuePos (lineOf c) key = 0 := by
  unfold newLines at h
  rcases List.mem_append.mp h with h1 | h1
  · obtain ⟨c, hc, hl⟩ := List.mem_filterMap.mp h1
    by_cases e1 : lineOf c = []
    · rw [if_pos e1] at hl; exact absurd hl (by simp)
    · rw [if_neg e1] at hl
      by_cases e2 : valuePos (lineOf c) key = 0
      · rw [if_pos e2] at hl
        exact Or.inr ⟨c, hc, (Option.some.inj hl).symm, e1, e2⟩
      · rw [if_neg e2] at hl
        exact Or.inl (Option.some.inj hl).symm
  · split at h1
    · simp at h1
    · exact Or.inl (List.mem_singleton.mp h1)

theorem entry_mem_newLines (key value : List Nat) (cs : List (List Nat)) :
    key ++ 61 :: value ∈ newLines key value cs := by
  unfold newLines
  cases hk : keyFound key cs with
  | false => simp
  | true =>
    unfold keyFound at hk
    obtain ⟨c, hc, hp⟩ := List.any_eq_true.mp hk
    have hp1 : valuePos (lineOf c) key ≠ 0 := by simpa using hp
    have hne : lineOf c ≠ [] := by
      intro e; rw [e, valuePos_nil] at hp1; exact hp1 rfl
    apply List.mem_append_left
    exact List.mem_filterMap.mpr ⟨c, hc, by rw [if_neg hne, if_neg hp1]⟩

/-- Every line `kv_set_value` writes is clean and leaves room in the line
buffer, when the lines read did and the entry does. -/
theorem newLines_ok (key value : List Nat) (cs : List (List Nat))
    (hk : wellFormed key) (hv : wellFormed value)
    (hh : ∀ c, key.head? = some c → isspace c = false)
    (hfit : key.length + value.length + 3 ≤ KV_LINE_SIZE)
    (hroom : ∀ c ∈ cs, (lineOf c).length + 2 ≤ KV_LINE_SIZE) :
    ∀ l ∈ newLines key value cs, cleanLine l ∧ l.length + 2 ≤ KV_LINE_SIZE := by
  intro l hl
  rcases newLines_mem key value cs l hl with h | ⟨c, hc, h, -, -⟩
  · rw [h]
    refine ⟨entry_line_clean key value hk hv hh, ?_⟩
    simp only [List.length_append, List.length_cons]; omega
  · rw [h]
    exact ⟨lineOf_clean c, hroom c hc⟩

/-- Reading back the file `kv_set_value` writes gives its lines. -/
theorem fileChunks_writerSpec (key value : List Nat) (cs : List (List Nat))
    (hk : wellFormed key) (hv : wellFormed value)
    (hh : ∀ c, key.head? = some c → isspace c = false)
    (hfit : key.length + value.length + 3 ≤ KV_LINE_SIZE)
    (hroom : ∀ c ∈ cs, (lineOf c).length + 2 ≤ KV_LINE_SIZE) :
    fileChunks (writerSpec key value cs) = (newLines key value cs).map (fun l => l ++ [10]) := by
  rw [writerSpec_eq_lines]
  apply chunks_lines
  intro l hl
  have := newLines_ok key value cs hk hv hh hfit hroom l hl
  exact ⟨fun c hc => (this.1.1 c hc).2.2, this.2⟩

/-- Writing again over the file `kv_set_value` wrote keeps every line. -/
theorem writerSpec_again (key value : List Nat) (cs : List (List Nat))
    (hk : wellFormed key) (hv : wellFormed value)
    (hh : ∀ c, key.head? = some c → isspace c = false)
    (hfit : key.length + value.length + 3 ≤ KV_LINE_SIZE)
    (hroom : ∀ c ∈ cs, (lineOf c).length + 2 ≤ KV_LINE_SIZE) :
    writerSpec key value ((newLines key value cs).map (fun l => l ++ [10]))
      = writerSpec key value cs := by
  have hok := newLines_ok key value cs hk hv hh hfit hroom
  have hkv := entry_mem_newLines key value cs
  have hpe := (valuePos_entry key value hk hv).1
  have hfound : keyFound key ((newLines key value cs).map (fun l => l ++ [10])) = true := by
    unfold keyFound
    apply List.any_eq_true.mpr
    refine ⟨(key ++ 61 :: value) ++ [10], List.mem_map.mpr ⟨_, hkv, rfl⟩, ?_⟩
    rw [lineOf_clean_lf _ (hok _ hkv).1, hpe]
    simp
  have hout : ∀ l ∈ newLines key value cs, lineOut key value (l ++ [10]) = l ++ [10] := by
    intro l hl
    unfold lineOut
    rw [lineOf_clean_lf l (hok l hl).1]
    rcases newLines_mem key value cs l hl with h | ⟨c, -, h, h1, h2⟩
    · have hne : l ≠ [] := by rw [h]; simp
      rw [if_neg hne, h, hpe, if_neg (by omega), entry_eq]
    · rw [h, if_neg h1, if_pos h2]
  rw [writerSpec_eq_lines key value cs]
  unfold writerSpec
  rw [hfound, if_pos rfl, List.append_nil]
  unfold rewriteLines
  rw [List.map_map]
  congr 1
  apply List.map_congr_left
  intro l hl
  exact hout l hl

theorem first_entry (key value : List Nat) (ls : List (List Nat))
    (hmem : key ++ 61 :: value ∈ ls)
    (hls : ∀ l ∈ ls, l = key ++ 61 :: value ∨ valuePos l key = 0) :
    ∃ pre post, ls = pre ++ (key ++ 61 :: value) :: post ∧ ∀ l ∈ pre, valuePos l key = 0 := by
  induction ls with
  | nil => simp at hmem
  | cons l ls ih =>
    by_cases h : l = key ++ 61 :: value
    · exact ⟨[], ls, by rw [h]; rfl, by simp⟩
    · have hl : valuePos l key = 0 := by
        rcases hls l (by simp) with h1 | h1
        · exact absurd h1 h
        · exact h1
      have hm : key ++ 61 :: value ∈ ls := by
        rcases List.mem_cons.mp hmem with h1 | h1
        · exact absurd h1.symm h
        · exact h1
      obtain ⟨pre, post, e, hpre⟩ := ih hm (fun x hx => hls x (by simp [hx]))
      refine ⟨l :: pre, post, by rw [e]; rfl, ?_⟩
      intro x hx
      rcases List.mem_cons.mp hx with h1 | h1
      · rw [h1]; exact hl
      · exact hpre x h1

/-- Reading the key back from the file `kv_set_value` wrote gives the value. -/
theorem readerSpec_written (key value buf : List Nat) (size : Nat) (cs : List (List Nat))
    (hk : wellFormed key) (hv : wellFormed value)
    (hh : ∀ c, key.head? = some c → isspace c = false)
    (hfit : key.length + value.length + 3 ≤ KV_LINE_SIZE)
    (hroom : ∀ c ∈ cs, (lineOf c).length + 2 ≤ KV_LINE_SIZE)
    (hsize : value.length < size) (hbuf : size ≤ buf.length) :
    readerSpec key buf size ((newLines key value cs).map (fun l => l ++ [10]))
      = some (KV_OK_SUCCESS, value ++ 0 :: buf.drop (value.length + 1)) := by
  have hok := newLines_ok key value cs hk hv hh hfit hroom
  have hkv := entry_mem_newLines key value cs
  obtain ⟨hpe, hvt⟩ := valuePos_entry key value hk hv
  obtain ⟨pre, post, e, hpre⟩ := first_entry key value (newLines key value cs) hkv
    (fun l hl => by
      rcases newLines_mem key value cs l hl with h | ⟨c, -, h, -, h2⟩
      · exact Or.inl h
      · exact Or.inr (by rw [h]; exact h2))
  have hokpre : ∀ l ∈ pre, cleanLine l ∧ l.length + 2 ≤ KV_LINE_SIZE :=
    fun l hl => hok l (by rw [e]; exact List.mem_append_left _ hl)
  rw [e, List.map_append, List.map_cons]
  rw [readerSpec_skip key buf size (pre.map (fun l => l ++ [10])) _ (by
    intro c hc
    obtain ⟨l, hl, rfl⟩ := List.mem_map.mp hc
    rw [lineOf_clean_lf l (hokpre l hl).1]
    exact ⟨(hokpre l hl).2, hpre l hl⟩)]
  have hl1 := lineOf_clean_lf _ (hok _ hkv).1
  have := readerSpec_hit key buf size ((key ++ 61 :: value) ++ [10])
    (post.map (fun l => l ++ [10]))
    (by rw [hl1]; exact (hok _ hkv).2) (by rw [hl1, hpe]; omega)
    (by rw [hl1, hvt]; exact hsize) hbuf
  rw [hl1, hvt] at this
  exact this

/-! ## The value offset inside the line -/

/-- A nonzero value offset splits the line: delimiters `a`, the key, a
non-empty run of delimiters `a2`, and a rest `s3` that starts with a byte
outside the delimiter set; the offset is the length of what precedes `s3`. -/
theorem valuePos_split (s key : List Nat) (h : valuePos s key ≠ 0) :
    ∃ a a2 s3, s = a ++ (key ++ (a2 ++ s3)) ∧ valuePos s key = (a ++ (key ++ a2)).length
      ∧ (∀ c ∈ a, isDelim c = true) ∧ (∀ c ∈ key, isDelim c = false) ∧ key ≠ []
      ∧ a2 ≠ [] ∧ (∀ c ∈ a2, isDelim c = true)
      ∧ s3 ≠ [] ∧ (∀ c, s3.head? = some c → isDelim c = false) := by
  have hdef := h
  rw [valuePos_def] at hdef
  rw [valuePos_def]
  generalize ha : s.takeWhile isDelim = a
  generalize hs1 : s.dropWhile isDelim = s1 at hdef ⊢
  generalize ht : s1.takeWhile (fun c => !isDelim c) = t at hdef ⊢
  generalize hs2 : s1.dropWhile (fun c => !isDelim c) = s2 at hdef ⊢
  generalize ha2 : s2.takeWhile isDelim = a2
  generalize hs3 : s2.dropWhile isDelim = s3 at hdef ⊢
  have e1 : s = a ++ s1 := by rw [← ha, ← hs1]; simp
  have e2 : s1 = t ++ s2 := by rw [← ht, ← hs2]; simp
  have e3 : s2 = a2 ++ s3 := by rw [← ha2, ← hs3]; simp
  by_cases hc : key ≠ [] ∧ t = key ∧ s3 ≠ []
  · obtain ⟨hk, htk, h3⟩ := hc
    rw [if_pos ⟨hk, htk, h3⟩]
    have hs2ne : s2 ≠ [] := by
      intro e; rw [e] at hs3; exact h3 (by rw [← hs3]; rfl)
    obtain ⟨x, s2t, hx⟩ := List.exists_cons_of_ne_nil hs2ne
    have hxd : isDelim x = true := by
      have := head_dropWhile (fun c => !isDelim c) s1 x (by rw [hs2, hx]; rfl)
      simpa using this
    refine ⟨a, a2, s3, by rw [e1, e2, e3, htk], ?_, ?_, ?_, hk, ?_, ?_, h3, ?_⟩
    · rw [e1, e2, e3, htk]
      simp only [List.length_append]; omega
    · intro c hc; rw [← ha] at hc; exact List.mem_takeWhile_imp hc
    · intro c hc
      rw [← htk, ← ht] at hc
      simpa using List.mem_takeWhile_imp hc
    · intro e
      rw [← ha2, hx, List.takeWhile_cons_of_pos hxd] at e
      exact absurd e (by simp)
    · intro c hc; rw [← ha2] at hc; exact List.mem_takeWhile_imp hc
    · intro c hc
      exact head_dropWhile isDelim s2 c (by rw [hs3]; exact hc)
  · rw [if_neg hc] at hdef; exact absurd rfl hdef

theorem tokens_all_delim (a : List Nat) (ha : ∀ c ∈ a, isDelim c = true) : tokens a = [] := by
  rw [tokens_dropWhile]
  have : a.dropWhile isDelim = [] := List.dropWhile_eq_nil_iff.mpr ha
  rw [this]; rfl

/-- The tokens of delimiters, a run of non-delimiters, and delimiters again. -/
theorem tokens_single (a t a2 : List Nat) (ha : ∀ c ∈ a, isDelim c = true)
    (ht : ∀ c ∈ t, isDelim c = false) (hne : t ≠ []) (ha2 : ∀ c ∈ a2, isDelim c = true) :
    tokens (a ++ (t ++ a2)) = [t] := by
  rw [tokens_dropWhile, List.dropWhile_append_of_pos ha]
  obtain ⟨y, t1, rfl⟩ := List.exists_cons_of_ne_nil hne
  have hy : isDelim y = false := ht y (by simp)
  rw [List.cons_append, List.dropWhile_cons_of_neg (by simp [hy]), ← List.cons_append]
  have pt : ∀ c ∈ y :: t1, ¬ isDelim c = true := fun c hc => by simp [ht c hc]
  cases a2 with
  | nil =>
    rw [List.append_nil]
    simp [tokens, List.splitOnP_eq_single isDelim _ pt]
  | cons x a3 =>
    have hx : isDelim x = true := ha2 x (by simp)
    have h3 := tokens_all_delim a3 (fun c hc => ha2 c (by simp [hc]))
    unfold tokens at h3 ⊢
    rw [List.splitOnP_first isDelim _ pt x hx, List.filter_cons_of_pos (by simp), h3]

/-! ## More on the result of the Reader -/

theorem readerSpec_over (key value : List Nat) (size : Nat) (c : List Nat)
    (cs : List (List Nat)) (hroom : (lineOf c).length + 2 ≤ KV_LINE_SIZE)
    (hp : valuePos (lineOf c) key ≠ 0)
    (hlong : size < (valueText (lineOf c) key).length) :
    readerSpec key value size (c :: cs) = some (KV_OUT_OF_MEM_ERR, value) := by
  have h1 : ¬ KV_LINE_SIZE < (lineOf c).length + 2 := Nat.not_lt.mpr hroom
  unfold valueText at hlong
  simp only [readerSpec, h1, if_false, hp]
  rw [if_pos hlong]

/-- The value token is a part of the text from the value offset on. -/
theorem valueText_length_ge (line key v : List Nat) (rest : List (List Nat))
    (h : tokens line = key :: v :: rest) : v.length ≤ (valueText line key).length := by
  have hp : valuePos line key ≠ 0 :=
    (valuePos_ne_zero_iff line key).mpr
      ⟨tokens_ne_nil line key (by rw [h]; simp), v, rest, h⟩
  obtain ⟨v1, rest1, more, h1, h2, -⟩ := valueText_token line key hp
  rw [h] at h1
  have hv : v = v1 := (List.cons.inj (List.cons.inj h1).2).1
  rw [h2, hv]
  simp

/-- A line without LF that leaves room in the line buffer is the first piece
`fgets` delivers of a file that starts with it. -/
theorem fileChunks_cons_line (l rest : List Nat) (hl : ∀ c ∈ l, c ≠ 10)
    (hlen : l.length + 2 ≤ KV_LINE_SIZE) :
    fileChunks (l ++ 10 :: rest) = (l ++ [10]) :: fileChunks rest := by
  have hne : l ++ 10 :: rest ≠ [] := by simp
  have htake : fgetsTake (KV_LINE_SIZE - 1) (l ++ 10 :: rest) = l ++ [10] :=
    fgetsTake_line _ l rest hl (by simp only [KV_LINE_SIZE] at hlen ⊢; omega)
  have hdrop : (l ++ 10 :: rest).drop (l ++ [10]).length = rest := by
    have : l ++ 10 :: rest = (l ++ [10]) ++ rest := by simp
    rw [this, drop_run]
  unfold fileChunks
  have hlen2 : (l ++ 10 :: rest).length = (l.length + rest.length) + 1 := by
    simp only [List.length_append, List.length_cons]; omega
  rw [hlen2]
  simp only [chunks, hne, if_false, htake, hdrop]
  rw [chunks_fuel (l.length + rest.length) rest.length rest (by omega) (Nat.le_refl _)]

/-- A clean line written with CR LF is read back as it was. -/
theorem lineOf_clean_crlf (l : List Nat) (h : cleanLine l) : lineOf (l ++ [13, 10]) = l := by
  have hn : ∀ c ∈ l ++ [13, 10], c ≠ 0 := by
    intro c hc
    rcases List.mem_append.mp hc with h1 | h1
    · exact (h.1 c h1).1
    · simp at h1; omega
  unfold lineOf
  rw [cstr_of_nul_free _ hn]
  unfold trimmed
  cases l with
  | nil => rfl
  | cons y l1 =>
    have hy := h.1 y (by simp)
    have hys : isspace y = false := h.2 y rfl
    have h1 : (y :: l1 ++ [13, 10]).dropWhile (fun c => decide (c ∈ [13, 10]))
        = y :: l1 ++ [13, 10] := by
      rw [List.cons_append, List.dropWhile_cons_of_neg]
      simp [hy.2.1, hy.2.2]
    have h2 : (y :: l1 ++ [13, 10]).takeWhile (fun c => !decide (c ∈ [13, 10])) = y :: l1 := by
      rw [List.takeWhile_append_of_pos]
      · simp
      · intro c hc
        have := h.1 c hc
        simp [this.2.1, this.2.2]
    rw [h1, h2, List.dropWhile_cons_of_neg (by simp [hys])]

/-- The line of an entry, read back from the file. -/
theorem lineOf_entryLine (k v : List Nat) (crlf : Bool) (hk : wellFormed k) (hv : wellFormed v)
    (hh : ∀ c, k.head? = some c → isspace c = false) :
    lineOf (entryLine k v crlf) = k ++ 61 :: v := by
  have hc := entry_line_clean k v hk hv hh
  unfold entryLine
  cases crlf with
  | true =>
    have := lineOf_clean_crlf _ hc
    simpa using this
  | false =>
    have := lineOf_clean_lf _ hc
    simpa using this

/-- On the line of an entry with another key the value offset is 0. -/
theorem valuePos_other_entry (k v key : List Nat) (hk : wellFormed k) (hne : k ≠ key) :
    valuePos (k ++ 61 :: v) key = 0 := by
  obtain ⟨y, k1, rfl⟩ := List.exists_cons_of_ne_nil hk.1
  have hy := (hk.2 y (by simp)).2
  have hkd : ∀ c ∈ y :: k1, isDelim c = false := fun c hc => (hk.2 c hc).2
  have h1 : (y :: k1 ++ 61 :: v).dropWhile isDelim = y :: k1 ++ 61 :: v := by
    rw [List.cons_append, List.dropWhile_cons_of_neg (by simp [hy])]
  have h2 := takeWhile_not_delim (y :: k1) v hkd
  rw [valuePos_def, h1, h2, if_neg]
  rintro ⟨-, h, -⟩
  exact hne h

/-- The pieces `fgets` delivers of a file that starts with an entry whose line,
with its terminator and the NUL, fits the line buffer. -/
theorem fileChunks_entryLine (k v rest : List Nat) (crlf : Bool) (hk : wellFormed k)
    (hv : wellFormed v)
    (hfit : k.length + v.length + (if crlf = true then 4 else 3) ≤ KV_LINE_SIZE) :
    fileChunks (entryLine k v crlf ++ rest) = entryLine k v crlf :: fileChunks rest := by
  have hd : ∀ c, isDelim c = false → c ≠ 10 := by
    intro c hc e; rw [e] at hc; exact absurd hc (by decide)
  have hkv : ∀ c ∈ k ++ 61 :: v, c ≠ 10 := by
    intro c hc
    simp only [List.mem_append, List.mem_cons] at hc
    rcases hc with h | h | h
    · exact hd c (hk.2 c h).2
    · rw [h]; decide
    · exact hd c (hv.2 c h).2
  unfold entryLine
  cases crlf with
  | true =>
    rw [if_pos rfl] at hfit
    have := fileChunks_cons_line ((k ++ 61 :: v) ++ [13]) rest
      (by
        intro c hc
        rcases List.mem_append.mp hc with h | h
        · exact hkv c h
        · simp at h; omega)
      (by simp only [List.length_append, List.length_cons, List.length_nil]; omega)
    simpa using this
  | false =>
    rw [if_neg (by decide)] at hfit
    have := fileChunks_cons_line (k ++ 61 :: v) rest hkv
      (by simp only [List.length_append, List.length_cons]; omega)
    simpa using this

theorem entriesFile_cons (e : List Nat × List Nat × Bool)
    (es : List (List Nat × List Nat × Bool)) :
    entriesFile (e :: es) = entryLine e.1 e.2.1 e.2.2 ++ entriesFile es := by
  simp [entriesFile]

theorem entriesFile_append (es1 es2 : List (List Nat × List Nat × Bool)) :
    entriesFile (es1 ++ es2) = entriesFile es1 ++ entriesFile es2 := by
  simp [entriesFile]

/-- The loop of `kv_is_hexadecimal` never returns false: `isxdigit` is applied
to 0 or 1, and neither is a hexadecimal digit. -/
theorem kv_is_hexadecimal_always (s : List Nat) : kv_is_hexadecimal s = true := by
  have hloop : ∀ l : List Nat, hexadecimalLoop l = true := by
    intro l
    induction l with
    | nil => rfl
    | cons c cs ih =>
      have hx : ¬ (isxdigit (if c = 0 then 1 else 0) = true ∧ toupper c ≠ 88) := by
        rintro ⟨h, -⟩
        by_cases hc : c = 0
        · rw [if_pos hc] at h; exact absurd h (by decide)
        · rw [if_neg hc] at h; exact absurd h (by decide)
      simp only [hexadecimalLoop, hx, if_false, ih]
  exact hloop _

/-! ## The Reader on the file `kv_set_value` wrote, for another key -/

theorem readerSpec_head (key buf : List Nat) (size : Nat) (c1 c2 : List Nat)
    (r1 r2 : List (List Nat)) (hl : lineOf c1 = lineOf c2)
    (hr : readerSpec key buf size r1 = readerSpec key buf size r2) :
    readerSpec key buf size (c1 :: r1) = readerSpec key buf size (c2 :: r2) := by
  simp only [readerSpec, hl, hr]

theorem readerSpec_skip_head (key buf : List Nat) (size : Nat) (c : List Nat)
    (cs : List (List Nat)) (hroom : (lineOf c).length + 2 ≤ KV_LINE_SIZE)
    (hp : valuePos (lineOf c) key = 0) :
    readerSpec key buf size (c :: cs) = readerSpec key buf size cs := by
  have := readerSpec_skip key buf size [c] cs (by
    intro x hx; rw [List.mem_singleton.mp hx]; exact ⟨hroom, hp⟩)
  rw [List.singleton_append] at this
  exact this

theorem readerSpec_append_skip (key buf : List Nat) (size : Nat) (c : List Nat)
    (hroom : (lineOf c).length + 2 ≤ KV_LINE_SIZE) (hp : valuePos (lineOf c) key = 0)
    (cs : List (List Nat)) :
    readerSpec key buf size (cs ++ [c]) = readerSpec key buf size cs := by
  induction cs with
  | nil => exact readerSpec_skip_head key buf size c [] hroom hp
  | cons x cs ih => exact readerSpec_head key buf size x x _ _ rfl ih

/-- A line whose first token is one key has the value offset 0 for another. -/
theorem valuePos_other_key (line k k2 : List Nat) (h : valuePos line k ≠ 0) (hne : k ≠ k2) :
    valuePos line k2 = 0 := by
  by_contra h2
  obtain ⟨-, v, rest, ht⟩ := (valuePos_ne_zero_iff line k).mp h
  obtain ⟨-, v2, rest2, ht2⟩ := (valuePos_ne_zero_iff line k2).mp h2
  rw [ht] at ht2
  exact hne (List.cons.inj ht2).1

/-- For a key other than the one written, the Reader gives on the lines
`kv_set_value` wrote what it gives on the lines that were read. -/
theorem readerSpec_frame (k v k2 buf : List Nat) (size : Nat)
    (hk : wellFormed k) (hv : wellFormed v)
    (hh : ∀ c, k.head? = some c → isspace c = false)
    (hfit : k.length + v.length + 3 ≤ KV_LINE_SIZE) (hne : k ≠ k2)
    (cs : List (List Nat)) (hroom : ∀ c ∈ cs, (lineOf c).length + 2 ≤ KV_LINE_SIZE) :
    readerSpec k2 buf size ((newLines k v cs).map (fun l => l ++ [10]))
      = readerSpec k2 buf size cs := by
  have hkv : lineOf ((k ++ 61 :: v) ++ [10]) = k ++ 61 :: v :=
    lineOf_clean_lf _ (entry_line_clean k v hk hv hh)
  have hkvroom : (lineOf ((k ++ 61 :: v) ++ [10])).length + 2 ≤ KV_LINE_SIZE := by
    rw [hkv]; simp only [List.length_append, List.length_cons]; omega
  have hkvp : valuePos (lineOf ((k ++ 61 :: v) ++ [10])) k2 = 0 := by
    rw [hkv]; exact valuePos_other_entry k v k2 hk hne
  have hmain : ∀ (cs : List (List Nat)), (∀ c ∈ cs, (lineOf c).length + 2 ≤ KV_LINE_SIZE) →
      ∀ tail : List (List Nat),
      readerSpec k2 buf size (((cs.filterMap (fun c =>
          if lineOf c = [] then none
          else if valuePos (lineOf c) k = 0 then some (lineOf c)
          else some (k ++ 61 :: v))).map (fun l => l ++ [10])) ++ tail)
        = readerSpec k2 buf size (cs ++ tail) := by
    intro cs
    induction cs with
    | nil => intro _ tail; rfl
    | cons c cs ih =>
      intro hr tail
      have hrc := hr c (by simp)
      have ih1 := ih (fun x hx => hr x (by simp [hx])) tail
      rw [List.filterMap_cons, List.cons_append]
      by_cases h1 : lineOf c = []
      · have hp : valuePos (lineOf c) k2 = 0 := by rw [h1]; exact valuePos_nil k2
        rw [readerSpec_skip_head k2 buf size c _ hrc hp]
        simp only [h1, if_true]
        exact ih1
      · by_cases h2 : valuePos (lineOf c) k = 0
        · simp only [h1, if_false, h2, if_true, List.map_cons, List.cons_append]
          exact readerSpec_head k2 buf size _ _ _ _ (lineOf_clean_lf _ (lineOf_clean c)) ih1
        · simp only [h1, if_false, h2, List.map_cons, List.cons_append]
          rw [readerSpec_skip_head k2 buf size _ _ hkvroom hkvp,
            readerSpec_skip_head k2 buf size c _ hrc (valuePos_other_key _ k k2 h2 hne)]
          exact ih1
  unfold newLines
  rw [List.map_append, hmain cs hroom]
  cases keyFound k cs with
  | true => simp
  | false =>
    simp only [Bool.false_eq_true, if_false, List.map_cons, List.map_nil]
    exact readerSpec_append_skip k2 buf size _ hkvroom hkvp cs

/-! ## Claims on `kv_get_value_pos` and `kv_trim_string` -/

/-- C6 (KeyMatcher match condition).  On every line shorter than 512 bytes and
every key, `kv_get_value_pos` returns an offset, and the offset is nonzero
exactly when line and key are both non-empty, the first token of the line is
the key and a second token follows it; so 0 always means that there is no
match. -/
theorem C6_match_condition (line key : List Nat) (hline : ∀ c ∈ line, c ≠ 0)
    (hlen : line.length < KV_LINE_SIZE) :
    ∃ p, kv_get_value_pos line key = some p ∧
      (p ≠ 0 ↔ line ≠ [] ∧ key ≠ [] ∧ ∃ v rest, tokens line = key :: v :: rest) := by
  refine ⟨valuePos line key, kv_get_value_pos_run line key hline hlen, ?_⟩
  rw [valuePos_ne_zero_iff]
  constructor
  · rintro ⟨hk, v, rest, h⟩
    refine ⟨?_, hk, v, rest, h⟩
    intro hl
    have ht : tokens [] = [] := rfl
    rw [hl, ht] at h
    cases h
  · rintro ⟨-, hk, h⟩
    exact ⟨hk, h⟩

/-- C6, at the line `foobar=1` and the key `foo`: the result is 0, the first
token `foobar` is not the key. -/
theorem C6_match_condition_witness :
    kv_get_value_pos [102, 111, 111, 98, 97, 114, 61, 49] [102, 111, 111] = some 0
    ∧ tokens [102, 111, 111, 98, 97, 114, 61, 49] = [[102, 111, 111, 98, 97, 114], [49]]
    ∧ ∃ p, kv_get_value_pos [102, 111, 111, 98, 97, 114, 61, 49] [102, 111, 111] = some p ∧
        (p ≠ 0 ↔ [102, 111, 111, 98, 97, 114, 61, 49] ≠ [] ∧ [102, 111, 111] ≠ [] ∧
          ∃ v rest, tokens [102, 111, 111, 98, 97, 114, 61, 49] = [102, 111, 111] :: v :: rest) :=
  ⟨by decide!, by decide, C6_match_condition _ _ (by decide) (by decide)⟩

/-- C9 (trim removes trailing white space), at the input `abc \n` held in a
buffer of six bytes: `kv_trim_string` leaves `abc ` with its trailing space,
because its last loop starts one byte after the terminator and never reaches
the bytes of the string. -/
theorem C9_trailing_space_kept :
    kv_trim_string [97, 98, 99, 32, 10, 0] = some [97, 98, 99, 32, 0, 0]
    ∧ cstr [97, 98, 99, 32, 0, 0] = [97, 98, 99, 32]
    ∧ (cstr [97, 98, 99, 32, 0, 0]).getLast? = some 32
    ∧ isspace 32 = true := by
  decide

/-- C10 as stated fails at the input `\rabc`: nothing precedes the first CR of
the input, yet `kv_trim_string` leaves `abc`, which stands after that CR. -/
theorem C10_leading_cr_counterexample :
    kv_trim_string [13, 97, 98, 99, 0] = some [97, 98, 99, 0, 0]
    ∧ cstr [97, 98, 99, 0, 0] = [97, 98, 99]
    ∧ [13, 97, 98, 99].takeWhile (fun c => !decide (c ∈ [13, 10])) = [] := by
  decide

/-- C10, amended.  For every string `s` in a buffer that has a byte after the
terminator of what is left, `kv_trim_string` leaves `trimmed s`: it is taken
from the part of `s` that follows the leading CR and LF bytes and precedes the
next CR or LF, it holds no CR or LF, and it does not begin with white space. -/
theorem C10_trim_cut_and_leading (s r : List Nat) (hs : ∀ c ∈ s, c ≠ 0)
    (hroom : (trimmed s).length + 2 ≤ (s ++ 0 :: r).length) :
    ∃ b, kv_trim_string (s ++ 0 :: r) = some b ∧ cstr b = trimmed s
      ∧ cstr b <:+ (s.dropWhile (fun c => decide (c ∈ [13, 10]))).takeWhile
          (fun c => !decide (c ∈ [13, 10]))
      ∧ (∀ c ∈ cstr b, c ≠ 13 ∧ c ≠ 10)
      ∧ (∀ c, (cstr b).head? = some c → isspace c = false) := by
  obtain ⟨r1, h1, -⟩ := kv_trim_string_run s r hs hroom
  have hc : cstr (trimmed s ++ 0 :: r1) = trimmed s :=
    cstr_run _ r1 (trimmed_nul_free s hs)
  refine ⟨_, h1, hc, ?_, ?_, ?_⟩
  · rw [hc]; exact List.dropWhile_suffix _
  · rw [hc]
    intro c hmem
    have := List.mem_takeWhile_imp (mem_dropWhile _ _ _ hmem)
    simpa using this
  · rw [hc]
    intro c hh
    exact head_dropWhile isspace _ c hh

/-- C10, amended, at the input ` ab\ncd` in a buffer of eight bytes: the
content left is `ab`. -/
theorem C10_trim_cut_and_leading_witness :
    trimmed [32, 97, 98, 10, 99, 100] = [97, 98]
    ∧ ∃ b, kv_trim_string ([32, 97, 98, 10, 99, 100] ++ 0 :: [0]) = some b
      ∧ cstr b = trimmed [32, 97, 98, 10, 99, 100]
      ∧ cstr b <:+ ([32, 97, 98, 10, 99, 100].dropWhile (fun c => decide (c ∈ [13, 10]))).takeWhile
          (fun c => !decide (c ∈ [13, 10]))
      ∧ (∀ c ∈ cstr b, c ≠ 13 ∧ c ≠ 10)
      ∧ (∀ c, (cstr b).head? = some c → isspace c = false) :=
  ⟨by decide, C10_trim_cut_and_leading _ _ (by decide) (by decide)⟩

/-! ## Claims on `kv_get_value` -/

/-- C4 as stated fails on the file `k=1 x`, `k=2`: two lines define `k`, the
value token of the first is `1`, and `kv_get_value` with room for eight bytes
returns 0 with `1 x` in the buffer. -/
theorem C4_value_text_counterexample :
    fileChunks [107, 61, 49, 32, 120, 10, 107, 61, 50, 10]
      = [[107, 61, 49, 32, 120, 10], [107, 61, 50, 10]]
    ∧ tokens (lineOf [107, 61, 49, 32, 120, 10]) = [[107], [49], [120]]
    ∧ tokens (lineOf [107, 61, 50, 10]) = [[107], [50]]
    ∧ kv_get_value [102] (some [107, 61, 49, 32, 120, 10, 107, 61, 50, 10]) [107]
        [7, 7, 7, 7, 7, 7, 7, 7] 8 = some (KV_OK_SUCCESS, [49, 32, 120, 0, 7, 7, 7, 7])
    ∧ cstr [49, 32, 120, 0, 7, 7, 7, 7] = [49, 32, 120] := by
  decide!

/-- C4, amended (first match wins).  In a file read line by line as `fgets`
delivers it, let `L` be the first line that defines the key, with no line up
to it keeping 511 bytes after trimming.  For every capacity greater than the
length of the text of `L` from its value token on, `kv_get_value` returns 0
with that text, NUL-terminated, in the buffer; the lines after `L` have no
effect. -/
theorem C4_first_match_wins (filename content key value : List Nat) (size : Nat)
    (pre : List (List Nat)) (L : List Nat) (post : List (List Nat))
    (hfn : filename ≠ []) (hsplit : fileChunks content = pre ++ L :: post)
    (hpre : ∀ c ∈ pre, (lineOf c).length < 511 ∧ definesKey (lineOf c) key = false)
    (hroom : (lineOf L).length < 511) (hL : definesKey (lineOf L) key = true)
    (hsize : (valueText (lineOf L) key).length < size) (hbuf : size ≤ value.length) :
    kv_get_value filename (some content) key value size
      = some (KV_OK_SUCCESS, valueText (lineOf L) key
          ++ 0 :: value.drop ((valueText (lineOf L) key).length + 1)) := by
  have hp : valuePos (lineOf L) key ≠ 0 := (definesKey_valuePos _ _).mp hL
  have hkey : key ≠ [] := ((valuePos_ne_zero_iff _ _).mp hp).1
  rw [kv_get_value_run filename content key value size (by omega) hfn hkey, hsplit,
    readerSpec_skip key value size pre (L :: post)
      (fun c hc => ⟨by have := (hpre c hc).1; simp only [KV_LINE_SIZE]; omega,
        valuePos_of_not_definesKey _ _ (hpre c hc).2⟩)]
  exact readerSpec_hit key value size L post (by simp only [KV_LINE_SIZE]; omega) hp hsize hbuf

/-- C4, amended, on the file `a=0`, `k=1`, `k=2` with the key `k`: the value
of the first of the two lines that define `k` is returned. -/
theorem C4_first_match_wins_witness :
    kv_get_value [102] (some [97, 61, 48, 10, 107, 61, 49, 10, 107, 61, 50, 10]) [107]
        [7, 7, 7, 7] 4
      = some (KV_OK_SUCCESS, valueText (lineOf [107, 61, 49, 10]) [107]
          ++ 0 :: [7, 7, 7, 7].drop ((valueText (lineOf [107, 61, 49, 10]) [107]).length + 1))
    ∧ valueText (lineOf [107, 61, 49, 10]) [107] = [49] :=
  ⟨C4_first_match_wins [102] [97, 61, 48, 10, 107, 61, 49, 10, 107, 61, 50, 10] [107]
      [7, 7, 7, 7] 4 [[97, 61, 48, 10]] [107, 61, 49, 10] [[107, 61, 50, 10]]
      (by decide) (by decide) (by decide) (by decide) (by decide) (by decide) (by decide),
    by decide⟩

/-- C5 as stated fails on a file with one line of 514 bytes, a space, 510
times `a`, then `k=1`: the line does not define `k`, its first token being
`aa...ak`, but `fgets` delivers it in two pieces and the second one, `k=1`,
matches, so `kv_get_value` returns 0 and writes `1` to the buffer. -/
theorem C5_long_line_counterexample :
    textLines (32 :: List.replicate 510 97 ++ [107, 61, 49, 10])
      = [32 :: List.replicate 510 97 ++ [107, 61, 49, 10]]
    ∧ definesKey (lineOf (32 :: List.replicate 510 97 ++ [107, 61, 49, 10])) [107] = false
    ∧ kv_get_value [102] (some (32 :: List.replicate 510 97 ++ [107, 61, 49, 10])) [107]
        [7, 7, 7, 7] 4 = some (KV_OK_SUCCESS, [49, 0, 7, 7]) := by
  decide!

/-- C5, amended (absence).  On an existing file in which no line, as `fgets`
delivers it, defines the key or keeps 511 bytes after trimming,
`kv_get_value` with a non-empty path and key and a nonzero capacity returns
`KV_NOT_FOUND`, which is -4, and the caller's buffer is unchanged. -/
theorem C5_absence (filename content key value : List Nat) (size : Nat)
    (hfn : filename ≠ []) (hkey : key ≠ []) (hsize : size ≠ 0)
    (hlines : ∀ c ∈ fileChunks content,
      (lineOf c).length < 511 ∧ definesKey (lineOf c) key = false) :
    kv_get_value filename (some content) key value size = some (KV_NOT_FOUND, value)
      ∧ KV_NOT_FOUND = -4 := by
  refine ⟨?_, rfl⟩
  rw [kv_get_value_run filename content key value size hsize hfn hkey]
  exact readerSpec_none key value size _
    (fun c hc => ⟨by have := (hlines c hc).1; simp only [KV_LINE_SIZE]; omega,
      valuePos_of_not_definesKey _ _ (hlines c hc).2⟩)

/-- C5, amended, on the file `alpha=1`, `beta` with the key `beta`: the line
`beta` has no value token, and the result is `KV_NOT_FOUND`. -/
theorem C5_absence_witness :
    kv_get_value [102] (some [97, 108, 112, 104, 97, 61, 49, 10, 98, 101, 116, 97, 10])
        [98, 101, 116, 97] [7, 7, 7, 7] 4 = some (KV_NOT_FOUND, [7, 7, 7, 7])
      ∧ KV_NOT_FOUND = -4 :=
  C5_absence [102] [97, 108, 112, 104, 97, 61, 49, 10, 98, 101, 116, 97, 10]
    [98, 101, 116, 97] [7, 7, 7, 7] 4 (by decide) (by decide) (by decide) (by decide)

/-- C7 as stated fails on the file `k=1 x` with the key `k`: `kv_get_value`
returns 0 and the buffer holds `1 x`, which is not the value token `1` and
contains the delimiter space. -/
theorem C7_rest_of_line_counterexample :
    kv_get_value [102] (some [107, 61, 49, 32, 120, 10]) [107] [7, 7, 7, 7, 7, 7] 6
      = some (KV_OK_SUCCESS, [49, 32, 120, 0, 7, 7])
    ∧ cstr [49, 32, 120, 0, 7, 7] = [49, 32, 120]
    ∧ tokens (lineOf [107, 61, 49, 32, 120, 10]) = [[107], [49], [120]]
    ∧ isDelim 32 = true := by
  decide!

/-- C7, amended.  Whenever `kv_get_value` returns 0, the file exists and has a
first line `L` that defines the key, and the string in the caller's buffer is
the text of `L` from the first byte of its value token `v` to the end of the
line: it is `L` without its first `p` bytes, where `p` is the offset
`kv_get_value_pos` gives, the `p` bytes before it hold the key as their only
token, and what is left starts with the token `v`, followed by nothing or by a
delimiter and the rest of the line. -/
theorem C7_reader_returns_value_text (filename : List Nat) (fs : Option (List Nat))
    (key value : List Nat) (size : Nat) (out : List Nat)
    (h : kv_get_value filename fs key value size = some (KV_OK_SUCCESS, out)) :
    ∃ content pre L post v rest more p,
      fs = some content ∧ fileChunks content = pre ++ L :: post
      ∧ (∀ c ∈ pre, definesKey (lineOf c) key = false)
      ∧ tokens (lineOf L) = key :: v :: rest
      ∧ kv_get_value_pos (lineOf L) key = some p
      ∧ tokens ((lineOf L).take p) = [key]
      ∧ (lineOf L).drop p = v ++ more
      ∧ (∀ c, more.head? = some c → isDelim c = true)
      ∧ cstr out = (lineOf L).drop p := by
  have hne : (KV_ARGUMENT_ERR, value) ≠ (KV_OK_SUCCESS, out) := by
    intro e; exact absurd (Prod.mk.inj e).1 (by decide)
  unfold kv_get_value at h
  by_cases h1 : size = 0
  · rw [if_pos h1] at h; exact absurd (Option.some.inj h) hne
  · rw [if_neg h1] at h
    by_cases h2 : filename.length = 0 ∨ key.length = 0
    · rw [if_pos h2] at h; exact absurd (Option.some.inj h) hne
    · rw [if_neg h2] at h
      cases fs with
      | none => exact absurd (Option.some.inj h) hne
      | some content =>
        have hfn : filename ≠ [] := fun e => h2 (Or.inl (by rw [e]; rfl))
        have hkey : key ≠ [] := fun e => h2 (Or.inr (by rw [e]; rfl))
        have hrun := kv_get_value_run filename content key value size h1 hfn hkey
        unfold kv_get_value at hrun
        rw [if_neg h1, if_neg h2] at hrun
        rw [hrun] at h
        obtain ⟨pre, L, post, e, hpre, hL, hout⟩ := readerSpec_ok_inv key value size out _ h
        obtain ⟨v, rest, more, ht, hv, hm⟩ := valueText_token (lineOf L) key hL
        obtain ⟨a, a2, s3, hs, hpos, ha, hk, hkne, -, ha2, -, -⟩ :=
          valuePos_split (lineOf L) key hL
        have hLmem : L ∈ fileChunks content := by rw [e]; simp
        have hLlen : (lineOf L).length < KV_LINE_SIZE :=
          Nat.lt_of_le_of_lt (lineOf_length_le L) (chunks_length_lt _ _ _ hLmem)
        have hl : lineOf L = (a ++ (key ++ a2)) ++ s3 := by rw [hs]; simp
        have htake : (lineOf L).take (valuePos (lineOf L) key) = a ++ (key ++ a2) := by
          rw [hpos]; conv_lhs => rw [hl]
          exact List.take_left' rfl
        unfold valueText at hv hout
        refine ⟨content, pre, L, post, v, rest, more, valuePos (lineOf L) key, rfl, e, ?_, ht,
          kv_get_value_pos_run (lineOf L) key (lineOf_nul_free L) hLlen, ?_, hv, hm, hout⟩
        · intro c hc
          have := hpre c hc
          cases hd : definesKey (lineOf c) key with
          | false => rfl
          | true => exact absurd this ((definesKey_valuePos _ _).mp hd)
        · rw [htake]; exact tokens_single a key a2 ha hk hkne ha2

/-- C7, amended, on the file `x`, `k = v w` with the key `k`: the buffer
receives `v w`. -/
theorem C7_reader_returns_value_text_witness :
    kv_get_value [102] (some [120, 10, 107, 32, 61, 32, 118, 32, 119, 10]) [107]
        [7, 7, 7, 7, 7, 7] 6 = some (KV_OK_SUCCESS, [118, 32, 119, 0, 7, 7])
    ∧ ∃ content pre L post v rest more p,
      some [120, 10, 107, 32, 61, 32, 118, 32, 119, 10] = some content
      ∧ fileChunks content = pre ++ L :: post
      ∧ (∀ c ∈ pre, definesKey (lineOf c) [107] = false)
      ∧ tokens (lineOf L) = [107] :: v :: rest
      ∧ kv_get_value_pos (lineOf L) [107] = some p
      ∧ tokens ((lineOf L).take p) = [[107]]
      ∧ (lineOf L).drop p = v ++ more
      ∧ (∀ c, more.head? = some c → isDelim c = true)
      ∧ cstr [118, 32, 119, 0, 7, 7] = (lineOf L).drop p :=
  ⟨by decide!, C7_reader_returns_value_text [102]
    (some [120, 10, 107, 32, 61, 32, 118, 32, 119, 10]) [107] [7, 7, 7, 7, 7, 7] 6
    [118, 32, 119, 0, 7, 7] (by decide!)⟩

/-! ## Claims on `kv_set_value` -/

/-- C2 as stated fails in two ways.  On a file with one line of 520 bytes, a
space, 499 times `a`, 20 spaces, `b`: by the rule the line is kept, trimmed of
its leading space, and `k=1` is appended; but `fgets` delivers the line in two
pieces, and `kv_set_value` writes each as a line of its own.  And on the file
`a=1` at a path that cannot be opened for writing: `kv_set_value` returns
`KV_ARGUMENT_ERR` and the file keeps its content. -/
theorem C2_long_line_counterexample :
    textLines (32 :: List.replicate 499 97 ++ List.replicate 20 32 ++ [98, 10])
      = [32 :: List.replicate 499 97 ++ List.replicate 20 32 ++ [98, 10]]
    ∧ kv_get_value_pos
        (lineOf (32 :: List.replicate 499 97 ++ List.replicate 20 32 ++ [98, 10])) [107]
      = some 0
    ∧ writerSpec [107] [49]
        (textLines (32 :: List.replicate 499 97 ++ List.replicate 20 32 ++ [98, 10]))
      = List.replicate 499 97 ++ List.replicate 20 32 ++ [98, 10, 107, 61, 49, 10]
    ∧ kv_set_value [102] true
        (some (32 :: List.replicate 499 97 ++ List.replicate 20 32 ++ [98, 10])) [107] [49]
      = some (KV_OK_SUCCESS,
          some (List.replicate 499 97 ++ List.replicate 11 32 ++ [10, 98, 10, 107, 61, 49, 10]))
    ∧ kv_set_value [102] false (some [97, 61, 49, 10]) [107] [49]
      = some (KV_ARGUMENT_ERR, some [97, 61, 49, 10])
    ∧ KV_ARGUMENT_ERR ≠ KV_OK_SUCCESS := by
  decide!

/-- C2, amended (Writer rewrite rule).  On an existing file of which no line,
as `fgets` delivers it, keeps 511 bytes after trimming, and for a non-empty
key and value: when the path can be opened for writing, `kv_set_value`
returns 0 and writes `writerSpec`: the lines in their order, each as
`kv_trim_string` leaves it, the empty ones dropped, each line on which
`kv_get_value_pos` is nonzero replaced by `key=value`, each followed by one
LF, and `key=value` LF appended exactly when no line matched; when the path
cannot be opened for writing, it returns `KV_ARGUMENT_ERR` and the file keeps
its content. -/
theorem C2_writer_rewrite (filename content key value : List Nat)
    (hfn : filename ≠ []) (hkey : key ≠ []) (hval : value ≠ [])
    (hk : ∀ x ∈ key, x ≠ 0) (hv : ∀ x ∈ value, x ≠ 0)
    (hroom : ∀ c ∈ fileChunks content, (lineOf c).length < 511) :
    kv_set_value filename true (some content) key value
      = some (KV_OK_SUCCESS, some (writerSpec key value (fileChunks content)))
    ∧ kv_set_value filename false (some content) key value
      = some (KV_ARGUMENT_ERR, some content)
    ∧ ∀ c ∈ fileChunks content,
        (∃ r, kv_trim_string (c ++ 0 :: (List.replicate KV_LINE_SIZE 0).drop (c.length + 1))
          = some (lineOf c ++ 0 :: r))
        ∧ kv_get_value_pos (lineOf c) key = some (valuePos (lineOf c) key) := by
  have hroom1 : ∀ c ∈ fileChunks content, (lineOf c).length + 2 ≤ KV_LINE_SIZE := by
    intro c hc
    have := hroom c hc
    simp only [KV_LINE_SIZE]; omega
  refine ⟨?_, ?_, ?_⟩
  · exact kv_set_value_run filename key value (some content) hfn hkey hval hk hv hroom1
  · exact kv_set_value_unwritable filename key value (some content) hfn hkey hval hroom1
  · intro c hc
    have hcl : c.length < KV_LINE_SIZE := chunks_length_lt _ _ _ hc
    obtain ⟨r, h1, -⟩ := trim_chunk c (List.replicate KV_LINE_SIZE 0) hcl (by simp) (hroom1 c hc)
    refine ⟨⟨r, h1⟩, ?_⟩
    exact kv_get_value_pos_run (lineOf c) key (lineOf_nul_free c)
      (by have := hroom1 c hc; omega)

/-- C2, amended, on the example of the specification: `alpha=1`, `beta=2` with
(`beta`, `9`) becomes `alpha=1`, `beta=9`, and that with (`gamma`, `3`)
becomes `alpha=1`, `beta=9`, `gamma=3`. -/
theorem C2_writer_rewrite_witness :
    (kv_set_value [102] true
        (some [97, 108, 112, 104, 97, 61, 49, 10, 98, 101, 116, 97, 61, 50, 10])
        [98, 101, 116, 97] [57]
      = some (KV_OK_SUCCESS, some (writerSpec [98, 101, 116, 97] [57]
          (fileChunks [97, 108, 112, 104, 97, 61, 49, 10, 98, 101, 116, 97, 61, 50, 10])))
    ∧ writerSpec [98, 101, 116, 97] [57]
          (fileChunks [97, 108, 112, 104, 97, 61, 49, 10, 98, 101, 116, 97, 61, 50, 10])
        = [97, 108, 112, 104, 97, 61, 49, 10, 98, 101, 116, 97, 61, 57, 10])
    ∧ (kv_set_value [102] true
        (some [97, 108, 112, 104, 97, 61, 49, 10, 98, 101, 116, 97, 61, 57, 10])
        [103, 97, 109, 109, 97] [51]
      = some (KV_OK_SUCCESS, some (writerSpec [103, 97, 109, 109, 97] [51]
          (fileChunks [97, 108, 112, 104, 97, 61, 49, 10, 98, 101, 116, 97, 61, 57, 10])))
    ∧ writerSpec [103, 97, 109, 109, 97] [51]
          (fileChunks [97, 108, 112, 104, 97, 61, 49, 10, 98, 101, 116, 97, 61, 57, 10])
        = [97, 108, 112, 104, 97, 61, 49, 10, 98, 101, 116, 97, 61, 57, 10,
            103, 97, 109, 109, 97, 61, 51, 10]) :=
  ⟨⟨(C2_writer_rewrite [102] [97, 108, 112, 104, 97, 61, 49, 10, 98, 101, 116, 97, 61, 50, 10]
        [98, 101, 116, 97] [57] (by decide) (by decide) (by decide) (by decide) (by decide)
        (by decide)).1, by decide⟩,
    ⟨(C2_writer_rewrite [102] [97, 108, 112, 104, 97, 61, 49, 10, 98, 101, 116, 97, 61, 57, 10]
        [103, 97, 109, 109, 97] [51] (by decide) (by decide) (by decide) (by decide) (by decide)
        (by decide)).1, by decide⟩⟩

/-- C1 as stated fails in two ways.  For the key `\va` (a vertical tab, then
`a`), which has no byte of the delimiter set, the value `1` and no file:
`kv_set_value` writes `\va=1`, and `kv_trim_string` strips the vertical tab
when the line is read back, so `kv_get_value` returns `KV_NOT_FOUND`.  And for
the key `k`, the value `1` and no file at a path that cannot be opened for
writing: `kv_set_value` returns `KV_ARGUMENT_ERR`, no file is created, and
`kv_get_value` returns `KV_ARGUMENT_ERR` too. -/
theorem C1_leading_space_key_counterexample :
    (∀ c ∈ [11, 97], c ≠ 0 ∧ isDelim c = false)
    ∧ kv_set_value [102] true none [11, 97] [49] = some (KV_OK_SUCCESS, some [11, 97, 61, 49, 10])
    ∧ kv_get_value [102] (some [11, 97, 61, 49, 10]) [11, 97] [7, 7, 7, 7] 4
        = some (KV_NOT_FOUND, [7, 7, 7, 7])
    ∧ kv_set_value [102] false none [107] [49] = some (KV_ARGUMENT_ERR, none)
    ∧ kv_get_value [102] none [107] [7, 7, 7, 7] 4 = some (KV_ARGUMENT_ERR, [7, 7, 7, 7])
    ∧ KV_ARGUMENT_ERR ≠ KV_OK_SUCCESS := by
  decide!

/-- C1, amended (round trip).  Let the key and the value be well-formed, the
key not begin with white space, the line `key=value` with its LF and
terminator fit the 512-byte line buffer, and the file be absent or have no
line, as `fgets` delivers it, that keeps 511 bytes after trimming.  Then on a
path that can be opened for writing (`writable` is `true`) `kv_set_value`
returns 0, and `kv_get_value` on the file it wrote, with a capacity greater
than the length of the value, returns 0 with the value, NUL-terminated, in the
buffer. -/
theorem C1_round_trip (filename key value buf : List Nat) (fs : Option (List Nat)) (size : Nat)
    (hfn : filename ≠ []) (hk : wellFormed key) (hv : wellFormed value)
    (hh : ∀ c, key.head? = some c → isspace c = false)
    (hfit : key.length + value.length + 3 ≤ KV_LINE_SIZE)
    (hroom : ∀ c ∈ stateLines fs, (lineOf c).length < 511)
    (hsize : value.length < size) (hbuf : size ≤ buf.length) :
    ∃ written, kv_set_value filename true fs key value = some (KV_OK_SUCCESS, some written)
      ∧ kv_get_value filename (some written) key buf size
          = some (KV_OK_SUCCESS, value ++ 0 :: buf.drop (value.length + 1))
      ∧ cstr (value ++ 0 :: buf.drop (value.length + 1)) = value := by
  have hroom1 : ∀ c ∈ stateLines fs, (lineOf c).length + 2 ≤ KV_LINE_SIZE := by
    intro c hc
    have := hroom c hc
    simp only [KV_LINE_SIZE]; omega
  refine ⟨_, kv_set_value_run filename key value fs hfn hk.1 hv.1 (fun x hx => (hk.2 x hx).1)
    (fun x hx => (hv.2 x hx).1) hroom1, ?_, ?_⟩
  · rw [kv_get_value_run filename _ key buf size (by omega) hfn hk.1,
      fileChunks_writerSpec key value _ hk hv hh hfit hroom1]
    exact readerSpec_written key value buf size _ hk hv hh hfit hroom1 hsize hbuf
  · exact cstr_run value _ (fun x hx => (hv.2 x hx).1)

/-- C1, amended, on the file `alpha=1`, `beta=2` with the key `beta` and the
value `9`, read back into a buffer of four bytes. -/
theorem C1_round_trip_witness :
    ∃ written,
      kv_set_value [102] true (some [97, 108, 112, 104, 97, 61, 49, 10, 98, 101, 116, 97, 61, 50, 10])
          [98, 101, 116, 97] [57] = some (KV_OK_SUCCESS, some written)
      ∧ kv_get_value [102] (some written) [98, 101, 116, 97] [7, 7, 7, 7] 4
          = some (KV_OK_SUCCESS, [57] ++ 0 :: [7, 7, 7, 7].drop ([57].length + 1))
      ∧ cstr ([57] ++ 0 :: [7, 7, 7, 7].drop ([57].length + 1)) = [57] :=
  C1_round_trip [102] [98, 101, 116, 97] [57] [7, 7, 7, 7]
    (some [97, 108, 112, 104, 97, 61, 49, 10, 98, 101, 116, 97, 61, 50, 10]) 4
    (by decide) ⟨by decide, by decide⟩ ⟨by decide, by decide⟩ (by decide) (by decide)
    (by decide) (by decide) (by decide)

/-- C3 as stated fails for the key `\va`, the value `1` and no file: the first
call writes `\va=1`; the second call reads that line back as `a=1`, keeps it,
and appends `\va=1` again. -/
theorem C3_leading_space_key_counterexample :
    (∀ c ∈ [11, 97], c ≠ 0 ∧ isDelim c = false)
    ∧ kv_set_value [102] true none [11, 97] [49] = some (KV_OK_SUCCESS, some [11, 97, 61, 49, 10])
    ∧ kv_set_value [102] true (some [11, 97, 61, 49, 10]) [11, 97] [49]
        = some (KV_OK_SUCCESS, some [97, 61, 49, 10, 11, 97, 61, 49, 10]) := by
  decide!

/-- C3, amended (idempotence).  Under the conditions of the amended round
trip (well-formed key and value, the key not beginning with white space, the
line `key=value` fitting the line buffer, the file absent or without a line
that keeps 511 bytes after trimming), two calls of `kv_set_value` in a row
with the same key and value return the same status, 0 exactly when the path
can be opened for writing, and the second call leaves the file as the first
call left it. -/
theorem C3_idempotence (filename key value : List Nat) (writable : Bool)
    (fs : Option (List Nat))
    (hfn : filename ≠ []) (hk : wellFormed key) (hv : wellFormed value)
    (hh : ∀ c, key.head? = some c → isspace c = false)
    (hfit : key.length + value.length + 3 ≤ KV_LINE_SIZE)
    (hroom : ∀ c ∈ stateLines fs, (lineOf c).length < 511) :
    ∃ st post, kv_set_value filename writable fs key value = some (st, post)
      ∧ kv_set_value filename writable post key value = some (st, post)
      ∧ (st = KV_OK_SUCCESS ↔ writable = true) := by
  have hroom1 : ∀ c ∈ stateLines fs, (lineOf c).length + 2 ≤ KV_LINE_SIZE := by
    intro c hc
    have := hroom c hc
    simp only [KV_LINE_SIZE]; omega
  have hk0 : ∀ x ∈ key, x ≠ 0 := fun x hx => (hk.2 x hx).1
  have hv0 : ∀ x ∈ value, x ≠ 0 := fun x hx => (hv.2 x hx).1
  cases writable with
  | false =>
    have h1 := kv_set_value_unwritable filename key value fs hfn hk.1 hv.1 hroom1
    exact ⟨KV_ARGUMENT_ERR, fs, h1, h1, by decide⟩
  | true =>
    have hchunks := fileChunks_writerSpec key value _ hk hv hh hfit hroom1
    have hok := newLines_ok key value _ hk hv hh hfit hroom1
    refine ⟨KV_OK_SUCCESS, _,
      kv_set_value_run filename key value fs hfn hk.1 hv.1 hk0 hv0 hroom1, ?_, by simp⟩
    have hst : stateLines (some (writerSpec key value (stateLines fs)))
        = (newLines key value (stateLines fs)).map (fun l => l ++ [10]) := hchunks
    rw [kv_set_value_run filename key value (some _) hfn hk.1 hv.1 hk0 hv0 (by
      rw [hst]
      intro c hcm
      obtain ⟨l, hl, rfl⟩ := List.mem_map.mp hcm
      rw [lineOf_clean_lf l (hok l hl).1]
      exact (hok l hl).2)]
    rw [hst, writerSpec_again key value _ hk hv hh hfit hroom1]

/-- C3, amended, on the file `alpha=1`, `beta=2` with the key `gamma` and the
value `3`, at a path that can be opened for writing. -/
theorem C3_idempotence_witness :
    (∃ st post,
      kv_set_value [102] true (some [97, 108, 112, 104, 97, 61, 49, 10, 98, 101, 116, 97, 61, 50, 10])
          [103, 97, 109, 109, 97] [51] = some (st, post)
      ∧ kv_set_value [102] true post [103, 97, 109, 109, 97] [51] = some (st, post)
      ∧ (st = KV_OK_SUCCESS ↔ true = true))
    ∧ kv_set_value [102] true (some [97, 108, 112, 104, 97, 61, 49, 10, 98, 101, 116, 97, 61, 50, 10])
          [103, 97, 109, 109, 97] [51]
        = some (KV_OK_SUCCESS, some [97, 108, 112, 104, 97, 61, 49, 10, 98, 101, 116, 97, 61,
            50, 10, 103, 97, 109, 109, 97, 61, 51, 10]) :=
  ⟨C3_idempotence [102] [103, 97, 109, 109, 97] [51] true
    (some [97, 108, 112, 104, 97, 61, 49, 10, 98, 101, 116, 97, 61, 50, 10])
    (by decide) ⟨by decide, by decide⟩ ⟨by decide, by decide⟩ (by decide) (by decide)
    (by decide), by decide!⟩

/-! ## Claim on both operations -/

/-- C8 as stated fails for the key `key`: on the file ` key = value \r\n` the
Reader returns `value ` with the space that follows the value on the line, on
the file `key=value\n` it returns `value`; with the key `x` the Writer
keeps `key = value ` in the first file and `key=value` in the second; and at a
path that cannot be opened for writing the Writer returns `KV_ARGUMENT_ERR`
for the key `key` and leaves each file with the content it had. -/
theorem C8_whitespace_counterexample :
    kv_get_value [102] (some [32, 107, 101, 121, 32, 61, 32, 118, 97, 108, 117, 101, 32, 13, 10])
        [107, 101, 121] [7, 7, 7, 7, 7, 7, 7, 7] 8
      = some (KV_OK_SUCCESS, [118, 97, 108, 117, 101, 32, 0, 7])
    ∧ kv_get_value [102] (some [107, 101, 121, 61, 118, 97, 108, 117, 101, 10])
        [107, 101, 121] [7, 7, 7, 7, 7, 7, 7, 7] 8
      = some (KV_OK_SUCCESS, [118, 97, 108, 117, 101, 0, 7, 7])
    ∧ kv_set_value [102] true
        (some [32, 107, 101, 121, 32, 61, 32, 118, 97, 108, 117, 101, 32, 13, 10]) [120] [49]
      = some (KV_OK_SUCCESS,
          some [107, 101, 121, 32, 61, 32, 118, 97, 108, 117, 101, 32, 10, 120, 61, 49, 10])
    ∧ kv_set_value [102] true (some [107, 101, 121, 61, 118, 97, 108, 117, 101, 10]) [120] [49]
      = some (KV_OK_SUCCESS,
          some [107, 101, 121, 61, 118, 97, 108, 117, 101, 10, 120, 61, 49, 10])
    ∧ kv_set_value [102] false
        (some [32, 107, 101, 121, 32, 61, 32, 118, 97, 108, 117, 101, 32, 13, 10])
        [107, 101, 121] [49]
      = some (KV_ARGUMENT_ERR,
          some [32, 107, 101, 121, 32, 61, 32, 118, 97, 108, 117, 101, 32, 13, 10])
    ∧ kv_set_value [102] false (some [107, 101, 121, 61, 118, 97, 108, 117, 101, 10])
        [107, 101, 121] [49]
      = some (KV_ARGUMENT_ERR, some [107, 101, 121, 61, 118, 97, 108, 117, 101, 10]) := by
  decide!

/-- C8, amended (white-space tolerance).  The files ` key = value \r\n` and
`key=value\n` define the same single key.  For a key other than `key`,
`kv_get_value` gives the same result on both, and `kv_set_value` with valid
arguments, at a path that can be opened for writing (`writable` is `true`),
returns 0 on both and writes the line of the file, as `kv_trim_string` leaves
it, then the new entry.  For the key `key`, `kv_get_value` with a capacity
above 6 returns 0 on both with a value that begins with `value`, and
`kv_set_value` with a non-empty value, at a path that can be opened for
writing, returns 0 and leaves the one line `key=value` in both. -/
theorem C8_whitespace_tolerance (filename key value buf : List Nat) (size : Nat) :
    (key ≠ [107, 101, 121] →
      kv_get_value filename
          (some [32, 107, 101, 121, 32, 61, 32, 118, 97, 108, 117, 101, 32, 13, 10]) key buf size
        = kv_get_value filename (some [107, 101, 121, 61, 118, 97, 108, 117, 101, 10])
            key buf size)
    ∧ (key ≠ [107, 101, 121] → filename ≠ [] → key ≠ [] → value ≠ [] →
        (∀ x ∈ key, x ≠ 0) → (∀ x ∈ value, x ≠ 0) →
        kv_set_value filename true
            (some [32, 107, 101, 121, 32, 61, 32, 118, 97, 108, 117, 101, 32, 13, 10]) key value
          = some (KV_OK_SUCCESS, some
              (lineOf [32, 107, 101, 121, 32, 61, 32, 118, 97, 108, 117, 101, 32, 13, 10]
                ++ 10 :: entry key value))
        ∧ kv_set_value filename true (some [107, 101, 121, 61, 118, 97, 108, 117, 101, 10])
            key value
          = some (KV_OK_SUCCESS, some
              (lineOf [107, 101, 121, 61, 118, 97, 108, 117, 101, 10]
                ++ 10 :: entry key value)))
    ∧ (filename ≠ [] → 6 < size → size ≤ buf.length →
        ∃ outA outB,
          kv_get_value filename
              (some [32, 107, 101, 121, 32, 61, 32, 118, 97, 108, 117, 101, 32, 13, 10])
              [107, 101, 121] buf size = some (KV_OK_SUCCESS, outA)
          ∧ kv_get_value filename (some [107, 101, 121, 61, 118, 97, 108, 117, 101, 10])
              [107, 101, 121] buf size = some (KV_OK_SUCCESS, outB)
          ∧ [118, 97, 108, 117, 101] <+: cstr outA ∧ [118, 97, 108, 117, 101] <+: cstr outB)
    ∧ (filename ≠ [] → value ≠ [] → (∀ x ∈ value, x ≠ 0) →
        kv_set_value filename true
            (some [32, 107, 101, 121, 32, 61, 32, 118, 97, 108, 117, 101, 32, 13, 10])
            [107, 101, 121] value
          = some (KV_OK_SUCCESS, some (entry [107, 101, 121] value))
        ∧ kv_set_value filename true (some [107, 101, 121, 61, 118, 97, 108, 117, 101, 10])
            [107, 101, 121] value
          = some (KV_OK_SUCCESS, some (entry [107, 101, 121] value))) := by
  -- the lines of the two files, and their tokens
  have hA : fileChunks [32, 107, 101, 121, 32, 61, 32, 118, 97, 108, 117, 101, 32, 13, 10]
      = [[32, 107, 101, 121, 32, 61, 32, 118, 97, 108, 117, 101, 32, 13, 10]] := by decide
  have hB : fileChunks [107, 101, 121, 61, 118, 97, 108, 117, 101, 10]
      = [[107, 101, 121, 61, 118, 97, 108, 117, 101, 10]] := by decide
  have hlA : lineOf [32, 107, 101, 121, 32, 61, 32, 118, 97, 108, 117, 101, 32, 13, 10]
      = [107, 101, 121, 32, 61, 32, 118, 97, 108, 117, 101, 32] := by decide
  have hlB : lineOf [107, 101, 121, 61, 118, 97, 108, 117, 101, 10]
      = [107, 101, 121, 61, 118, 97, 108, 117, 101] := by decide
  have htA : tokens [107, 101, 121, 32, 61, 32, 118, 97, 108, 117, 101, 32]
      = [[107, 101, 121], [118, 97, 108, 117, 101]] := by decide
  have htB : tokens [107, 101, 121, 61, 118, 97, 108, 117, 101]
      = [[107, 101, 121], [118, 97, 108, 117, 101]] := by decide
  have hpA : ∀ k, k ≠ [107, 101, 121] →
      valuePos [107, 101, 121, 32, 61, 32, 118, 97, 108, 117, 101, 32] k = 0 := by
    intro k hk
    by_contra hne
    obtain ⟨-, v, rest, h⟩ := (valuePos_ne_zero_iff _ k).mp hne
    rw [htA] at h
    exact hk (List.cons.inj h).1.symm
  have hpB : ∀ k, k ≠ [107, 101, 121] →
      valuePos [107, 101, 121, 61, 118, 97, 108, 117, 101] k = 0 := by
    intro k hk
    by_contra hne
    obtain ⟨-, v, rest, h⟩ := (valuePos_ne_zero_iff _ k).mp hne
    rw [htB] at h
    exact hk (List.cons.inj h).1.symm
  have hroomA : ∀ c ∈ stateLines
      (some [32, 107, 101, 121, 32, 61, 32, 118, 97, 108, 117, 101, 32, 13, 10]),
      (lineOf c).length + 2 ≤ KV_LINE_SIZE := by decide
  have hroomB : ∀ c ∈ stateLines (some [107, 101, 121, 61, 118, 97, 108, 117, 101, 10]),
      (lineOf c).length + 2 ≤ KV_LINE_SIZE := by decide
  have hqA : valuePos [107, 101, 121, 32, 61, 32, 118, 97, 108, 117, 101, 32] [107, 101, 121]
      = 6 := by decide
  have hqB : valuePos [107, 101, 121, 61, 118, 97, 108, 117, 101] [107, 101, 121] = 4 := by
    decide
  refine ⟨?_, ?_, ?_, ?_⟩
  · intro hk
    by_cases h1 : size = 0
    · unfold kv_get_value
      rw [if_pos h1, if_pos h1]
    · by_cases h2 : filename.length = 0 ∨ key.length = 0
      · unfold kv_get_value
        rw [if_neg h1, if_pos h2, if_neg h1, if_pos h2]
      · have hfn : filename ≠ [] := fun e => h2 (Or.inl (by rw [e]; rfl))
        have hkey : key ≠ [] := fun e => h2 (Or.inr (by rw [e]; rfl))
        rw [kv_get_value_run filename _ key buf size h1 hfn hkey,
          kv_get_value_run filename _ key buf size h1 hfn hkey, hA, hB]
        simp [readerSpec, hlA, hlB, hpA key hk, hpB key hk, KV_LINE_SIZE]
  · intro hk hfn hkey hval hk0 hv0
    refine ⟨?_, ?_⟩
    · rw [kv_set_value_run filename key value _ hfn hkey hval hk0 hv0 hroomA]
      simp [stateLines, hA, writerSpec, rewriteLines, keyFound, lineOut, hlA, hpA key hk]
    · rw [kv_set_value_run filename key value _ hfn hkey hval hk0 hv0 hroomB]
      simp [stateLines, hB, writerSpec, rewriteLines, keyFound, lineOut, hlB, hpB key hk]
  · intro hfn hsize hbuf
    have hk : ([107, 101, 121] : List Nat) ≠ [] := by decide
    have hvA : valueText (lineOf [32, 107, 101, 121, 32, 61, 32, 118, 97, 108, 117, 101, 32, 13, 10])
        [107, 101, 121] = [118, 97, 108, 117, 101, 32] := by decide
    have hvB : valueText (lineOf [107, 101, 121, 61, 118, 97, 108, 117, 101, 10])
        [107, 101, 121] = [118, 97, 108, 117, 101] := by decide
    have h1 := readerSpec_hit [107, 101, 121] buf size
      [32, 107, 101, 121, 32, 61, 32, 118, 97, 108, 117, 101, 32, 13, 10] []
      (by decide) (by rw [hlA, hqA]; decide)
      (by rw [hvA]; simp only [List.length_cons, List.length_nil]; omega) hbuf
    have h2 := readerSpec_hit [107, 101, 121] buf size
      [107, 101, 121, 61, 118, 97, 108, 117, 101, 10] []
      (by decide) (by rw [hlB, hqB]; decide)
      (by rw [hvB]; simp only [List.length_cons, List.length_nil]; omega) hbuf
    rw [hvA] at h1
    rw [hvB] at h2
    refine ⟨[118, 97, 108, 117, 101, 32]
        ++ 0 :: List.drop ([118, 97, 108, 117, 101, 32].length + 1) buf,
      [118, 97, 108, 117, 101] ++ 0 :: List.drop ([118, 97, 108, 117, 101].length + 1) buf,
      ?_, ?_, ?_, ?_⟩
    · rw [kv_get_value_run filename _ _ buf size (by omega) hfn hk, hA]; exact h1
    · rw [kv_get_value_run filename _ _ buf size (by omega) hfn hk, hB]; exact h2
    · rw [cstr_run _ _ (by decide)]; exact ⟨[32], rfl⟩
    · rw [cstr_run _ _ (by decide)]
  · intro hfn hval hv0
    have hk : ([107, 101, 121] : List Nat) ≠ [] := by decide
    have hk0 : ∀ x ∈ ([107, 101, 121] : List Nat), x ≠ 0 := by decide
    constructor
    · rw [kv_set_value_run filename _ value _ hfn hk hval hk0 hv0 hroomA]
      simp [stateLines, hA, writerSpec, rewriteLines, keyFound, lineOut, hlA, hqA]
    · rw [kv_set_value_run filename _ value _ hfn hk hval hk0 hv0 hroomB]
      simp [stateLines, hB, writerSpec, rewriteLines, keyFound, lineOut, hlB, hqB]

/-- C8, amended, with the other key `x`, the value `1` and a buffer of eight
bytes. -/
theorem C8_whitespace_tolerance_witness :
    (kv_get_value [102]
          (some [32, 107, 101, 121, 32, 61, 32, 118, 97, 108, 117, 101, 32, 13, 10]) [120]
          [7, 7, 7, 7, 7, 7, 7, 7] 8
        = kv_get_value [102] (some [107, 101, 121, 61, 118, 97, 108, 117, 101, 10]) [120]
            [7, 7, 7, 7, 7, 7, 7, 7] 8)
    ∧ (kv_set_value [102] true
            (some [32, 107, 101, 121, 32, 61, 32, 118, 97, 108, 117, 101, 32, 13, 10]) [120] [49]
          = some (KV_OK_SUCCESS, some
              (lineOf [32, 107, 101, 121, 32, 61, 32, 118, 97, 108, 117, 101, 32, 13, 10]
                ++ 10 :: entry [120] [49]))
        ∧ kv_set_value [102] true (some [107, 101, 121, 61, 118, 97, 108, 117, 101, 10]) [120] [49]
          = some (KV_OK_SUCCESS, some
              (lineOf [107, 101, 121, 61, 118, 97, 108, 117, 101, 10]
                ++ 10 :: entry [120] [49])))
    ∧ (∃ outA outB,
          kv_get_value [102]
              (some [32, 107, 101, 121, 32, 61, 32, 118, 97, 108, 117, 101, 32, 13, 10])
              [107, 101, 121] [7, 7, 7, 7, 7, 7, 7, 7] 8 = some (KV_OK_SUCCESS, outA)
          ∧ kv_get_value [102] (some [107, 101, 121, 61, 118, 97, 108, 117, 101, 10])
              [107, 101, 121] [7, 7, 7, 7, 7, 7, 7, 7] 8 = some (KV_OK_SUCCESS, outB)
          ∧ [118, 97, 108, 117, 101] <+: cstr outA ∧ [118, 97, 108, 117, 101] <+: cstr outB)
    ∧ (kv_set_value [102] true
            (some [32, 107, 101, 121, 32, 61, 32, 118, 97, 108, 117, 101, 32, 13, 10])
            [107, 101, 121] [49]
          = some (KV_OK_SUCCESS, some (entry [107, 101, 121] [49]))
        ∧ kv_set_value [102] true (some [107, 101, 121, 61, 118, 97, 108, 117, 101, 10])
            [107, 101, 121] [49]
          = some (KV_OK_SUCCESS, some (entry [107, 101, 121] [49]))) :=
  ⟨(C8_whitespace_tolerance [102] [120] [49] [7, 7, 7, 7, 7, 7, 7, 7] 8).1 (by decide),
    (C8_whitespace_tolerance [102] [120] [49] [7, 7, 7, 7, 7, 7, 7, 7] 8).2.1
      (by decide) (by decide) (by decide) (by decide) (by decide) (by decide),
    (C8_whitespace_tolerance [102] [120] [49] [7, 7, 7, 7, 7, 7, 7, 7] 8).2.2.1
      (by decide) (by decide) (by decide),
    (C8_whitespace_tolerance [102] [120] [49] [7, 7, 7, 7, 7, 7, 7, 7] 8).2.2.2
      (by decide) (by decide) (by decide)⟩

/-! ## Claims on argument errors, on a path with no file, and on the helpers -/

/-- C12 as stated fails on a path with no file that cannot be opened for
writing, such as `nodir/f` with no directory `nodir`: with the key `k` and the
value `1`, `kv_set_value` returns `KV_ARGUMENT_ERR`, not 0, and no file is
created. -/
theorem C12_unwritable_path_counterexample :
    kv_set_value [110, 111, 100, 105, 114, 47, 102] false none [107] [49]
      = some (KV_ARGUMENT_ERR, none)
    ∧ KV_ARGUMENT_ERR = -2 ∧ KV_ARGUMENT_ERR ≠ KV_OK_SUCCESS := by
  decide

/-- C12, amended (create if absent).  For a non-empty path, key and value,
`kv_set_value` on a path with no file that can be opened for writing returns
0 and creates the file with the content `key=value` and one LF; on an existing
empty file that can be opened for writing the result is the same; and on a
path with no file that cannot be opened for writing it returns
`KV_ARGUMENT_ERR` and creates no file. -/
theorem C12_create_if_absent (filename key value : List Nat)
    (hfn : filename ≠ []) (hkey : key ≠ []) (hval : value ≠ [])
    (hk : ∀ x ∈ key, x ≠ 0) (hv : ∀ x ∈ value, x ≠ 0) :
    kv_set_value filename true none key value
        = some (KV_OK_SUCCESS, some (key ++ [61] ++ value ++ [10]))
      ∧ kv_set_value filename true (some []) key value
        = some (KV_OK_SUCCESS, some (key ++ [61] ++ value ++ [10]))
      ∧ kv_set_value filename false none key value = some (KV_ARGUMENT_ERR, none) := by
  have h0 : writerSpec key value [] = key ++ [61] ++ value ++ [10] := by
    simp [writerSpec, rewriteLines, keyFound, entry]
  have h1 : stateLines none = [] := rfl
  have h2 : stateLines (some []) = [] := rfl
  refine ⟨?_, ?_, ?_⟩
  · rw [kv_set_value_run filename key value none hfn hkey hval hk hv (by rw [h1]; simp), h1, h0]
  · rw [kv_set_value_run filename key value (some []) hfn hkey hval hk hv (by rw [h2]; simp),
      h2, h0]
  · exact kv_set_value_unwritable filename key value none hfn hkey hval (by rw [h1]; simp)

/-- C12, amended, with the key `gamma` and the value `3`. -/
theorem C12_create_if_absent_witness :
    kv_set_value [102] true none [103, 97, 109, 109, 97] [51]
        = some (KV_OK_SUCCESS, some ([103, 97, 109, 109, 97] ++ [61] ++ [51] ++ [10]))
      ∧ kv_set_value [102] true (some []) [103, 97, 109, 109, 97] [51]
        = some (KV_OK_SUCCESS, some ([103, 97, 109, 109, 97] ++ [61] ++ [51] ++ [10]))
      ∧ kv_set_value [102] false none [103, 97, 109, 109, 97] [51]
        = some (KV_ARGUMENT_ERR, none) :=
  C12_create_if_absent [102] [103, 97, 109, 109, 97] [51]
    (by decide) (by decide) (by decide) (by decide) (by decide)

/-- C14 (Reader argument errors).  When the path is empty, the key is empty,
the capacity is 0 or the file does not exist, `kv_get_value` returns
`KV_ARGUMENT_ERR`, which is -2 and not `KV_NOT_FOUND`, and the caller's buffer
is unchanged. -/
theorem C14_reader_argument_errors (filename : List Nat) (fs : Option (List Nat))
    (key value : List Nat) (size : Nat)
    (h : filename = [] ∨ key = [] ∨ size = 0 ∨ fs = none) :
    kv_get_value filename fs key value size = some (KV_ARGUMENT_ERR, value)
      ∧ KV_ARGUMENT_ERR = -2 ∧ KV_ARGUMENT_ERR ≠ KV_NOT_FOUND := by
  refine ⟨?_, rfl, by decide⟩
  unfold kv_get_value
  by_cases h1 : size = 0
  · rw [if_pos h1]
  · rw [if_neg h1]
    by_cases h2 : filename.length = 0 ∨ key.length = 0
    · rw [if_pos h2]
    · rw [if_neg h2]
      rcases h with h | h | h | h
      · exact absurd (Or.inl (by rw [h]; rfl)) h2
      · exact absurd (Or.inr (by rw [h]; rfl)) h2
      · exact absurd h h1
      · rw [h]

/-- C14, on a path with no file, and on an existing file with an empty path,
an empty key and the capacity 0. -/
theorem C14_reader_argument_errors_witness :
    (kv_get_value [102] none [107] [7, 7, 7, 7] 4 = some (KV_ARGUMENT_ERR, [7, 7, 7, 7])
      ∧ KV_ARGUMENT_ERR = -2 ∧ KV_ARGUMENT_ERR ≠ KV_NOT_FOUND)
    ∧ (kv_get_value [] (some [107, 61, 49, 10]) [107] [7, 7, 7, 7] 4
        = some (KV_ARGUMENT_ERR, [7, 7, 7, 7])
      ∧ KV_ARGUMENT_ERR = -2 ∧ KV_ARGUMENT_ERR ≠ KV_NOT_FOUND)
    ∧ (kv_get_value [102] (some [107, 61, 49, 10]) [] [7, 7, 7, 7] 4
        = some (KV_ARGUMENT_ERR, [7, 7, 7, 7])
      ∧ KV_ARGUMENT_ERR = -2 ∧ KV_ARGUMENT_ERR ≠ KV_NOT_FOUND)
    ∧ (kv_get_value [102] (some [107, 61, 49, 10]) [107] [7, 7, 7, 7] 0
        = some (KV_ARGUMENT_ERR, [7, 7, 7, 7])
      ∧ KV_ARGUMENT_ERR = -2 ∧ KV_ARGUMENT_ERR ≠ KV_NOT_FOUND) :=
  ⟨C14_reader_argument_errors [102] none [107] [7, 7, 7, 7] 4 (by decide),
    C14_reader_argument_errors [] (some [107, 61, 49, 10]) [107] [7, 7, 7, 7] 4 (by decide),
    C14_reader_argument_errors [102] (some [107, 61, 49, 10]) [] [7, 7, 7, 7] 4 (by decide),
    C14_reader_argument_errors [102] (some [107, 61, 49, 10]) [107] [7, 7, 7, 7] 0 (by decide)⟩

/-- C15 (Writer argument errors).  When the path, the key or the value is
empty, `kv_set_value` returns `KV_ARGUMENT_ERR`, which is -2, and the state of
the file is unchanged: an existing file keeps its content, a path with no file
still has none; this whether or not the path can be opened for writing. -/
theorem C15_writer_argument_errors (filename key value : List Nat) (writable : Bool)
    (fs : Option (List Nat)) (h : filename = [] ∨ key = [] ∨ value = []) :
    kv_set_value filename writable fs key value = some (KV_ARGUMENT_ERR, fs)
      ∧ KV_ARGUMENT_ERR = -2 := by
  refine ⟨?_, rfl⟩
  have h1 : filename.length = 0 ∨ key.length = 0 ∨ value.length = 0 := by
    rcases h with h | h | h
    · exact Or.inl (by rw [h]; rfl)
    · exact Or.inr (Or.inl (by rw [h]; rfl))
    · exact Or.inr (Or.inr (by rw [h]; rfl))
  unfold kv_set_value
  rw [if_pos h1]

/-- C15, with an empty value on an existing file, and with an empty key on a
path with no file. -/
theorem C15_writer_argument_errors_witness :
    (kv_set_value [102] true (some [97, 61, 49, 10]) [107] []
        = some (KV_ARGUMENT_ERR, some [97, 61, 49, 10]) ∧ KV_ARGUMENT_ERR = -2)
    ∧ (kv_set_value [102] false none [] [49] = some (KV_ARGUMENT_ERR, none)
        ∧ KV_ARGUMENT_ERR = -2) :=
  ⟨C15_writer_argument_errors [102] [107] [] true (some [97, 61, 49, 10]) (by decide),
    C15_writer_argument_errors [102] [] [49] false none (by decide)⟩

/-- C16 (hexadecimal check), at the strings `12G4` and `hello world`:
`kv_is_hexadecimal` returns true on both.  The argument of `isxdigit` is the
comparison `string[len] == 0`, which is 0 or 1 and never a hexadecimal digit,
so the loop never returns false. -/
theorem C16_hexadecimal_accepts_any :
    kv_is_hexadecimal [49, 50, 71, 52] = true
    ∧ kv_is_hexadecimal [104, 101, 108, 108, 111, 32, 119, 111, 114, 108, 100] = true
    ∧ isxdigit 71 = false ∧ toupper 71 ≠ 88 := by
  decide

/-- C18 (decimal check).  `kv_is_decimal` returns true exactly on the strings
all of whose bytes are decimal digits `0` to `9`: on the empty string, and on
no string with a sign, a space, a dot or a letter. -/
theorem C18_decimal_check :
    (∀ s : List Nat, kv_is_decimal s = true ↔ ∀ c ∈ s, 48 ≤ c ∧ c ≤ 57)
    ∧ kv_is_decimal [] = true
    ∧ kv_is_decimal [49, 50, 51] = true
    ∧ kv_is_decimal [45, 49] = false
    ∧ kv_is_decimal [49, 32] = false
    ∧ kv_is_decimal [49, 46, 53] = false
    ∧ kv_is_decimal [49, 97] = false := by
  refine ⟨?_, by decide, by decide, by decide, by decide, by decide, by decide⟩
  intro s
  have hloop : ∀ l : List Nat, decimalLoop l = true ↔ ∀ c ∈ l, 48 ≤ c ∧ c ≤ 57 := by
    intro l
    induction l with
    | nil => simp [decimalLoop]
    | cons c cs ih =>
      by_cases hc : isdigit c = false
      · have : ¬ (48 ≤ c ∧ c ≤ 57) := by
          intro h
          simp [isdigit, h.1, h.2] at hc
        simp [decimalLoop, hc, this]
      · have hd : 48 ≤ c ∧ c ≤ 57 := by
          simpa [isdigit] using hc
        simp [decimalLoop, hc, ih, hd]
  unfold kv_is_decimal
  rw [hloop]
  constructor
  · intro h c hc; exact h c (List.mem_reverse.mpr hc)
  · intro h c hc; exact h c (List.mem_reverse.mp hc)

/-- C20 (writes stay inside the buffer), on the file `a=hello` with the key
`a` and the capacity 5: the test `token_len > size` lets the value of length
5 through, `kv_get_value` returns 0 and writes the terminator at index 5, the
capacity itself; in a buffer of exactly five bytes that write is outside the
buffer. -/
theorem C20_terminator_at_capacity :
    kv_get_value [102] (some [97, 61, 104, 101, 108, 108, 111]) [97] [7, 7, 7, 7, 7, 7] 5
      = some (KV_OK_SUCCESS, [104, 101, 108, 108, 111, 0])
    ∧ (cstr [104, 101, 108, 108, 111, 0]).length = 5
    ∧ kv_get_value [102] (some [97, 61, 104, 101, 108, 108, 111]) [97] [7, 7, 7, 7, 7] 5
      = none := by
  decide!

/-! ## Claim on the offset `kv_get_value_pos` returns -/

/-- C17 (KeyMatcher offset).  On a line shorter than 512 bytes, a nonzero
result `p` of `kv_get_value_pos` is the index of the first byte of the second
token: the tokens of the line are the key, a token `v` and the rest, the part
of the line before `p` holds the one token `key`, the line from `p` on starts
with `v`, the byte at `p` is not a delimiter, the byte before it is one, and
`p` is at least the length of the key plus 1. -/
theorem C17_value_offset (line key : List Nat) (p : Nat) (hline : ∀ c ∈ line, c ≠ 0)
    (hlen : line.length < KV_LINE_SIZE) (hp : kv_get_value_pos line key = some p)
    (hne : p ≠ 0) :
    ∃ v rest more, tokens line = key :: v :: rest
      ∧ tokens (line.take p) = [key]
      ∧ line.drop p = v ++ more ∧ (∀ c, more.head? = some c → isDelim c = true)
      ∧ (∃ c, peek line p = some c ∧ isDelim c = false)
      ∧ (∃ d, peek line (p - 1) = some d ∧ isDelim d = true)
      ∧ key.length + 1 ≤ p := by
  rw [kv_get_value_pos_run line key hline hlen] at hp
  have hpe : valuePos line key = p := Option.some.inj hp
  have hv : valuePos line key ≠ 0 := by rw [hpe]; exact hne
  obtain ⟨v, rest, more, ht, htext, hmore⟩ := valueText_token line key hv
  obtain ⟨a, a2, s3, hs, hpos, ha, hk, hkne, ha2ne, ha2, hs3ne, hs3⟩ := valuePos_split line key hv
  rw [hpe] at hpos
  unfold valueText at htext
  rw [hpe] at htext
  have hl : line = (a ++ (key ++ a2)) ++ s3 := by rw [hs]; simp
  have hdrop : line.drop p = s3 := by
    rw [hpos]; conv_lhs => rw [hl]
    exact drop_run _ _
  have htake : line.take p = a ++ (key ++ a2) := by
    rw [hpos]; conv_lhs => rw [hl]
    exact List.take_left' rfl
  obtain ⟨y, s4, hy⟩ := List.exists_cons_of_ne_nil hs3ne
  refine ⟨v, rest, more, ht, ?_, htext, hmore, ⟨y, ?_, hs3 y (by rw [hy]; rfl)⟩, ?_, ?_⟩
  · rw [htake]; exact tokens_single a key a2 ha hk hkne ha2
  · rw [hpos]; conv_lhs => rw [hl, hy]
    exact peek_run _ s4 y
  · refine ⟨a2.getLast ha2ne, ?_, ha2 _ (List.getLast_mem ha2ne)⟩
    have e2 : a2 = a2.dropLast ++ [a2.getLast ha2ne] := (List.dropLast_append_getLast ha2ne).symm
    have hl2 : line = (a ++ (key ++ a2.dropLast)) ++ a2.getLast ha2ne :: s3 := by
      conv_lhs => rw [hs, e2]
      simp
    have hp1 : p - 1 = (a ++ (key ++ a2.dropLast)).length := by
      rw [hpos]
      conv_lhs => rw [e2]
      simp only [List.length_append, List.length_cons, List.length_nil]; omega
    rw [hp1]; conv_lhs => rw [hl2]
    exact peek_run _ s3 _
  · rw [hpos]
    have : 0 < a2.length := List.length_pos.mpr ha2ne
    simp only [List.length_append]; omega

/-- C17, on the line `key = value` with the key `key`: the offset is 6. -/
theorem C17_value_offset_witness :
    kv_get_value_pos [107, 101, 121, 32, 61, 32, 118, 97, 108, 117, 101] [107, 101, 121] = some 6
    ∧ ∃ v rest more,
      tokens [107, 101, 121, 32, 61, 32, 118, 97, 108, 117, 101] = [107, 101, 121] :: v :: rest
      ∧ tokens ([107, 101, 121, 32, 61, 32, 118, 97, 108, 117, 101].take 6) = [[107, 101, 121]]
      ∧ [107, 101, 121, 32, 61, 32, 118, 97, 108, 117, 101].drop 6 = v ++ more
      ∧ (∀ c, more.head? = some c → isDelim c = true)
      ∧ (∃ c, peek [107, 101, 121, 32, 61, 32, 118, 97, 108, 117, 101] 6 = some c
          ∧ isDelim c = false)
      ∧ (∃ d, peek [107, 101, 121, 32, 61, 32, 118, 97, 108, 117, 101] (6 - 1) = some d
          ∧ isDelim d = true)
      ∧ [107, 101, 121].length + 1 ≤ 6 :=
  ⟨by decide!, C17_value_offset [107, 101, 121, 32, 61, 32, 118, 97, 108, 117, 101]
    [107, 101, 121] 6 (by decide) (by decide) (by decide!) (by decide)⟩

/-! ## Claims on the capacity and on line terminators -/

/-- C11 as stated fails in two ways.  With the capacity 0 the file `k=1`
stores a value longer than the capacity, and `kv_get_value` returns
`KV_ARGUMENT_ERR`.  And on a file whose first line, of 514 bytes, does not
define `k` and whose second line is `k=22222`, with the capacity 3, `fgets`
delivers the first line in two pieces, the second piece `k=1` matches, and
`kv_get_value` returns 0 with `1`. -/
theorem C11_capacity_counterexample :
    kv_get_value [102] (some [107, 61, 49, 10]) [107] [7, 7, 7, 7] 0
      = some (KV_ARGUMENT_ERR, [7, 7, 7, 7])
    ∧ textLines (32 :: List.replicate 510 97
          ++ [107, 61, 49, 10, 107, 61, 50, 50, 50, 50, 50, 10])
      = [32 :: List.replicate 510 97 ++ [107, 61, 49, 10], [107, 61, 50, 50, 50, 50, 50, 10]]
    ∧ definesKey (lineOf (32 :: List.replicate 510 97 ++ [107, 61, 49, 10])) [107] = false
    ∧ tokens (lineOf [107, 61, 50, 50, 50, 50, 50, 10]) = [[107], [50, 50, 50, 50, 50]]
    ∧ kv_get_value [102] (some (32 :: List.replicate 510 97
          ++ [107, 61, 49, 10, 107, 61, 50, 50, 50, 50, 50, 10])) [107] [7, 7, 7, 7] 3
      = some (KV_OK_SUCCESS, [49, 0, 7, 7]) := by
  decide!

/-- C11, amended (capacity boundary).  In a file read line by line as `fgets`
delivers it, let `L` be the first line that defines the key, with no line up
to it keeping 511 bytes after trimming.  When the text of `L` from its value
token on, which is at least as long as the value token, is longer than the
capacity, and the capacity is not 0, `kv_get_value` returns
`KV_OUT_OF_MEM_ERR`, which is -1, and the caller's buffer is unchanged. -/
theorem C11_capacity_boundary (filename content key value : List Nat) (size : Nat)
    (pre : List (List Nat)) (L : List Nat) (post : List (List Nat))
    (hfn : filename ≠ []) (hsize : size ≠ 0) (hsplit : fileChunks content = pre ++ L :: post)
    (hpre : ∀ c ∈ pre, (lineOf c).length < 511 ∧ definesKey (lineOf c) key = false)
    (hroom : (lineOf L).length < 511) (hL : definesKey (lineOf L) key = true)
    (hlong : size < (valueText (lineOf L) key).length) :
    kv_get_value filename (some content) key value size = some (KV_OUT_OF_MEM_ERR, value)
      ∧ KV_OUT_OF_MEM_ERR = -1
      ∧ ∀ v rest, tokens (lineOf L) = key :: v :: rest →
          v.length ≤ (valueText (lineOf L) key).length := by
  have hp : valuePos (lineOf L) key ≠ 0 := (definesKey_valuePos _ _).mp hL
  have hkey : key ≠ [] := ((valuePos_ne_zero_iff _ _).mp hp).1
  refine ⟨?_, rfl, fun v rest h => valueText_length_ge _ _ v rest h⟩
  rw [kv_get_value_run filename content key value size hsize hfn hkey, hsplit,
    readerSpec_skip key value size pre (L :: post)
      (fun c hc => ⟨by have := (hpre c hc).1; simp only [KV_LINE_SIZE]; omega,
        valuePos_of_not_definesKey _ _ (hpre c hc).2⟩)]
  exact readerSpec_over key value size L post (by simp only [KV_LINE_SIZE]; omega) hp hlong

/-- C11, amended, on the file `a=0`, `k=hello` with the key `k` and the
capacity 4. -/
theorem C11_capacity_boundary_witness :
    kv_get_value [102] (some [97, 61, 48, 10, 107, 61, 104, 101, 108, 108, 111, 10]) [107]
        [7, 7, 7, 7] 4 = some (KV_OUT_OF_MEM_ERR, [7, 7, 7, 7])
      ∧ KV_OUT_OF_MEM_ERR = -1
      ∧ ∀ v rest, tokens (lineOf [107, 61, 104, 101, 108, 108, 111, 10]) = [107] :: v :: rest →
          v.length ≤ (valueText (lineOf [107, 61, 104, 101, 108, 108, 111, 10]) [107]).length :=
  C11_capacity_boundary [102] [97, 61, 48, 10, 107, 61, 104, 101, 108, 108, 111, 10] [107]
    [7, 7, 7, 7] 4 [[97, 61, 48, 10]] [107, 61, 104, 101, 108, 108, 111, 10] []
    (by decide) (by decide) (by decide) (by decide) (by decide) (by decide) (by decide)

/-- C13 as stated fails on the CR-only file `a=1\rb=2\r` with the key `b`:
`fgets` delivers the whole file as one line, `kv_trim_string` cuts it at the
first CR, and `kv_get_value` returns `KV_NOT_FOUND`; on the LF version of the
file it returns 0 with `2`. -/
theorem C13_cr_only_counterexample :
    fileChunks [97, 61, 49, 13, 98, 61, 50, 13] = [[97, 61, 49, 13, 98, 61, 50, 13]]
    ∧ lineOf [97, 61, 49, 13, 98, 61, 50, 13] = [97, 61, 49]
    ∧ kv_get_value [102] (some [97, 61, 49, 13, 98, 61, 50, 13]) [98] [7, 7, 7, 7] 4
      = some (KV_NOT_FOUND, [7, 7, 7, 7])
    ∧ kv_get_value [102] (some [97, 61, 49, 10, 98, 61, 50, 10]) [98] [7, 7, 7, 7] 4
      = some (KV_OK_SUCCESS, [50, 0, 7, 7]) := by
  decide!

/-- C13, amended (line terminators).  In a file made of entries `key=value`,
one per line, each line ending in LF or in CR LF, let the entry (`key`,
`value`) be the first one with the key `key`.  When the keys and values of
the entries up to it are well-formed, the keys do not begin with white space
and each line, with its terminator and the NUL, fits the 512-byte line
buffer, `kv_get_value` with a capacity greater
than the length of the value returns 0 with the value, NUL-terminated, in the
buffer, whichever of the two terminators each line has. -/
theorem C13_lf_and_crlf (filename key value buf : List Nat) (size : Nat) (crlf : Bool)
    (pre post : List (List Nat × List Nat × Bool))
    (hfn : filename ≠ []) (hk : wellFormed key) (hv : wellFormed value)
    (hh : ∀ c, key.head? = some c → isspace c = false)
    (hfit : key.length + value.length + (if crlf = true then 4 else 3) ≤ KV_LINE_SIZE)
    (hpre : ∀ e ∈ pre, wellFormed e.1 ∧ wellFormed e.2.1
      ∧ (∀ c, e.1.head? = some c → isspace c = false)
      ∧ e.1.length + e.2.1.length + (if e.2.2 = true then 4 else 3) ≤ KV_LINE_SIZE
      ∧ e.1 ≠ key)
    (hsize : value.length < size) (hbuf : size ≤ buf.length) :
    kv_get_value filename (some (entriesFile (pre ++ (key, value, crlf) :: post))) key buf size
      = some (KV_OK_SUCCESS, value ++ 0 :: buf.drop (value.length + 1)) := by
  rw [kv_get_value_run filename _ key buf size (by omega) hfn hk.1]
  have hfit3 : key.length + value.length + 3 ≤ KV_LINE_SIZE := by
    split at hfit <;> omega
  induction pre with
  | nil =>
    rw [List.nil_append, entriesFile_cons, fileChunks_entryLine key value _ crlf hk hv hfit]
    have hl := lineOf_entryLine key value crlf hk hv hh
    obtain ⟨hpe, hvt⟩ := valuePos_entry key value hk hv
    have := readerSpec_hit key buf size (entryLine key value crlf)
      (fileChunks (entriesFile post))
      (by rw [hl]; simp only [List.length_append, List.length_cons]; omega)
      (by rw [hl, hpe]; omega) (by rw [hl, hvt]; exact hsize) hbuf
    rw [hl, hvt] at this
    exact this
  | cons e pre ih =>
    obtain ⟨he1, he2, he3, he4, he5⟩ := hpre e (by simp)
    have he43 : e.1.length + e.2.1.length + 3 ≤ KV_LINE_SIZE := by
      split at he4 <;> omega
    rw [List.cons_append, entriesFile_cons, fileChunks_entryLine e.1 e.2.1 _ e.2.2 he1 he2 he4]
    have hl := lineOf_entryLine e.1 e.2.1 e.2.2 he1 he2 he3
    have := readerSpec_skip key buf size [entryLine e.1 e.2.1 e.2.2]
      (fileChunks (entriesFile (pre ++ (key, value, crlf) :: post)))
      (by
        intro c hc
        rw [List.mem_singleton.mp hc, hl]
        exact ⟨by simp only [List.length_append, List.length_cons]; omega,
          valuePos_other_entry e.1 e.2.1 key he1 he5⟩)
    rw [List.singleton_append] at this
    rw [this]
    exact ih (fun x hx => hpre x (by simp [hx]))

/-- C13, amended, on the file `a=1\r\nb=2\n` with the key `b`. -/
theorem C13_lf_and_crlf_witness :
    entriesFile ([([97], [49], true)] ++ ([98], [50], false) :: [])
      = [97, 61, 49, 13, 10, 98, 61, 50, 10]
    ∧ kv_get_value [102]
        (some (entriesFile ([([97], [49], true)] ++ ([98], [50], false) :: []))) [98]
        [7, 7, 7, 7] 4
      = some (KV_OK_SUCCESS, [50] ++ 0 :: [7, 7, 7, 7].drop ([50].length + 1)) :=
  ⟨by decide, C13_lf_and_crlf [102] [98] [50] [7, 7, 7, 7] 4 false [([97], [49], true)] []
    (by decide) ⟨by decide, by decide⟩ ⟨by decide, by decide⟩ (by decide) (by decide)
    (fun e he => by
      rw [List.mem_singleton.mp he]
      exact ⟨⟨by decide, by decide⟩, ⟨by decide, by decide⟩, by decide, by decide, by decide⟩)
    (by decide) (by decide)⟩

/-! ## Claim on the keys a write does not name -/

/-- C19 as stated fails in two ways.  For the key made of 511 times `a` and a
`b`, the value `1` and the other key `b`, on an empty file: before the write
the lookup of `b` returns `KV_NOT_FOUND`; the line written does not fit the
line buffer, so it is read back in two pieces, of which the first makes
`kv_trim_string` read outside the buffer and the second, `b=1`, defines the
key `b`.  And for the key `k`, the value `1` and the other key `b` on a path
with no file that cannot be opened for writing: `kv_set_value` returns
`KV_ARGUMENT_ERR` and creates no file, so the lookup after it returns
`KV_ARGUMENT_ERR`, where an empty file gives `KV_NOT_FOUND`. -/
theorem C19_long_key_counterexample :
    (∀ c ∈ List.replicate 511 97 ++ [98], c ≠ 0 ∧ isDelim c = false ∧ isspace c = false)
    ∧ kv_get_value [102] (some []) [98] [7, 7, 7, 7] 4 = some (KV_NOT_FOUND, [7, 7, 7, 7])
    ∧ kv_set_value [102] true (some []) (List.replicate 511 97 ++ [98]) [49]
      = some (KV_OK_SUCCESS, some (List.replicate 511 97 ++ [98, 61, 49, 10]))
    ∧ fileChunks (List.replicate 511 97 ++ [98, 61, 49, 10])
      = [List.replicate 511 97, [98, 61, 49, 10]]
    ∧ definesKey (lineOf [98, 61, 49, 10]) [98] = true
    ∧ kv_get_value [102] (some (List.replicate 511 97 ++ [98, 61, 49, 10])) [98]
        [7, 7, 7, 7] 4 = none
    ∧ kv_set_value [102] false none [107] [49] = some (KV_ARGUMENT_ERR, none)
    ∧ kv_get_value [102] none [98] [7, 7, 7, 7] 4 = some (KV_ARGUMENT_ERR, [7, 7, 7, 7])
    ∧ KV_ARGUMENT_ERR ≠ KV_NOT_FOUND := by
  decide!

/-- C19, amended (other keys are untouched by a write).  Let the key `k` and
the value `v` be well-formed, `k` not begin with white space, the line `k=v`
with its LF and terminator fit the 512-byte line buffer, and the file be
absent or have no line, as `fgets` delivers it, that keeps 511 bytes after
trimming.  Then `kv_set_value` returns a status, 0 exactly when the path can
be opened for writing.  When it can, for every other key `k2`, every buffer
and every capacity, `kv_get_value` gives on the file written the result it
gave on the file before, an absent file counting as an empty one.  When it
cannot, the state of the file is the one before the call, so that
`kv_get_value` gives the result it gave before. -/
theorem C19_other_keys_untouched (filename k v k2 buf : List Nat) (writable : Bool)
    (fs : Option (List Nat)) (size : Nat)
    (hfn : filename ≠ []) (hk : wellFormed k) (hv : wellFormed v)
    (hh : ∀ c, k.head? = some c → isspace c = false)
    (hfit : k.length + v.length + 3 ≤ KV_LINE_SIZE)
    (hroom : ∀ c ∈ stateLines fs, (lineOf c).length < 511) (hne : k ≠ k2) :
    ∃ st post, kv_set_value filename writable fs k v = some (st, post)
      ∧ (st = KV_OK_SUCCESS ↔ writable = true)
      ∧ (writable = true →
          kv_get_value filename post k2 buf size
            = kv_get_value filename (some (fs.getD [])) k2 buf size)
      ∧ (writable = false →
          post = fs
          ∧ kv_get_value filename post k2 buf size = kv_get_value filename fs k2 buf size) := by
  have hroom1 : ∀ c ∈ stateLines fs, (lineOf c).length + 2 ≤ KV_LINE_SIZE := by
    intro c hc
    have := hroom c hc
    simp only [KV_LINE_SIZE]; omega
  have hst : stateLines fs = fileChunks (fs.getD []) := by
    cases fs <;> rfl
  cases writable with
  | false =>
    exact ⟨KV_ARGUMENT_ERR, fs,
      kv_set_value_unwritable filename k v fs hfn hk.1 hv.1 hroom1, by decide,
      fun h => absurd h (by decide), fun _ => ⟨rfl, rfl⟩⟩
  | true =>
    refine ⟨KV_OK_SUCCESS, _,
      kv_set_value_run filename k v fs hfn hk.1 hv.1 (fun x hx => (hk.2 x hx).1)
        (fun x hx => (hv.2 x hx).1) hroom1, by simp, ?_, fun h => absurd h (by decide)⟩
    intro _
    by_cases h1 : size = 0
    · unfold kv_get_value
      rw [if_pos h1, if_pos h1]
    · by_cases h2 : filename.length = 0 ∨ k2.length = 0
      · unfold kv_get_value
        rw [if_neg h1, if_pos h2, if_neg h1, if_pos h2]
      · have hk2 : k2 ≠ [] := fun e => h2 (Or.inr (by rw [e]; rfl))
        rw [kv_get_value_run filename _ k2 buf size h1 hfn hk2,
          kv_get_value_run filename _ k2 buf size h1 hfn hk2,
          fileChunks_writerSpec k v _ hk hv hh hfit hroom1,
          readerSpec_frame k v k2 buf size hk hv hh hfit hne _ hroom1, hst]

/-- C19, amended, on the file `alpha=1`, `beta=2` at a path that can be opened
for writing, writing (`beta`, `9`) and looking up `alpha`: the result is 0
with `1` before and after. -/
theorem C19_other_keys_untouched_witness :
    kv_get_value [102]
        (some ((some [97, 108, 112, 104, 97, 61, 49, 10, 98, 101, 116, 97, 61, 50, 10]).getD []))
        [97, 108, 112, 104, 97] [7, 7, 7, 7] 4 = some (KV_OK_SUCCESS, [49, 0, 7, 7])
    ∧ ∃ st post,
      kv_set_value [102] true (some [97, 108, 112, 104, 97, 61, 49, 10, 98, 101, 116, 97, 61, 50, 10])
          [98, 101, 116, 97] [57] = some (st, post)
      ∧ (st = KV_OK_SUCCESS ↔ true = true)
      ∧ (true = true →
          kv_get_value [102] post [97, 108, 112, 104, 97] [7, 7, 7, 7] 4
            = kv_get_value [102]
                (some ((some [97, 108, 112, 104, 97, 61, 49, 10, 98, 101, 116, 97, 61, 50,
                  10]).getD []))
                [97, 108, 112, 104, 97] [7, 7, 7, 7] 4)
      ∧ (true = false →
          post = some [97, 108, 112, 104, 97, 61, 49, 10, 98, 101, 116, 97, 61, 50, 10]
          ∧ kv_get_value [102] post [97, 108, 112, 104, 97] [7, 7, 7, 7] 4
            = kv_get_value [102]
                (some [97, 108, 112, 104, 97, 61, 49, 10, 98, 101, 116, 97, 61, 50, 10])
                [97, 108, 112, 104, 97] [7, 7, 7, 7] 4) :=
  ⟨by decide!, C19_other_keys_untouched [102] [98, 101, 116, 97] [57] [97, 108, 112, 104, 97]
    [7, 7, 7, 7] true (some [97, 108, 112, 104, 97, 61, 49, 10, 98, 101, 116, 97, 61, 50, 10]) 4
    (by decide) ⟨by decide, by decide⟩ ⟨by decide, by decide⟩ (by decide) (by decide)
    (by decide) (by decide)⟩

end KV
